import Mathlib

/-!
# Verification of the f18 Fortran compiler middle tier

This development shallowly embeds two subsystems of the repository and proves
properties of the embedding:

* the FIR operation catalog (`flang/lib/Optimizer/Dialect/FIROps.cpp`):
  result-type wrapping for allocation operations, conversion folding, the
  conditional-operation verifier, global linkage validation, and the
  length-segmented variadic operand machinery of `fir.select_case`;
* the Program Flow Tree builder (`flang/lib/Lower/PFTBuilder.cpp`):
  terminal-evaluation insertion, branch analysis (unstructured propagation,
  RETURN/STOP handling), and the symbol dependence analysis with alias
  (equivalence-storage) resolution.

Machine integers of the source are modelled as `Nat` (the quantities involved
are sizes, counts and offsets that the source never overflows); fallible
operations return `Option`/`Except`.
-/

/-! ## FIR types

The subset of the MLIR/FIR type system inspected by the modelled operations.
`fir.ref`, `fir.heap`, `fir.ptr` are the memory reference types; `fn`
stands for `mlir::FunctionType`; the remaining constructors are scalar types
(`mlir::IntegerType` with a width, `fir.int`, `fir.logical`, `fir.char`,
`fir.real` with kinds, `mlir::FloatType`, `mlir::IndexType`).
-/
inductive FirType where
  | ref : FirType → FirType
  | heap : FirType → FirType
  | ptr : FirType → FirType
  | fn : Nat → FirType
  | int : Nat → FirType
  | firInt : Nat → FirType
  | firLogical : Nat → FirType
  | firChar : Nat → FirType
  | firReal : Nat → FirType
  | float : Nat → FirType
  | index : FirType
  deriving DecidableEq, Repr

/-- `ty.isa<fir::ReferenceType>()` -/
def FirType.isaReference : FirType → Bool
  | .ref _ => true
  | _ => false

/-- `ty.isa<fir::HeapType>()` -/
def FirType.isaHeap : FirType → Bool
  | .heap _ => true
  | _ => false

/-- `ty.isa<fir::PointerType>()` -/
def FirType.isaPointer : FirType → Bool
  | .ptr _ => true
  | _ => false

/-- `ty.isa<mlir::FunctionType>()` -/
def FirType.isaFunction : FirType → Bool
  | .fn _ => true
  | _ => false

/-- `ty.isa<mlir::IntegerType>()` -/
def FirType.isaInteger : FirType → Bool
  | .int _ => true
  | _ => false

/-- `ty.isa<fir::LogicalType>()` -/
def FirType.isaLogical : FirType → Bool
  | .firLogical _ => true
  | _ => false

/-- `fir::AllocaOp::wrapResultType`: FIR semantics disallow memory references
to memory references; otherwise the result is a reference to the input type. -/
def AllocaOp.wrapResultType (intype : FirType) : Option FirType :=
  if intype.isaReference then none
  else some (FirType.ref intype)

/-- `fir::AllocMemOp::wrapResultType`: one may not allocate a memory reference
value (reference, heap, pointer) nor a function value; otherwise the result is
a heap reference to the input type. -/
def AllocMemOp.wrapResultType (intype : FirType) : Option FirType :=
  if intype.isaReference || intype.isaHeap || intype.isaPointer || intype.isaFunction then none
  else some (FirType.heap intype)

/-! ## ConvertOp folding -/

/-- An SSA value: either a block argument (opaque, with its type) or the result
of a `fir.convert` whose operand is the nested value and whose result type is
the second component. -/
inductive MValue where
  | blockArg : FirType → Nat → MValue
  | convertResult : MValue → FirType → MValue
  deriving DecidableEq, Repr

/-- `mlir::Value::getType()` -/
def MValue.type : MValue → FirType
  | .blockArg ty _ => ty
  | .convertResult _ toTy => toTy

/-- `fir::ConvertOp::fold`.  `value` is the operand of the convert being
folded and `resultType` its result type.  The operand's defining operation, if
it is itself a convert, is visible through the `convertResult` constructor
(`inner.value()` is the nested value, `inner.getType()` is `value.type`). -/
def ConvertOp.fold (value : MValue) (resultType : FirType) : Option MValue :=
  if value.type = resultType then some value
  else
    match value with
    | .convertResult innerValue _ =>
      match resultType, innerValue.type with
      | .firLogical k1, .firLogical k2 =>
        -- (convert (convert 'a : logical -> i1) : i1 -> logical) ==> forward 'a
        if value.type.isaInteger && k1 = k2 then some innerValue else none
      | .int w1, .int w2 =>
        -- (convert (convert 'a : i1 -> logical) : logical -> i1) ==> forward 'a
        if value.type.isaLogical && w1 = w2 && w2 = 1 then some innerValue else none
      | _, _ => none
    | _ => none

/-! ## IfOp verification -/

/-- The fields of a `fir.if` operation inspected by its verifier: the number
of results and the number of blocks of the else (`other`) region
(`otherRegion().empty()` holds exactly when that count is zero). -/
structure IfOp where
  numResults : Nat
  otherRegionBlocks : Nat
  deriving DecidableEq, Repr

/-- `verify(fir::IfOp)` -/
def IfOp.verify (op : IfOp) : Except String Unit :=
  if op.numResults ≠ 0 ∧ op.otherRegionBlocks = 0 then
    Except.error "must have an else block if defining values"
  else Except.ok ()

/-! ## GlobalOp linkage -/

/-- The linkage whitelist of `fir::GlobalOp::verifyValidLinkage`. -/
def GlobalOp.validNames : List String := ["common", "internal", "linkonce", "weak"]

/-- Success of `fir::GlobalOp::verifyValidLinkage` (the source returns
`mlir::success(llvm::is_contained(validNames, linkage))`). -/
def GlobalOp.verifyValidLinkage (linkage : String) : Bool :=
  GlobalOp.validNames.contains linkage

/-- The leading-linkage phase of `parseGlobalOp`: if an optional leading
keyword (a bare identifier) is present, it must pass linkage validation, and
parsing fails otherwise; an absent keyword leaves the linkage attribute
unset. -/
def parseGlobalOpLinkage : Option String → Except Unit (Option String)
  | some kw => if GlobalOp.verifyValidLinkage kw then Except.ok (some kw) else Except.error ()
  | none => Except.ok none

/-! ## Theorems: FIR allocation, conversion, conditional, linkage -/

/-- C9: for every input type `T`, stack allocation's result-type wrapper
(`AllocaOp.wrapResultType`) returns the null type exactly when `T` is a
reference type and otherwise a reference to `T`; heap allocation's result-type
wrapper (`AllocMemOp.wrapResultType`) returns the null type exactly when `T`
is a reference, heap, pointer, or function type and otherwise a heap reference
to `T`. -/
theorem c9_alloc_wrap_result_type (t : FirType) :
    (AllocaOp.wrapResultType t = none ↔ ∃ u, t = FirType.ref u) ∧
    ((∀ u, t ≠ FirType.ref u) → AllocaOp.wrapResultType t = some (FirType.ref t)) ∧
    (AllocMemOp.wrapResultType t = none ↔
      (∃ u, t = FirType.ref u) ∨ (∃ u, t = FirType.heap u) ∨
      (∃ u, t = FirType.ptr u) ∨ (∃ n, t = FirType.fn n)) ∧
    (((∀ u, t ≠ FirType.ref u) ∧ (∀ u, t ≠ FirType.heap u) ∧
      (∀ u, t ≠ FirType.ptr u) ∧ (∀ n, t ≠ FirType.fn n)) →
      AllocMemOp.wrapResultType t = some (FirType.heap t)) := by
  cases t <;>
    simp [AllocaOp.wrapResultType, AllocMemOp.wrapResultType,
      FirType.isaReference, FirType.isaHeap, FirType.isaPointer, FirType.isaFunction]

theorem c9_alloc_wrap_result_type_witness :
    AllocaOp.wrapResultType (FirType.int 32) = some (FirType.ref (FirType.int 32)) ∧
    AllocMemOp.wrapResultType (FirType.int 32) = some (FirType.heap (FirType.int 32)) :=
  ⟨(c9_alloc_wrap_result_type (FirType.int 32)).2.1 (by intro u h; simp at h),
   (c9_alloc_wrap_result_type (FirType.int 32)).2.2.2
     ⟨by intro u h; simp at h, by intro u h; simp at h,
      by intro u h; simp at h, by intro n h; simp at h⟩⟩

/-- C10: folding a ConvertOp whose operand type equals its result type returns
the operand value itself, for every input value (conversion of a value to its
own type folds to the identity). -/
theorem c10_convert_fold_identity (v : MValue) (ty : FirType) (h : v.type = ty) :
    ConvertOp.fold v ty = some v := by
  simp [ConvertOp.fold, h]

theorem c10_convert_fold_identity_witness :
    (MValue.blockArg (FirType.int 32) 0).type = FirType.int 32 ∧
    ConvertOp.fold (MValue.blockArg (FirType.int 32) 0) (FirType.int 32) =
      some (MValue.blockArg (FirType.int 32) 0) :=
  ⟨rfl, c10_convert_fold_identity (MValue.blockArg (FirType.int 32) 0) (FirType.int 32) rfl⟩

/-- C4: verification of `fir.if` fails with the diagnostic "must have an else
block if defining values" if and only if the operation has a non-zero number
of results and its else region is empty; in every other case the verifier
succeeds, and no other diagnostic is ever produced. -/
theorem c4_if_verifier_characterization (op : IfOp) :
    (IfOp.verify op = Except.error "must have an else block if defining values" ↔
      (op.numResults ≠ 0 ∧ op.otherRegionBlocks = 0)) ∧
    (IfOp.verify op = Except.ok () ↔ ¬(op.numResults ≠ 0 ∧ op.otherRegionBlocks = 0)) ∧
    (∀ msg, IfOp.verify op = Except.error msg →
      msg = "must have an else block if defining values") := by
  unfold IfOp.verify
  by_cases h : op.numResults ≠ 0 ∧ op.otherRegionBlocks = 0 <;> simp [h]

theorem c4_if_verifier_characterization_witness :
    IfOp.verify ⟨1, 0⟩ = Except.error "must have an else block if defining values" ∧
    IfOp.verify ⟨1, 1⟩ = Except.ok () ∧
    IfOp.verify ⟨0, 0⟩ = Except.ok () ∧
    "must have an else block if defining values" =
      "must have an else block if defining values" :=
  ⟨(c4_if_verifier_characterization ⟨1, 0⟩).1.mpr (by decide),
   (c4_if_verifier_characterization ⟨1, 1⟩).2.1.mpr (by decide),
   (c4_if_verifier_characterization ⟨0, 0⟩).2.1.mpr (by decide),
   (c4_if_verifier_characterization ⟨1, 0⟩).2.2 _
     ((c4_if_verifier_characterization ⟨1, 0⟩).1.mpr (by decide))⟩

/-- C8: GlobalOp linkage validation succeeds if and only if the linkage
keyword is one of "common", "internal", "linkonce", "weak"; parsing a global
definition whose leading linkage keyword is any other identifier fails, and an
absent leading keyword parses with no linkage attribute. -/
theorem c8_global_linkage_whitelist (s : String) :
    (GlobalOp.verifyValidLinkage s = true ↔
      (s = "common" ∨ s = "internal" ∨ s = "linkonce" ∨ s = "weak")) ∧
    (parseGlobalOpLinkage (some s) = Except.ok (some s) ↔
      (s = "common" ∨ s = "internal" ∨ s = "linkonce" ∨ s = "weak")) ∧
    (parseGlobalOpLinkage (some s) = Except.error () ↔
      ¬(s = "common" ∨ s = "internal" ∨ s = "linkonce" ∨ s = "weak")) ∧
    parseGlobalOpLinkage none = Except.ok none := by
  have hmem : GlobalOp.verifyValidLinkage s = true ↔
      (s = "common" ∨ s = "internal" ∨ s = "linkonce" ∨ s = "weak") := by
    simp [GlobalOp.verifyValidLinkage, GlobalOp.validNames, List.contains, List.elem_eq_mem]
  refine ⟨hmem, ?_, ?_, rfl⟩ <;>
    by_cases h : GlobalOp.verifyValidLinkage s = true <;>
      simp [parseGlobalOpLinkage, h, hmem.symm, ← hmem]

/-! ## SelectCaseOp: length-segmented variadic operands -/

/-- Operand values, identified abstractly. -/
abbrev Val := Nat

/-- The case attributes accepted by `fir::isValidCaseAttr`: `mlir::UnitAttr`
(the default case), `fir::ClosedIntervalAttr`, and the point-style attributes
`fir::PointIntervalAttr`, `fir::LowerBoundAttr`, `fir::UpperBoundAttr`. -/
inductive CaseAttr where
  | unitAttr | closedInterval | pointInterval | lowerBound | upperBound
  deriving DecidableEq, Repr

/-- Number of compare operands a case consumes, as hard-coded identically in
`fir::SelectCaseOp::build` and `parseSelectCase`: a closed interval takes two,
a unit (default) case none, and every other case attribute one. -/
def CaseAttr.operandCount : CaseAttr → Nat
  | .unitAttr => 0
  | .closedInterval => 2
  | .pointInterval => 1
  | .lowerBound => 1
  | .upperBound => 1

/-- A constructed `fir.select_case` operation: the physical operand list
(selector first, then all compare operands, then all successor operands) and
the side attributes recording the segmentation, plus the successor count. -/
structure SelectCaseOp where
  operands : List Val
  cases : List CaseAttr
  compareOffsets : List Nat
  targetOffsets : List Nat
  segmentSizes : List Nat
  numDests : Nat
  deriving DecidableEq, Repr

/-- `getSubOperands`: retrieving segment `pos` slices the operand list at the
sum of the lengths of segments `0..pos-1`, taking `ranges[pos]` elements. -/
def getSubOperands (pos : Nat) (allArgs : List Val) (ranges : List Nat) : List Val :=
  (allArgs.drop ((ranges.take pos).sum)).take (ranges.getD pos 0)

/-- `compareArgs()`: segment 1 of the physical operand list (segment 0 is the
selector, segment 2 the successor operands). -/
def SelectCaseOp.compareArgs (op : SelectCaseOp) : List Val :=
  getSubOperands 1 op.operands op.segmentSizes

/-- `targetArgs()`: segment 2 of the physical operand list. -/
def SelectCaseOp.targetArgs (op : SelectCaseOp) : List Val :=
  getSubOperands 2 op.operands op.segmentSizes

/-- `fir::SelectCaseOp::getCompareOperands(cond)` -/
def SelectCaseOp.getCompareOperands (op : SelectCaseOp) (cond : Nat) : List Val :=
  getSubOperands cond op.compareArgs op.compareOffsets

/-- `fir::SelectCaseOp::getSuccessorOperands(oper)` -/
def SelectCaseOp.getSuccessorOperands (op : SelectCaseOp) (oper : Nat) : List Val :=
  getSubOperands oper op.targetArgs op.targetOffsets

/-- `fir::SelectCaseOp::build` (the variant taking the compare operands
already partitioned per case).  `numDests` is the number of destination
blocks; destination operand lists beyond it are ignored, missing ones count
as empty. -/
def SelectCaseOp.build (selector : Val) (compareAttrs : List CaseAttr)
    (cmpOperands : List (List Val)) (numDests : Nat)
    (destOperands : List (List Val)) : SelectCaseOp :=
  let operOffs := compareAttrs.map CaseAttr.operandCount
  let operSize := operOffs.sum
  let argOffs := (List.range numDests).map fun i => (destOperands.getD i []).length
  let sumArgs := argOffs.sum
  { operands := selector :: (cmpOperands.flatten ++ (destOperands.take numDests).flatten)
    cases := compareAttrs
    compareOffsets := operOffs
    targetOffsets := argOffs
    segmentSizes := [1, operSize, sumArgs]
    numDests := numDests }

/-- The printed textual form of a `fir.select_case`, abstracted to the data
the parser consumes: the selector, then per case the case attribute, the
compare operand tokens and the successor operand list. -/
structure SelectCaseText where
  selector : Val
  caseList : List (CaseAttr × List Val × List Val)
  deriving DecidableEq, Repr

/-- Modelled from the spec: the printer of `fir.select_case` (not among the
provided sources) emits, per the de facto round-trip contract, the selector
followed by each case's attribute, its compare operand group (as retrieved by
`getCompareOperands`) and its successor with the successor's operand list (as
retrieved by `getSuccessorOperands`). -/
def SelectCaseOp.printedForm (op : SelectCaseOp) : SelectCaseText :=
  { selector := op.operands.headD 0
    caseList := (List.range op.cases.length).map fun i =>
      (op.cases.getD i .unitAttr, op.getCompareOperands i, op.getSuccessorOperands i) }

/-- The per-case loop of `parseSelectCase`: each case attribute determines how
many operand tokens the grammar consumes before the successor (`0` for a unit
attribute, `2` for a closed interval, `1` otherwise); a printed form whose
token counts disagree fails to parse.  Returns the accumulated case
attributes, compare operands, compare offsets, and successor operand lists. -/
def parseCases :
    List (CaseAttr × List Val × List Val) →
    Option (List CaseAttr × List Val × List Nat × List (List Val))
  | [] => some ([], [], [], [])
  | (attr, ops, dargs) :: rest =>
    if ops.length = attr.operandCount then
      match parseCases rest with
      | some (attrs, opers, argOffs, destArgs) =>
        some (attr :: attrs, ops ++ opers, attr.operandCount :: argOffs, dargs :: destArgs)
      | none => none
    else none

/-- `parseSelectCase`: assembles the operation state from the parsed pieces,
recomputing the three segmentation attributes. -/
def parseSelectCase (t : SelectCaseText) : Option SelectCaseOp :=
  match parseCases t.caseList with
  | none => none
  | some (attrs, opers, argOffs, destArgs) =>
    let offSize := argOffs.sum
    let targOffs := destArgs.map List.length
    let toffSize := targOffs.sum
    some { operands := t.selector :: (opers ++ destArgs.flatten)
           cases := attrs
           compareOffsets := argOffs
           targetOffsets := targOffs
           segmentSizes := [1, offSize, toffSize]
           numDests := destArgs.length }

/-! ## Theorems: segmented operand round trip -/

theorem getSubOperands_flatten (ls : List (List Val)) :
    ∀ i, getSubOperands i ls.flatten (ls.map List.length) = ls.getD i [] := by
  induction ls with
  | nil => intro i; cases i <;> simp [getSubOperands]
  | cons hd tl ih =>
    intro i
    cases i with
    | zero =>
      simp [getSubOperands, List.take_left]
    | succ n =>
      have h := ih n
      simp only [getSubOperands] at h ⊢
      simp only [List.map_cons, List.take_succ_cons, List.sum_cons, List.getD_cons_succ,
        List.flatten_cons]
      rw [List.drop_append]
      exact h

theorem map_range_getD {α : Type} (l : List α) (d : α) :
    (List.range l.length).map (fun i => l.getD i d) = l := by
  induction l with
  | nil => simp
  | cons hd tl ih =>
    rw [List.length_cons, List.range_succ_eq_map, List.map_cons, List.map_map]
    have hfun : ((fun i => (hd :: tl).getD i d) ∘ Nat.succ) = fun i => tl.getD i d := by
      funext i; simp [List.getD_cons_succ]
    simp only [List.getD_cons_zero, hfun, ih]

theorem parseCases_spec (cs : List (CaseAttr × List Val × List Val))
    (h : ∀ x ∈ cs, x.2.1.length = x.1.operandCount) :
    parseCases cs =
      some (cs.map (fun x => x.1), (cs.map (fun x => x.2.1)).flatten,
            cs.map (fun x => x.1.operandCount), cs.map (fun x => x.2.2)) := by
  induction cs with
  | nil => rfl
  | cons c rest ih =>
    obtain ⟨attr, ops, dargs⟩ := c
    have h1 : ops.length = attr.operandCount := h (attr, ops, dargs) (List.mem_cons_self _ _)
    simp only [parseCases, if_pos h1, ih (fun x hx => h x (List.mem_cons_of_mem _ hx))]
    simp

/-- C7: for `fir.select_case`, the builder's compare-operand length attribute
records 2 for each closed-interval case, 1 for each point-value case, and 0
for each unit (default) case; the per-target length attribute records each
successor's operand count; retrieving segment `i` slices the physical operand
list at the sum of the lengths of segments `0..i-1`, recovering the original
per-segment partition; and parsing the printed textual form reproduces the
same per-segment operand partition (indeed the identical operation state). -/
theorem c7_select_case_segments (selector : Val) (compareAttrs : List CaseAttr)
    (cmpOperands destOperands : List (List Val)) (numDests : Nat) (op : SelectCaseOp)
    (hop : op = SelectCaseOp.build selector compareAttrs cmpOperands numDests destOperands)
    (hcl : cmpOperands.length = compareAttrs.length)
    (hcc : ∀ i, i < compareAttrs.length →
      (cmpOperands.getD i []).length = (compareAttrs.getD i CaseAttr.unitAttr).operandCount)
    (hnd : numDests = compareAttrs.length)
    (hdl : destOperands.length = numDests) :
    (op.compareOffsets = compareAttrs.map CaseAttr.operandCount ∧
      CaseAttr.operandCount CaseAttr.closedInterval = 2 ∧
      CaseAttr.operandCount CaseAttr.unitAttr = 0 ∧
      CaseAttr.operandCount CaseAttr.pointInterval = 1 ∧
      op.targetOffsets = destOperands.map List.length) ∧
    (∀ i, op.getCompareOperands i = cmpOperands.getD i []) ∧
    (∀ i, op.getSuccessorOperands i = destOperands.getD i []) ∧
    parseSelectCase op.printedForm = some op := by
  subst hop
  subst hnd
  -- pointwise length agreement between the attrs and the partitioned operands
  have hmap : cmpOperands.map List.length = compareAttrs.map CaseAttr.operandCount := by
    apply List.ext_getElem (by simp [hcl])
    intro i h1 h2
    have hi : i < compareAttrs.length := by simpa using h2
    have hi' : i < cmpOperands.length := by simpa using h1
    have hpt := hcc i hi
    rw [List.getD_eq_getElem _ _ hi', List.getD_eq_getElem _ _ hi] at hpt
    simpa using hpt
  have htake : destOperands.take compareAttrs.length = destOperands := by
    rw [← hdl]; exact List.take_length _
  have hargOffs : ((List.range compareAttrs.length).map
      fun i => (destOperands.getD i []).length) = destOperands.map List.length := by
    conv_lhs => rw [← hdl]
    rw [show (fun i => (destOperands.getD i []).length)
          = List.length ∘ (fun i => destOperands.getD i []) from rfl]
    rw [← List.map_map, map_range_getD]
  have hAlen : (compareAttrs.map CaseAttr.operandCount).sum = cmpOperands.flatten.length := by
    rw [← hmap, List.length_flatten]
  have hBlen : (destOperands.map List.length).sum = destOperands.flatten.length := by
    rw [List.length_flatten]
  -- the physical operand segments recover the builder's input partition
  have hcompArgs :
      (SelectCaseOp.build selector compareAttrs cmpOperands compareAttrs.length
        destOperands).compareArgs = cmpOperands.flatten := by
    simp only [SelectCaseOp.compareArgs, SelectCaseOp.build, getSubOperands, htake, hargOffs]
    simp only [List.take_succ_cons, List.take_zero, List.sum_cons, List.sum_nil,
      Nat.add_zero, List.drop_succ_cons, List.drop_zero, List.getD_cons_succ,
      List.getD_cons_zero, hAlen]
    exact List.take_left _ _
  have htargArgs :
      (SelectCaseOp.build selector compareAttrs cmpOperands compareAttrs.length
        destOperands).targetArgs = destOperands.flatten := by
    simp only [SelectCaseOp.targetArgs, SelectCaseOp.build, getSubOperands, htake, hargOffs]
    simp only [List.take_succ_cons, List.take_zero, List.sum_cons, List.sum_nil,
      Nat.add_zero, List.getD_cons_succ, List.getD_cons_zero, hAlen, hBlen]
    rw [show (1 : Nat) + cmpOperands.flatten.length = cmpOperands.flatten.length + 1 from
      Nat.add_comm _ _]
    simp only [List.drop_succ_cons, List.drop_left]
    exact List.take_length _
  have hcmpOffs :
      (SelectCaseOp.build selector compareAttrs cmpOperands compareAttrs.length
        destOperands).compareOffsets = compareAttrs.map CaseAttr.operandCount := rfl
  have htargOffs :
      (SelectCaseOp.build selector compareAttrs cmpOperands compareAttrs.length
        destOperands).targetOffsets = destOperands.map List.length := by
    simp only [SelectCaseOp.build, hargOffs]
  have hgetCmp : ∀ i,
      (SelectCaseOp.build selector compareAttrs cmpOperands compareAttrs.length
        destOperands).getCompareOperands i = cmpOperands.getD i [] := by
    intro i
    simp only [SelectCaseOp.getCompareOperands, hcompArgs, hcmpOffs, ← hmap]
    exact getSubOperands_flatten _ i
  have hgetSucc : ∀ i,
      (SelectCaseOp.build selector compareAttrs cmpOperands compareAttrs.length
        destOperands).getSuccessorOperands i = destOperands.getD i [] := by
    intro i
    simp only [SelectCaseOp.getSuccessorOperands, htargArgs, htargOffs]
    exact getSubOperands_flatten _ i
  refine ⟨⟨hcmpOffs, rfl, rfl, rfl, htargOffs⟩, hgetCmp, hgetSucc, ?_⟩
  -- the printed form
  have hcases :
      (SelectCaseOp.build selector compareAttrs cmpOperands compareAttrs.length
        destOperands).cases = compareAttrs := rfl
  have hcaseList :
      (SelectCaseOp.build selector compareAttrs cmpOperands compareAttrs.length
        destOperands).printedForm.caseList
      = (List.range compareAttrs.length).map fun i =>
          (compareAttrs.getD i CaseAttr.unitAttr, cmpOperands.getD i [],
           destOperands.getD i []) := by
    simp only [SelectCaseOp.printedForm, hcases]
    exact List.map_congr_left fun i _ => by rw [hgetCmp i, hgetSucc i]
  have hsel :
      (SelectCaseOp.build selector compareAttrs cmpOperands compareAttrs.length
        destOperands).printedForm.selector = selector := rfl
  -- parsing the printed case list succeeds and returns the canonical pieces
  have hparse := parseCases_spec
    ((List.range compareAttrs.length).map fun i =>
      (compareAttrs.getD i CaseAttr.unitAttr, cmpOperands.getD i [], destOperands.getD i []))
    (by
      intro x hx
      obtain ⟨i, hi, rfl⟩ := List.mem_map.mp hx
      exact hcc i (List.mem_range.mp hi))
  -- simplify the four components of the parse result
  have hc1 : ((List.range compareAttrs.length).map fun i =>
        (compareAttrs.getD i CaseAttr.unitAttr, cmpOperands.getD i [],
         destOperands.getD i [])).map (fun x => x.1) = compareAttrs := by
    rw [List.map_map]
    exact map_range_getD compareAttrs CaseAttr.unitAttr
  have hc2 : ((List.range compareAttrs.length).map fun i =>
        (compareAttrs.getD i CaseAttr.unitAttr, cmpOperands.getD i [],
         destOperands.getD i [])).map (fun x => x.2.1) = cmpOperands := by
    rw [List.map_map]
    conv_rhs => rw [← map_range_getD cmpOperands []]
    rw [← hcl]
    rfl
  have hc3 : ((List.range compareAttrs.length).map fun i =>
        (compareAttrs.getD i CaseAttr.unitAttr, cmpOperands.getD i [],
         destOperands.getD i [])).map (fun x => x.1.operandCount)
      = compareAttrs.map CaseAttr.operandCount := by
    rw [List.map_map]
    conv_rhs => rw [← map_range_getD compareAttrs CaseAttr.unitAttr, List.map_map]
    rfl
  have hc4 : ((List.range compareAttrs.length).map fun i =>
        (compareAttrs.getD i CaseAttr.unitAttr, cmpOperands.getD i [],
         destOperands.getD i [])).map (fun x => x.2.2) = destOperands := by
    rw [List.map_map]
    conv_rhs => rw [← map_range_getD destOperands []]
    rw [← hdl]
    rfl
  rw [hc1, hc2, hc3, hc4] at hparse
  -- assemble
  simp only [parseSelectCase, hcaseList, hparse, hsel, Option.some.injEq,
    SelectCaseOp.mk.injEq]
  simp only [SelectCaseOp.build, htake, hargOffs]
  rw [hdl]

theorem c7_select_case_segments_witness :
    (SelectCaseOp.build 9 [CaseAttr.closedInterval, CaseAttr.unitAttr, CaseAttr.pointInterval]
        [[1, 2], [], [3]] 3 [[4], [], [5, 6]]).getCompareOperands 0 = [1, 2] ∧
    parseSelectCase
      (SelectCaseOp.build 9 [CaseAttr.closedInterval, CaseAttr.unitAttr, CaseAttr.pointInterval]
        [[1, 2], [], [3]] 3 [[4], [], [5, 6]]).printedForm =
      some (SelectCaseOp.build 9 [CaseAttr.closedInterval, CaseAttr.unitAttr, CaseAttr.pointInterval]
        [[1, 2], [], [3]] 3 [[4], [], [5, 6]]) := by
  have h := c7_select_case_segments 9
    [CaseAttr.closedInterval, CaseAttr.unitAttr, CaseAttr.pointInterval]
    [[1, 2], [], [3]] [[4], [], [5, 6]] 3 _ rfl rfl
    (by
      intro i hi
      match i, hi with
      | 0, _ => decide
      | 1, _ => decide
      | 2, _ => decide) rfl rfl
  exact ⟨h.2.1 0, h.2.2.2⟩

/-! ## PFT builder: statements, evaluations, paths

The Program Flow Tree.  An `Ev` wraps either a single statement (a leaf
Evaluation) or a construct with its owned child evaluation list.  The
statement kinds carry exactly the payload the branch analyzer inspects:
labels, construct names (abstracted to numbers), loop-control shape, and
format/specifier information for I/O statements.
-/

/-- Statement labels. -/
abbrev PLabel := Nat

/-- Construct names (`std::string` keys of `constructNameMap`), abstracted. -/
abbrev CName := Nat

/-- The shape of `std::optional<parser::LoopControl>`: explicit bounds (with a
real-typed control variable or not), a WHILE form, or DO CONCURRENT with a
dimension count and an optional mask. -/
inductive LoopControl where
  | bounds (isReal : Bool)
  | whileLoop
  | concurrent (dims : Nat) (hasMask : Bool)
  deriving DecidableEq, Repr

/-- The statement kinds distinguished by `PFTBuilder::analyzeBranches`.
Statement kinds the analyzer treats alike are merged into the `other…`
constructors (they hit the default visitor).  `ioStmt` summarizes an I/O
statement by what `analyzeIoBranches` extracts from it: whether a runtime
(integer-expression) format is present and the ERR/EOR/END specifier labels. -/
inductive Stmt where
  | callStmt (altReturns : List PLabel)
  | cycleStmt (name : Option CName)
  | exitStmt (name : Option CName)
  | gotoStmt (label : PLabel)
  | ifStmt
  | returnStmt
  | stopStmt
  | computedGotoStmt (labels : List PLabel)
  | arithmeticIfStmt (l1 l2 l3 : PLabel) (isRealExpr : Bool)
  | assignStmt (label : PLabel) (sym : Nat)
  | assignedGotoStmt
  | continueStmt
  | ioStmt (intExprFormat : Bool) (errLabels : List PLabel)
  | otherActionStmt
  | formatStmt
  | entryStmt
  | associateStmt (name : Option CName)
  | blockStmt (name : Option CName)
  | selectCaseStmt (name : Option CName)
  | caseStmt
  | endSelectStmt
  | changeTeamStmt (name : Option CName)
  | criticalStmt (name : Option CName)
  | nonLabelDoStmt (name : Option CName) (loopControl : Option LoopControl)
  | endDoStmt
  | ifThenStmt (name : Option CName)
  | elseIfStmt
  | elseStmt
  | endIfStmt
  | selectRankStmt (name : Option CName)
  | selectRankCaseStmt
  | selectTypeStmt (name : Option CName)
  | typeGuardStmt
  | otherConstructStmt
  deriving DecidableEq, Repr

/-- Modelled from the spec: `Evaluation::isActionStmt` — the statement is one
of the action-statement alternatives (the generic executable statements). -/
def Stmt.isActionStmt : Stmt → Bool
  | .callStmt _ | .cycleStmt _ | .exitStmt _ | .gotoStmt _ | .ifStmt
  | .returnStmt | .stopStmt | .computedGotoStmt _ | .arithmeticIfStmt ..
  | .assignStmt .. | .assignedGotoStmt | .continueStmt | .ioStmt ..
  | .otherActionStmt => true
  | _ => false

/-- Modelled from the spec: `Evaluation::isConstructStmt` — the statement is a
construct header or footer (DO/END DO, IF THEN/ELSE IF/ELSE/END IF, ...). -/
def Stmt.isConstructStmt : Stmt → Bool
  | .associateStmt _ | .blockStmt _ | .selectCaseStmt _ | .caseStmt
  | .endSelectStmt | .changeTeamStmt _ | .criticalStmt _ | .nonLabelDoStmt ..
  | .endDoStmt | .ifThenStmt _ | .elseIfStmt | .elseStmt | .endIfStmt
  | .selectRankStmt _ | .selectRankCaseStmt | .selectTypeStmt _
  | .typeGuardStmt | .otherConstructStmt => true
  | _ => false

/-- Modelled from the spec: `Evaluation::isNopConstructStmt` — construct
statements that generate no code (CASE, ELSE IF, ELSE, END IF, rank case,
type guard), skipped over by `nonNopSuccessor`. -/
def Stmt.isNopConstructStmt : Stmt → Bool
  | .caseStmt | .elseIfStmt | .elseStmt | .endIfStmt
  | .selectRankCaseStmt | .typeGuardStmt => true
  | _ => false

/-- Modelled from the spec: `Evaluation::isIntermediateConstructStmt` —
construct statements interior to a construct (CASE, ELSE IF, ELSE, rank case,
type guard; the construct footers are not intermediate). -/
def Stmt.isIntermediateConstructStmt : Stmt → Bool
  | .caseStmt | .elseIfStmt | .elseStmt
  | .selectRankCaseStmt | .typeGuardStmt => true
  | _ => false

/-- The construct/directive kinds distinguished by the branch analyzer.
Constructs the analyzer treats with the default (no-op) visitor — WHERE,
FORALL and compiler directives — are merged. -/
inductive ConstructKind where
  | associate | block | caseC | changeTeam | critical | doC | ifC
  | selectRank | selectType | otherC
  deriving DecidableEq, Repr

mutual
/-- One Evaluation: a statement leaf (with its optional statement label) or a
construct / directive evaluation owning its child evaluation list. -/
inductive Ev where
  | stmt (s : Stmt) (label : Option PLabel)
  | construct (k : ConstructKind) (children : EvList)
/-- An evaluation list (`std::list<Evaluation>`), spelled out so that the
analyses over it are structurally recursive. -/
inductive EvList where
  | nil
  | cons (e : Ev) (rest : EvList)
end

/-- Number of evaluations in a list. -/
def EvList.length : EvList → Nat
  | .nil => 0
  | .cons _ rest => rest.length + 1

/-- Indexing into an evaluation list. -/
def EvList.get? : EvList → Nat → Option Ev
  | .nil, _ => none
  | .cons e _, 0 => some e
  | .cons _ rest, n + 1 => rest.get? n

/-- `empty()` -/
def EvList.isEmpty : EvList → Bool
  | .nil => true
  | .cons _ _ => false

/-- `back()` of a possibly empty list. -/
def EvList.getLast? : EvList → Option Ev
  | .nil => none
  | .cons e .nil => some e
  | .cons _ (.cons e rest) => EvList.getLast? (.cons e rest)

/-- Appending one evaluation at the end (`emplace_back`). -/
def EvList.snoc : EvList → Ev → EvList
  | .nil, e => .cons e .nil
  | .cons a rest, e => .cons a (rest.snoc e)

/-- The synthetic no-op terminal Evaluation appended by `endFunctionBody`
(a ContinueStmt with no label). -/
def syntheticEndTarget : Ev := Ev.stmt Stmt.continueStmt none

/-- `eval.isA<parser::ContinueStmt>()` -/
def Ev.isContinueStmt : Ev → Bool
  | .stmt .continueStmt _ => true
  | _ => false

/-- Whether the evaluation list ends in a ContinueStmt evaluation. -/
def endsInContinue (l : EvList) : Bool :=
  match l.getLast? with
  | some e => e.isContinueStmt
  | none => false

/-- `PFTBuilder::endFunctionBody`: ensure that a function ends with a valid
branch target (and is nonempty) by appending a synthetic ContinueStmt
Evaluation if the evaluation list is empty or does not already end in one. -/
def endFunctionBody (evaluationList : EvList) : EvList :=
  if evaluationList.isEmpty || !endsInContinue evaluationList then
    evaluationList.snoc syntheticEndTarget
  else evaluationList

theorem EvList.isEmpty_snoc : ∀ (l : EvList) (e : Ev), (l.snoc e).isEmpty = false
  | .nil, _ => rfl
  | .cons _ _, _ => rfl

theorem EvList.getLast?_snoc : ∀ (l : EvList) (e : Ev), (l.snoc e).getLast? = some e
  | .nil, _ => rfl
  | .cons _ .nil, _ => rfl
  | .cons _ (.cons b rest), e => EvList.getLast?_snoc (.cons b rest) e

/-- C3: when the builder closes out a unit's evaluation list, a synthetic
no-op (ContinueStmt) terminal Evaluation is appended whenever the list is
empty or does not already end in one, so the result is non-empty and ends in
a ContinueStmt terminal; an empty list (a PROGRAM with no executable
statements) yields exactly the one synthetic terminal Evaluation, and a list
already ending in a ContinueStmt is left unchanged. -/
theorem c3_end_function_body (l : EvList) :
    (endFunctionBody l).isEmpty = false ∧
    endsInContinue (endFunctionBody l) = true ∧
    (l = EvList.nil → endFunctionBody l = EvList.cons syntheticEndTarget EvList.nil) ∧
    (endsInContinue l = true → endFunctionBody l = l) := by
  by_cases h : (l.isEmpty || !endsInContinue l) = true
  · have he : endFunctionBody l = l.snoc syntheticEndTarget := by
      unfold endFunctionBody; rw [if_pos h]
    refine ⟨?_, ?_, ?_, ?_⟩
    · rw [he]; exact EvList.isEmpty_snoc l _
    · rw [he]; unfold endsInContinue; rw [EvList.getLast?_snoc]; rfl
    · intro hl; subst hl; rfl
    · intro hc
      rcases (Bool.or_eq_true _ _).mp h with h1 | h2
      · cases l with
        | nil => simp [endsInContinue, EvList.getLast?] at hc
        | cons a rest => simp [EvList.isEmpty] at h1
      · rw [hc] at h2; simp at h2
  · have h' := h
    simp only [Bool.or_eq_true, not_or, Bool.not_eq_true', Bool.not_eq_true] at h'
    obtain ⟨h1, h2⟩ := h'
    have he : endFunctionBody l = l := by
      unfold endFunctionBody; rw [if_neg h]
    refine ⟨?_, ?_, ?_, fun _ => he⟩
    · rw [he]; exact h1
    · rw [he]
      cases hh : endsInContinue l
      · rw [hh] at h2; exact absurd h2 (by simp)
      · rfl
    · intro hl; subst hl; simp [EvList.isEmpty] at h1

theorem c3_end_function_body_witness :
    endFunctionBody EvList.nil = EvList.cons syntheticEndTarget EvList.nil ∧
    endFunctionBody (EvList.cons syntheticEndTarget EvList.nil) =
      EvList.cons syntheticEndTarget EvList.nil :=
  ⟨(c3_end_function_body EvList.nil).2.2.1 rfl,
   (c3_end_function_body (EvList.cons syntheticEndTarget EvList.nil)).2.2.2 rfl⟩

/-! ## Branch analysis (`PFTBuilder::analyzeBranches`) -/

/-- Paths identify evaluations by position: element `i` of the unit's
evaluation list has path `[i]`; child `j` of the construct at `p` has path
`p ++ [j]`.  The non-owning back references (`parentConstruct`, successor
links, `constructExit`) are modelled as paths. -/
abbrev EPath := List Nat

/-- The `parentConstruct` back-reference: the construct evaluation whose
child list contains `p`; null for the unit's top-level evaluations. -/
def parentPath (p : EPath) : Option EPath :=
  if p.length ≤ 1 then none else some p.dropLast

/-- Evaluation lookup by path. -/
def getEvL : EvList → EPath → Option Ev
  | _, [] => none
  | evs, [i] => evs.get? i
  | evs, i :: j :: rest =>
    match evs.get? i with
    | some (.construct _ children) => getEvL children (j :: rest)
    | _ => none

/-- The statements that take part in the lexical-successor chain:
`addEvaluation` links action statements and construct statements; construct
evaluations themselves and the "other" statements (ENTRY, FORMAT) are not
linked. -/
def Ev.inLexicalChain : Ev → Bool
  | .stmt s _ => s.isActionStmt || s.isConstructStmt
  | .construct _ _ => false

/-- Paths of the lexical-chain members of an evaluation forest in lexical
(preorder) order; `bp` is the path of the owning construct and `i` the index
of the list's first element. -/
def leafPathsAux : EvList → EPath → Nat → List EPath
  | .nil, _, _ => []
  | .cons (.stmt s lbl) rest, bp, i =>
    (if (Ev.stmt s lbl).inLexicalChain then [bp ++ [i]] else []) ++
      leafPathsAux rest bp (i + 1)
  | .cons (.construct _ children) rest, bp, i =>
    leafPathsAux children (bp ++ [i]) 0 ++ leafPathsAux rest bp (i + 1)

/-- All lexical-chain members of a unit, in lexical order. -/
def unitLeaves (root : EvList) : List EPath := leafPathsAux root [] 0

/-- The `lexicalSuccessor` link, as established by `addEvaluation` through
`lastLexicalEvaluation`: the next lexical-chain member in preorder. -/
def lexSucc (root : EvList) (p : EPath) : Option EPath :=
  match (unitLeaves root).findIdx? (fun q => q = p) with
  | some i => (unitLeaves root).get? (i + 1)
  | none => none
/-- The mutable evaluation fields written by branch analysis, plus the
builder-member state it threads (`doConstructStack`, `constructNameMap`,
`assignSymbolLabelMap`).  The per-evaluation fields are keyed by path:
`unstructured`/`isNewBlock` collect the marked paths, the link maps hold the
most recent binding first, and `localBlocks` records the reserved block count
of each evaluation's `localBlocks` vector. -/
structure BState where
  unstructured : List EPath
  isNewBlock : List EPath
  controlSuccessor : List (EPath × Option EPath)
  constructExit : List (EPath × Option EPath)
  localBlocks : List (EPath × Nat)
  doConstructStack : List (Option EPath)
  constructNameMap : List (CName × Option EPath)
  assignSymbolLabelMap : List (Nat × List PLabel)

/-- All flags clear, all links absent: the state of a freshly built unit. -/
def initialBState : BState where
  unstructured := []
  isNewBlock := []
  controlSuccessor := []
  constructExit := []
  localBlocks := []
  doConstructStack := []
  constructNameMap := []
  assignSymbolLabelMap := []

/-- `eval.isUnstructured` -/
def BState.unstrAt (st : BState) (p : EPath) : Bool := st.unstructured.contains p

/-- `eval.isNewBlock` -/
def BState.newBlockAt (st : BState) (p : EPath) : Bool := st.isNewBlock.contains p

/-- First-binding lookup in a path-keyed association list. -/
def pathAssoc {α : Type} (l : List (EPath × α)) (p : EPath) : Option α :=
  match l.find? (fun x => x.1 == p) with
  | some x => some x.2
  | none => none

/-- `eval.controlSuccessor` (null both when never assigned and when assigned
a null pointer). -/
def BState.ctrlSucc (st : BState) (p : EPath) : Option EPath :=
  match pathAssoc st.controlSuccessor p with
  | some v => v
  | none => none

/-- `eval.constructExit` -/
def BState.exitAt (st : BState) (p : EPath) : Option EPath :=
  match pathAssoc st.constructExit p with
  | some v => v
  | none => none

/-- `eval.localBlocks.size()` -/
def BState.localBlocksAt (st : BState) (p : EPath) : Nat :=
  match pathAssoc st.localBlocks p with
  | some n => n
  | none => 0

def setUnstructured (p : EPath) (st : BState) : BState :=
  { st with unstructured := p :: st.unstructured }

def setNewBlock (p : EPath) (st : BState) : BState :=
  { st with isNewBlock := p :: st.isNewBlock }

def setControlSuccessor (p : EPath) (v : Option EPath) (st : BState) : BState :=
  { st with controlSuccessor := (p, v) :: st.controlSuccessor }

def setConstructExitAt (p : EPath) (v : Option EPath) (st : BState) : BState :=
  { st with constructExit := (p, v) :: st.constructExit }

/-- `localBlocks.emplace_back(nullptr)` -/
def addLocalBlock (p : EPath) (st : BState) : BState :=
  { st with localBlocks := (p, st.localBlocksAt p + 1) :: st.localBlocks }

/-- `localBlocks.resize(n)` -/
def setLocalBlocks (p : EPath) (n : Nat) (st : BState) : BState :=
  { st with localBlocks := (p, n) :: st.localBlocks }

/-- The read-only inputs of branch analysis: the unit's evaluation forest,
its label map (built by `addEvaluation`), and the `-no-structured-fir`
command-line flag. -/
structure BCtx where
  root : EvList
  labelEvaluationMap : PLabel → Option EPath
  clDisableStructuredFir : Bool

/-- The statement wrapped by the evaluation at `p`, if `p` is a statement. -/
def stmtAt (ctx : BCtx) (p : EPath) : Option Stmt :=
  match getEvL ctx.root p with
  | some (.stmt s _) => some s
  | _ => none

def isConstructStmtAt (ctx : BCtx) (p : EPath) : Bool :=
  match stmtAt ctx p with
  | some s => s.isConstructStmt
  | none => false

def isNopConstructStmtAt (ctx : BCtx) (p : EPath) : Bool :=
  match stmtAt ctx p with
  | some s => s.isNopConstructStmt
  | none => false

def isIntermediateConstructStmtAt (ctx : BCtx) (p : EPath) : Bool :=
  match stmtAt ctx p with
  | some s => s.isIntermediateConstructStmt
  | none => false

def isFormatStmtAt (ctx : BCtx) (p : EPath) : Bool :=
  match stmtAt ctx p with
  | some .formatStmt => true
  | _ => false

/-- `eval.isActionStmt()` for a whole evaluation. -/
def Ev.isActionEv : Ev → Bool
  | .stmt s _ => s.isActionStmt
  | .construct _ _ => false

/-- Modelled from the spec: `Evaluation::nonNopSuccessor` — the successor for
branching purposes: the lexical successor, except that a no-op construct
statement successor stands for its enclosing construct's exit target. -/
def nonNopSuccessor (ctx : BCtx) (st : BState) (p : EPath) : Option EPath :=
  match lexSucc ctx.root p with
  | none => none
  | some q =>
    if isNopConstructStmtAt ctx q then
      match parentPath q with
      | some pq => st.exitAt pq
      | none => none
    else some q

/-- `PFTBuilder::markSuccessorAsNewBlock` -/
def markSuccessorAsNewBlock (ctx : BCtx) (st : BState) (p : EPath) : BState :=
  match nonNopSuccessor ctx st p with
  | some q => setNewBlock q st
  | none => st

/-- `q` is on the `parentConstruct` chain of `p`: a nonempty proper prefix. -/
def isProperAncestorOf (q p : EPath) : Bool :=
  decide (q ≠ []) && decide (q.length < p.length) && decide (p.take q.length = q)

/-- The nonempty prefixes of `q`, longest first: `q` itself and every
construct on its `parentConstruct` chain. -/
def chainPrefixes (q : EPath) : List EPath :=
  (List.range q.length).map fun k => q.take (q.length - k)

/-- The branch-into-construct marking of `markBranchTarget`: the target
evaluation and every construct on its `parentConstruct` chain become
unstructured. -/
def markChainUnstructured (q : EPath) (st : BState) : BState :=
  { st with unstructured := chainPrefixes q ++ st.unstructured }

/-- `PFTBuilder::markBranchTarget(sourceEvaluation, targetEvaluation)`. -/
def markBranchTargetEval (ctx : BCtx) (p q : EPath) (st : BState) : BState :=
  let st := setUnstructured p st
  let st := if (st.ctrlSucc p).isNone then setControlSuccessor p (some q) st else st
  let st := setNewBlock q st
  -- A branch to an initial constructStmt is a branch to the construct.
  let targetConstruct : Option EPath :=
    match parentPath q with
    | some pq =>
      if isConstructStmtAt ctx q && decide (q = pq ++ [0]) then parentPath pq
      else some pq
    | none => none
  match targetConstruct with
  | none => st
  | some tc =>
    if isProperAncestorOf tc p then st
    else markChainUnstructured q st

/-- `PFTBuilder::markBranchTarget(sourceEvaluation, label)`; a label with no
registered evaluation is a builder assertion failure, modelled as a no-op. -/
def markBranchTargetLabel (ctx : BCtx) (p : EPath) (label : PLabel) (st : BState) : BState :=
  match ctx.labelEvaluationMap label with
  | some q => markBranchTargetEval ctx p q st
  | none => st

/-- `Evaluation::lowerAsUnstructured` -/
def lowerAsUnstructured (ctx : BCtx) (st : BState) (p : EPath) : Bool :=
  st.unstrAt p || ctx.clDisableStructuredFir

/-- `Evaluation::lowerAsStructured` -/
def lowerAsStructured (ctx : BCtx) (st : BState) (p : EPath) : Bool :=
  !lowerAsUnstructured ctx st p

/-- `PFTBuilder::insertConstructName`: named constructs record their
(possibly null) parent construct in `constructNameMap`. -/
def insertConstructName (name : Option CName) (parent : Option EPath) (st : BState) : BState :=
  match name with
  | some n => { st with constructNameMap := (n, parent) :: st.constructNameMap }
  | none => st

/-- `constructNameMap[name]` -/
def BState.nameLookup (st : BState) (n : CName) : Option (Option EPath) :=
  match st.constructNameMap.find? (fun x => x.1 == n) with
  | some x => some x.2
  | none => none

/-- `PFTBuilder::setConstructExit`:
`eval.constructExit = &eval.evaluationList->back().nonNopSuccessor()`. -/
def setConstructExitNonNop (ctx : BCtx) (st : BState) (p : EPath) (children : EvList) : BState :=
  match children.length with
  | 0 => st
  | n + 1 => setConstructExitAt p (nonNopSuccessor ctx st (p ++ [n])) st

/-- `eval.constructExit = &eval.evaluationList->back()` (the footer statement
may have code: BLOCK, CHANGE TEAM, CRITICAL). -/
def setConstructExitLast (st : BState) (p : EPath) (children : EvList) : BState :=
  match children.length with
  | 0 => st
  | n + 1 => setConstructExitAt p (some (p ++ [n])) st

/-- `assignSymbolLabelMap[sym]` -/
def BState.assignLabels (st : BState) (sym : Nat) : List PLabel :=
  match st.assignSymbolLabelMap.find? (fun x => x.1 == sym) with
  | some x => x.2
  | none => []

/-- Replace the builder's `doConstructStack`. -/
def setDoStack (d : List (Option EPath)) (st : BState) : BState :=
  { st with doConstructStack := d }

/-- Extend the builder's `assignSymbolLabelMap`. -/
def setAssignMap (m : List (Nat × List PLabel)) (st : BState) : BState :=
  { st with assignSymbolLabelMap := m }

/-- The construct-evaluation visitors of `analyzeBranches` (set the
construct's exit target; CASE/SELECT RANK/SELECT TYPE constructs are also
forced unstructured; WHERE/FORALL constructs and directives hit the default
no-op visitor). -/
def visitConstruct (ctx : BCtx) (p : EPath) (k : ConstructKind) (children : EvList)
    (st : BState) : BState :=
  match k with
  | .associate => setConstructExitNonNop ctx st p children
  | .block => setConstructExitLast st p children
  | .caseC => setUnstructured p (setConstructExitNonNop ctx st p children)
  | .changeTeam => setConstructExitLast st p children
  | .critical => setConstructExitLast st p children
  | .doC => setConstructExitNonNop ctx st p children
  | .ifC => setConstructExitNonNop ctx st p children
  | .selectRank => setUnstructured p (setConstructExitNonNop ctx st p children)
  | .selectType => setUnstructured p (setConstructExitNonNop ctx st p children)
  | .otherC => st

/-- The statement-evaluation visitors of `analyzeBranches`.  `parent` is the
enclosing construct (`parentConstruct` of every evaluation of this list),
`bp` its path, `full` the whole current evaluation list, `p` the path of the
visited evaluation and `s` its statement.  Returns the updated state together
with the updated `lastConstructStmtEvaluation` and `lastIfStmtEvaluation`
locals.  Null-pointer dereferences of the source (missing CYCLE/EXIT
construct, empty construct, null parent) are builder-invariant violations,
modelled as no-ops. -/
def visitStmt (ctx : BCtx) (parent : Option EPath) (bp : EPath) (full : EvList)
    (p : EPath) (s : Stmt) (lastCS lastIf : Option EPath) (st : BState) :
    BState × Option EPath × Option EPath :=
  match s with
  | .callStmt altReturns =>
    (altReturns.foldl (fun st l => markBranchTargetLabel ctx p l st) st, lastCS, lastIf)
  | .cycleStmt name =>
    let construct : Option EPath :=
      (match name with
       | none => st.doConstructStack.head?
       | some n => st.nameLookup n).join
    (match construct with
     | some cp =>
       match getEvL ctx.root cp with
       | some (.construct _ children) =>
         match children.length with
         | 0 => st
         | n + 1 => markBranchTargetEval ctx p (cp ++ [n]) st
       | _ => st
     | none => st, lastCS, lastIf)
  | .exitStmt name =>
    let construct : Option EPath :=
      (match name with
       | none => st.doConstructStack.head?
       | some n => st.nameLookup n).join
    (match construct with
     | some cp =>
       match st.exitAt cp with
       | some t => markBranchTargetEval ctx p t st
       | none => st
     | none => st, lastCS, lastIf)
  | .gotoStmt l => (markBranchTargetLabel ctx p l st, lastCS, lastIf)
  | .ifStmt => (st, lastCS, some p)
  | .returnStmt =>
    let st := setUnstructured p st
    (match lexSucc ctx.root p with
     | some q => if (lexSucc ctx.root q).isSome then markSuccessorAsNewBlock ctx st p else st
     | none => st, lastCS, lastIf)
  | .stopStmt =>
    let st := setUnstructured p st
    (match lexSucc ctx.root p with
     | some q => if (lexSucc ctx.root q).isSome then markSuccessorAsNewBlock ctx st p else st
     | none => st, lastCS, lastIf)
  | .computedGotoStmt labels =>
    (labels.foldl (fun st l => markBranchTargetLabel ctx p l st) st, lastCS, lastIf)
  | .arithmeticIfStmt l1 l2 l3 isReal =>
    let st := markBranchTargetLabel ctx p l1 st
    let st := markBranchTargetLabel ctx p l2 st
    let st := markBranchTargetLabel ctx p l3 st
    -- Real expression evaluation uses an additional local block.
    (if isReal then addLocalBlock p st else st, lastCS, lastIf)
  | .assignStmt label sym =>
    (match ctx.labelEvaluationMap label with
     | some target =>
       let st := if !isFormatStmtAt ctx target then setNewBlock target st else st
       let cur := st.assignLabels sym
       setAssignMap
         ((sym, if label ∈ cur then cur else cur ++ [label]) :: st.assignSymbolLabelMap) st
     | none => st, lastCS, lastIf)
  | .assignedGotoStmt =>
    let st := setUnstructured p st
    (markSuccessorAsNewBlock ctx st p, lastCS, lastIf)
  | .continueStmt => (st, lastCS, lastIf)
  | .ioStmt intFormat errLabels =>
    let st := if intFormat then setUnstructured p st else st
    (errLabels.foldl (fun st l => markBranchTargetLabel ctx p l st) st, lastCS, lastIf)
  | .otherActionStmt => (st, lastCS, lastIf)
  | .formatStmt => (st, lastCS, lastIf)
  | .entryStmt => (st, lastCS, lastIf)
  | .associateStmt name => (insertConstructName name parent st, lastCS, lastIf)
  | .blockStmt name => (insertConstructName name parent st, lastCS, lastIf)
  | .selectCaseStmt name => (insertConstructName name parent st, some p, lastIf)
  | .caseStmt =>
    let st := setNewBlock p st
    (match lastCS with
     | some r => setControlSuccessor r (some p) st
     | none => st, some p, lastIf)
  | .endSelectStmt => (markSuccessorAsNewBlock ctx st p, none, lastIf)
  | .changeTeamStmt name => (insertConstructName name parent st, lastCS, lastIf)
  | .criticalStmt name => (insertConstructName name parent st, lastCS, lastIf)
  | .nonLabelDoStmt name loopControl =>
    let st := insertConstructName name parent st
    let st := setDoStack (parent :: st.doConstructStack) st
    (match loopControl with
     | none => setUnstructured p st -- infinite loop
     | some lc =>
       let st := markSuccessorAsNewBlock ctx st p
       let st := setControlSuccessor p (some (bp ++ [full.length - 1])) st
       match lc with
       | .bounds isReal => if isReal then setUnstructured p st else st
       | .whileLoop => setUnstructured p st
       | .concurrent _ _ => st, lastCS, lastIf)
  | .endDoStmt =>
    let doEvalPath : EPath := bp ++ [0]
    let st := setControlSuccessor p (some doEvalPath) st
    let st := setDoStack st.doConstructStack.tail st
    (match parent with
     | none => st
     | some pp =>
       if lowerAsStructured ctx st pp then st
       else
         -- doEval.localBlocks[0] is the loop header block.
         let st := addLocalBlock doEvalPath st
         let st := match st.exitAt pp with
           | some e => setNewBlock e st
           | none => st
         match stmtAt ctx doEvalPath with
         | some (.nonLabelDoStmt _ (some (.concurrent dims hasMask))) =>
           -- Unstructured concurrent loop: reserve header/body/latch blocks
           -- per dimension plus one mask block.
           let st := setLocalBlocks doEvalPath (2 * dims + (if hasMask then 1 else 0) - 1) st
           let st := setLocalBlocks p (dims - 1) st
           if hasMask then setNewBlock p st else st
         | _ => st, lastCS, lastIf)
  | .ifThenStmt name =>
    let st := insertConstructName name parent st
    let st := match lexSucc ctx.root p with
      | some q => setNewBlock q st
      | none => st
    (st, some p, lastIf)
  | .elseIfStmt =>
    let st := setNewBlock p st
    let st := match lexSucc ctx.root p with
      | some q => setNewBlock q st
      | none => st
    (match lastCS with
     | some r => setControlSuccessor r (some p) st
     | none => st, some p, lastIf)
  | .elseStmt =>
    let st := setNewBlock p st
    (match lastCS with
     | some r => setControlSuccessor r (some p) st
     | none => st, none, lastIf)
  | .endIfStmt =>
    let st := match parent with
      | some pp =>
        if lowerAsUnstructured ctx st pp then
          match st.exitAt pp with
          | some e => setNewBlock e st
          | none => st
        else st
      | none => st
    (match lastCS, parent with
     | some r, some pp => setControlSuccessor r (st.exitAt pp) st
     | _, _ => st, none, lastIf)
  | .selectRankStmt name => (insertConstructName name parent st, lastCS, lastIf)
  | .selectRankCaseStmt => (setNewBlock p st, lastCS, lastIf)
  | .selectTypeStmt name => (insertConstructName name parent st, lastCS, lastIf)
  | .typeGuardStmt => (setNewBlock p st, lastCS, lastIf)
  | .otherConstructStmt => (st, lastCS, lastIf)

/-- Lines 724-734 of `analyzeBranches`: insert branch links for an
unstructured one-line IF statement.  `lastIf` is the pending
`lastIfStmtEvaluation`, `p` the current evaluation (its action
substatement when `lastIf` is pending and distinct). -/
def stageIfLinks (ctx : BCtx) (p : EPath) (lastIf : Option EPath) (st : BState) :
    BState × Option EPath :=
  match lastIf with
  | some ifp =>
    if ifp ≠ p then
      let stA :=
        if lowerAsUnstructured ctx st p then
          setUnstructured ifp (markSuccessorAsNewBlock ctx (setNewBlock p st) p)
        else st
      (setControlSuccessor ifp (nonNopSuccessor ctx stA p) stA, (none : Option EPath))
    else (st, lastIf)
  | none => (st, none)

/-- Lines 736-741: set the successor of the last statement in an IF or
SELECT block to the construct exit. -/
def stageIntermediate (ctx : BCtx) (parent : Option EPath) (p : EPath) (st : BState) : BState :=
  if (st.ctrlSucc p).isNone then
    match lexSucc ctx.root p with
    | some q =>
      if isIntermediateConstructStmtAt ctx q then
        match parent with
        | some pp => setNewBlock q (setControlSuccessor p (st.exitAt pp) st)
        | none => st
      else st
    | none => st
  else st

/-- Lines 743-745: propagate the isUnstructured flag to the enclosing
construct. -/
def stagePropagate (parent : Option EPath) (p : EPath) (st : BState) : BState :=
  match parent with
  | some pp => if st.unstrAt p then setUnstructured pp st else st
  | none => st

/-- Lines 747-750: the successor of an unstructured branch starts a new
block. -/
def stageBranchSucc (ctx : BCtx) (isAction : Bool) (p : EPath) (st : BState) : BState :=
  if (st.ctrlSucc p).isSome && isAction && lowerAsUnstructured ctx st p then
    markSuccessorAsNewBlock ctx st p
  else st

/-- The main loop of `analyzeBranches` over one evaluation list.  `bp` is the
path of the owning construct (empty for the unit's top-level list, in which
case the parent construct is null), `full` the complete list and `i` the
index of the first element of `evs` within it.  `lastCS`/`lastIf` are the
`lastConstructStmtEvaluation`/`lastIfStmtEvaluation` locals of one
invocation: each per-element step runs the per-kind visitor, recursively
analyzes a construct's evaluation list, inserts the links of a one-line IF,
routes the last statement of an IF/SELECT block to the construct exit,
propagates the unstructured flag to the enclosing construct, and marks the
successor of an unstructured branch as a new block. -/
def analyzeList (ctx : BCtx) : EPath → EvList → Nat → EvList →
    Option EPath → Option EPath → BState → BState
  | _, _, _, .nil, _, _, st => st
  | bp, full, i, .cons ev rest, lastCS, lastIf, st =>
    let parent : Option EPath := if bp.isEmpty then none else some bp
    let p : EPath := bp ++ [i]
    let r1 :=
      match ev with
      | .stmt s _ => visitStmt ctx parent bp full p s lastCS lastIf st
      | .construct k children => (visitConstruct ctx p k children st, lastCS, lastIf)
    let st2 :=
      match ev with
      | .construct _ children => analyzeList ctx p children 0 children none none r1.1
      | .stmt _ _ => r1.1
    let r2 := stageIfLinks ctx p r1.2.2 st2
    let st4 := stageIntermediate ctx parent p r2.1
    let st5 := stagePropagate parent p st4
    let st6 := stageBranchSucc ctx ev.isActionEv p st5
    analyzeList ctx bp full (i + 1) rest r1.2.1 r2.2 st6

/-- `analyzeBranches(nullptr, unit.evaluationList)` over a whole unit. -/
def analyzeUnit (ctx : BCtx) : BState :=
  analyzeList ctx [] ctx.root 0 ctx.root none none initialBState

/-- `exitFunction`'s sequencing: close out the evaluation list
(`endFunctionBody`), then run branch analysis over the completed list. -/
def exitFunctionAnalysis (l : EvList) (labelMap : PLabel → Option EPath)
    (clFlag : Bool) : BState :=
  analyzeUnit ⟨endFunctionBody l, labelMap, clFlag⟩

/-! ## Branch analysis: invariant toolkit -/

/-- `q` is a nonempty proper prefix of `c`: exactly the evaluations on the
`parentConstruct` chain of `c`. -/
def properPrefixNE (q c : EPath) : Prop :=
  q ≠ [] ∧ q.length < c.length ∧ c.take q.length = q

/-- All evaluations on the `parentConstruct` chain of `r` are unstructured. -/
def PrefMarked (st : BState) (r : EPath) : Prop :=
  ∀ q, properPrefixNE q r → st.unstrAt q = true

/-- `q` is a nonempty (not necessarily proper) prefix of `bp`: the exception
set of the invariant — the constructs whose propagation step is still pending
while the list owned by `bp` is being processed. -/
def XPref (bp q : EPath) : Prop :=
  q ≠ [] ∧ q.length ≤ bp.length ∧ bp.take q.length = q

/-- `r` lies strictly inside the forest of the list owned by `bp`, at child
index at least `i`. -/
def WithinFrom (bp : EPath) (i : Nat) (r : EPath) : Prop :=
  ∃ j t, i ≤ j ∧ r = bp ++ j :: t

/-- There is a construct evaluation at path `c`. -/
def constructAt (ctx : BCtx) (c : EPath) : Prop :=
  ∃ k children, getEvL ctx.root c = some (.construct k children)

/-- The unstructured-propagation invariant with pending exceptions: every
marked construct has every evaluation of its `parentConstruct` chain marked,
except possibly the constructs whose propagation is still pending (the
nonempty prefixes of `bp`). -/
def UnstrInv (ctx : BCtx) (bp : EPath) (st : BState) : Prop :=
  ∀ c, constructAt ctx c → st.unstrAt c = true →
    ∀ q, properPrefixNE q c → st.unstrAt q = true ∨ XPref bp q

/-- The elements of `evs` sit at paths `bp ++ [i + j]` of the unit tree. -/
def ListAt (ctx : BCtx) (bp : EPath) (i : Nat) (evs : EvList) : Prop :=
  ∀ j e, evs.get? j = some e → getEvL ctx.root (bp ++ [i + j]) = some e

theorem ppne_append_one (bp : EPath) (i : Nat) (q : EPath) :
    properPrefixNE q (bp ++ [i]) ↔ XPref bp q := by
  unfold properPrefixNE XPref
  constructor
  · rintro ⟨h1, h2, h3⟩
    have hle : q.length ≤ bp.length := by simpa using Nat.lt_succ_iff.mp (by simpa using h2)
    refine ⟨h1, hle, ?_⟩
    rwa [List.take_append_of_le_length hle] at h3
  · rintro ⟨h1, h2, h3⟩
    refine ⟨h1, by simp; omega, ?_⟩
    rwa [List.take_append_of_le_length h2]

theorem xpref_extend (bp : EPath) (i : Nat) (q : EPath) (h : XPref bp q) :
    XPref (bp ++ [i]) q := by
  obtain ⟨h1, h2, h3⟩ := h
  refine ⟨h1, by simp; omega, ?_⟩
  rwa [List.take_append_of_le_length h2]

theorem xpref_split (bp : EPath) (i : Nat) (q : EPath) (h : XPref (bp ++ [i]) q) :
    XPref bp q ∨ q = bp ++ [i] := by
  obtain ⟨h1, h2, h3⟩ := h
  rcases Nat.lt_or_ge q.length (bp.length + 1) with hlt | hge
  · left
    have hle : q.length ≤ bp.length := by omega
    exact ⟨h1, hle, by rwa [List.take_append_of_le_length hle] at h3⟩
  · right
    have : q.length = bp.length + 1 := by simp at h2; omega
    rw [← h3, this]
    simp

theorem xpref_self (bp : EPath) (h : bp ≠ []) : XPref bp bp :=
  ⟨h, le_refl _, by simp⟩

theorem ppne_of_xpref (bp : EPath) (i : Nat) (q : EPath) (h : XPref bp q) :
    properPrefixNE q (bp ++ [i]) := (ppne_append_one bp i q).mpr h

theorem ppne_trans_prefix (q r c : EPath) (h1 : properPrefixNE q r)
    (h2 : r.length ≤ c.length) (h3 : c.take r.length = r) : properPrefixNE q c := by
  obtain ⟨hq1, hq2, hq3⟩ := h1
  refine ⟨hq1, by omega, ?_⟩
  have : c.take q.length = (c.take r.length).take q.length := by
    rw [List.take_take]
    congr 1
    omega
  rw [this, h3, hq3]

theorem getEvL_extend : ∀ (p : EPath) (l : EvList) (k : ConstructKind)
    (ch : EvList) (j : Nat), getEvL l p = some (.construct k ch) →
    getEvL l (p ++ [j]) = ch.get? j
  | [], _, _, _, _, h => by simp [getEvL] at h
  | [a], l, k, ch, j, h => by
    simp only [getEvL] at h
    simp only [List.cons_append, List.nil_append, getEvL, h]
  | a :: b :: p', l, k, ch, j, h => by
    simp only [getEvL] at h ⊢
    match hget : l.get? a with
    | some (.construct k' ch') =>
      rw [hget] at h
      exact getEvL_extend (b :: p') ch' k ch j h
    | some (.stmt s lbl) => rw [hget] at h; exact absurd h (by simp)
    | none => rw [hget] at h; exact absurd h (by simp)

theorem getEvL_prefix_construct : ∀ (q : EPath) (rest : EPath) (l : EvList) (e : Ev),
    q ≠ [] → rest ≠ [] → getEvL l (q ++ rest) = some e →
    ∃ k ch, getEvL l q = some (.construct k ch)
  | [], _, _, _, hq, _, _ => absurd rfl hq
  | [a], rest, l, e, _, hrest, h => by
    match hrest2 : rest with
    | [] => exact absurd rfl hrest
    | r :: t =>
      simp only [List.cons_append, List.nil_append, getEvL] at h
      match hget : l.get? a with
      | some (.construct k' ch') => exact ⟨k', ch', by simp [getEvL, hget]⟩
      | some (.stmt s lbl) => rw [hget] at h; exact absurd h (by simp)
      | none => rw [hget] at h; exact absurd h (by simp)
  | a :: b :: q', rest, l, e, _, hrest, h => by
    match hrest2 : rest with
    | [] => exact absurd rfl hrest
    | r :: t =>
      simp only [List.cons_append, getEvL] at h
      match hget : l.get? a with
      | some (.construct k' ch') =>
        rw [hget] at h
        obtain ⟨k'', ch'', hh⟩ :=
          getEvL_prefix_construct (b :: q') (r :: t) ch' e (by simp) (by simp) h
        exact ⟨k'', ch'', by simp [getEvL, hget]; exact hh⟩
      | some (.stmt s lbl) => rw [hget] at h; exact absurd h (by simp)
      | none => rw [hget] at h; exact absurd h (by simp)

/-- An evaluation on the `parentConstruct` chain of a tree position is a
construct. -/
theorem treeAnc (ctx : BCtx) (c q : EPath) (e : Ev) (hc : getEvL ctx.root c = some e)
    (hq : properPrefixNE q c) : constructAt ctx q := by
  obtain ⟨h1, h2, h3⟩ := hq
  have hsplit : c = q ++ c.drop q.length := by
    conv_lhs => rw [← List.take_append_drop q.length c]
    rw [h3]
  have hdrop : c.drop q.length ≠ [] := by
    intro hnil
    have := List.length_drop q.length c  -- wait name?
    rw [hnil] at this
    simp at this
    omega
  rw [hsplit] at hc
  obtain ⟨k, ch, hh⟩ := getEvL_prefix_construct q _ ctx.root e h1 hdrop hc
  exact ⟨k, ch, hh⟩

theorem listAt_root (ctx : BCtx) : ListAt ctx [] 0 ctx.root := by
  intro j e h
  simpa [getEvL] using h

theorem listAt_tail (ctx : BCtx) (bp : EPath) (i : Nat) (ev : Ev) (rest : EvList)
    (h : ListAt ctx bp i (.cons ev rest)) : ListAt ctx bp (i + 1) rest := by
  intro j e hj
  have := h (j + 1) e (by simpa [EvList.get?] using hj)
  rwa [show i + (j + 1) = i + 1 + j by omega] at this

theorem listAt_head (ctx : BCtx) (bp : EPath) (i : Nat) (ev : Ev) (rest : EvList)
    (h : ListAt ctx bp i (.cons ev rest)) : getEvL ctx.root (bp ++ [i]) = some ev := by
  have := h 0 ev (by simp [EvList.get?])
  simpa using this

theorem listAt_children (ctx : BCtx) (p : EPath) (k : ConstructKind) (children : EvList)
    (h : getEvL ctx.root p = some (.construct k children)) : ListAt ctx p 0 children := by
  intro j e hj
  rw [Nat.zero_add, getEvL_extend p ctx.root k children j h]
  exact hj

@[simp] theorem unstrAt_setUnstructured (q : EPath) (st : BState) (r : EPath) :
    (setUnstructured q st).unstrAt r = (decide (r = q) || st.unstrAt r) := by
  simp [setUnstructured, BState.unstrAt, List.contains_cons]

@[simp] theorem unstrAt_setNewBlock (q : EPath) (st : BState) (r : EPath) :
    (setNewBlock q st).unstrAt r = st.unstrAt r := rfl

@[simp] theorem unstrAt_setControlSuccessor (q : EPath) (v : Option EPath)
    (st : BState) (r : EPath) : (setControlSuccessor q v st).unstrAt r = st.unstrAt r := rfl

@[simp] theorem unstrAt_setConstructExitAt (q : EPath) (v : Option EPath)
    (st : BState) (r : EPath) : (setConstructExitAt q v st).unstrAt r = st.unstrAt r := rfl

@[simp] theorem unstrAt_addLocalBlock (q : EPath) (st : BState) (r : EPath) :
    (addLocalBlock q st).unstrAt r = st.unstrAt r := rfl

@[simp] theorem unstrAt_setLocalBlocks (q : EPath) (n : Nat) (st : BState) (r : EPath) :
    (setLocalBlocks q n st).unstrAt r = st.unstrAt r := rfl

@[simp] theorem unstrAt_insertConstructName (name : Option CName) (parent : Option EPath)
    (st : BState) (r : EPath) : (insertConstructName name parent st).unstrAt r = st.unstrAt r := by
  cases name <;> rfl

@[simp] theorem unstrAt_markSuccessorAsNewBlock (ctx : BCtx) (st : BState) (p r : EPath) :
    (markSuccessorAsNewBlock ctx st p).unstrAt r = st.unstrAt r := by
  unfold markSuccessorAsNewBlock
  cases nonNopSuccessor ctx st p <;> rfl

@[simp] theorem unstrAt_setConstructExitNonNop (ctx : BCtx) (st : BState) (p : EPath)
    (children : EvList) (r : EPath) :
    (setConstructExitNonNop ctx st p children).unstrAt r = st.unstrAt r := by
  unfold setConstructExitNonNop
  cases children.length <;> rfl

@[simp] theorem unstrAt_setConstructExitLast (st : BState) (p : EPath)
    (children : EvList) (r : EPath) :
    (setConstructExitLast st p children).unstrAt r = st.unstrAt r := by
  unfold setConstructExitLast
  cases children.length <;> rfl

@[simp] theorem newBlockAt_setUnstructured (q : EPath) (st : BState) (r : EPath) :
    (setUnstructured q st).newBlockAt r = st.newBlockAt r := rfl

@[simp] theorem newBlockAt_setNewBlock (q : EPath) (st : BState) (r : EPath) :
    (setNewBlock q st).newBlockAt r = (decide (r = q) || st.newBlockAt r) := by
  simp [setNewBlock, BState.newBlockAt, List.contains_cons]

@[simp] theorem newBlockAt_setControlSuccessor (q : EPath) (v : Option EPath)
    (st : BState) (r : EPath) : (setControlSuccessor q v st).newBlockAt r = st.newBlockAt r := rfl

@[simp] theorem newBlockAt_setConstructExitAt (q : EPath) (v : Option EPath)
    (st : BState) (r : EPath) : (setConstructExitAt q v st).newBlockAt r = st.newBlockAt r := rfl

@[simp] theorem newBlockAt_addLocalBlock (q : EPath) (st : BState) (r : EPath) :
    (addLocalBlock q st).newBlockAt r = st.newBlockAt r := rfl

@[simp] theorem newBlockAt_setLocalBlocks (q : EPath) (n : Nat) (st : BState) (r : EPath) :
    (setLocalBlocks q n st).newBlockAt r = st.newBlockAt r := rfl

@[simp] theorem newBlockAt_insertConstructName (name : Option CName) (parent : Option EPath)
    (st : BState) (r : EPath) : (insertConstructName name parent st).newBlockAt r = st.newBlockAt r := by
  cases name <;> rfl

@[simp] theorem newBlockAt_markChainUnstructured (q : EPath) (st : BState) (r : EPath) :
    (markChainUnstructured q st).newBlockAt r = st.newBlockAt r := rfl

@[simp] theorem unstrAt_markChainUnstructured (q : EPath) (st : BState) (r : EPath) :
    (markChainUnstructured q st).unstrAt r =
      ((chainPrefixes q).contains r || st.unstrAt r) := by
  simp [markChainUnstructured, BState.unstrAt]

theorem mem_chainPrefixes (q r : EPath) :
    r ∈ chainPrefixes q ↔ r ≠ [] ∧ r.length ≤ q.length ∧ q.take r.length = r := by
  unfold chainPrefixes
  simp only [List.mem_map, List.mem_range]
  constructor
  · rintro ⟨k, hk, rfl⟩
    have hlen : (q.take (q.length - k)).length = q.length - k := by
      simp
    refine ⟨?_, ?_, ?_⟩
    · intro hnil
      rw [hnil] at hlen
      simp at hlen
      omega
    · rw [hlen]; omega
    · rw [hlen]
  · rintro ⟨h1, h2, h3⟩
    have hpos : 0 < r.length := List.length_pos.mpr h1
    refine ⟨q.length - r.length, by omega, ?_⟩
    rw [show q.length - (q.length - r.length) = r.length by omega, h3]

/-- The effect shape of one visitor step at current evaluation `p`: marks
only accumulate, and any newly unstructured evaluation is either `p` itself
or was marked together with its whole `parentConstruct` chain. -/
structure VisOk (p : EPath) (st st' : BState) : Prop where
  monoU : ∀ r, st.unstrAt r = true → st'.unstrAt r = true
  monoB : ∀ r, st.newBlockAt r = true → st'.newBlockAt r = true
  marks : ∀ r, st'.unstrAt r = true → st.unstrAt r = true ∨ r = p ∨ PrefMarked st' r

theorem visOk_refl (p : EPath) (st : BState) : VisOk p st st :=
  ⟨fun _ h => h, fun _ h => h, fun _ h => Or.inl h⟩

theorem visOk_trans {p : EPath} {st1 st2 st3 : BState}
    (h1 : VisOk p st1 st2) (h2 : VisOk p st2 st3) : VisOk p st1 st3 := by
  obtain ⟨m1, n1, c1⟩ := h1
  obtain ⟨m2, n2, c2⟩ := h2
  refine ⟨fun r h => m2 r (m1 r h), fun r h => n2 r (n1 r h), fun r h => ?_⟩
  rcases c2 r h with h' | h' | h'
  · rcases c1 r h' with h'' | h'' | h''
    · exact Or.inl h''
    · exact Or.inr (Or.inl h'')
    · exact Or.inr (Or.inr fun q hq => m2 _ (h'' q hq))
  · exact Or.inr (Or.inl h')
  · exact Or.inr (Or.inr h')

/-- Steps that leave `unstructured` untouched and only extend `isNewBlock`. -/
theorem visOk_of_same_unstr {p : EPath} {st st' : BState}
    (hu : ∀ r, st'.unstrAt r = st.unstrAt r)
    (hn : ∀ r, st.newBlockAt r = true → st'.newBlockAt r = true) : VisOk p st st' := by
  refine ⟨fun r h => by rw [hu r]; exact h, hn, fun r h => Or.inl (by rw [← hu r]; exact h)⟩

theorem visOk_setUnstructured (p : EPath) (st : BState) :
    VisOk p st (setUnstructured p st) := by
  refine ⟨fun r h => by simp [h], fun r h => h, fun r h => ?_⟩
  simp at h
  rcases h with h | h
  · exact Or.inr (Or.inl h)
  · exact Or.inl h

theorem visOk_setNewBlock (p : EPath) (q : EPath) (st : BState) :
    VisOk p st (setNewBlock q st) :=
  visOk_of_same_unstr (fun r => by simp) (fun r h => by simp [h])

theorem visOk_setControlSuccessor (p q : EPath) (v : Option EPath) (st : BState) :
    VisOk p st (setControlSuccessor q v st) :=
  visOk_of_same_unstr (fun r => rfl) (fun r h => h)

theorem visOk_setConstructExitAt (p q : EPath) (v : Option EPath) (st : BState) :
    VisOk p st (setConstructExitAt q v st) :=
  visOk_of_same_unstr (fun r => rfl) (fun r h => h)

theorem visOk_addLocalBlock (p q : EPath) (st : BState) :
    VisOk p st (addLocalBlock q st) :=
  visOk_of_same_unstr (fun r => rfl) (fun r h => h)

theorem visOk_setLocalBlocks (p q : EPath) (n : Nat) (st : BState) :
    VisOk p st (setLocalBlocks q n st) :=
  visOk_of_same_unstr (fun r => rfl) (fun r h => h)

theorem visOk_insertConstructName (p : EPath) (name : Option CName)
    (parent : Option EPath) (st : BState) :
    VisOk p st (insertConstructName name parent st) :=
  visOk_of_same_unstr (fun r => by simp) (fun r h => by
    cases name <;> simpa [insertConstructName] using h)

theorem visOk_markSuccessorAsNewBlock (p : EPath) (ctx : BCtx) (st : BState) (s : EPath) :
    VisOk p st (markSuccessorAsNewBlock ctx st s) := by
  unfold markSuccessorAsNewBlock
  cases nonNopSuccessor ctx st s with
  | none => exact visOk_refl _ _
  | some q => exact visOk_setNewBlock _ _ _

theorem visOk_setConstructExitNonNop (p : EPath) (ctx : BCtx) (st : BState) (s : EPath)
    (children : EvList) : VisOk p st (setConstructExitNonNop ctx st s children) := by
  unfold setConstructExitNonNop
  cases children.length with
  | zero => exact visOk_refl _ _
  | succ n => exact visOk_setConstructExitAt _ _ _ _

theorem visOk_setConstructExitLast (p : EPath) (st : BState) (s : EPath)
    (children : EvList) : VisOk p st (setConstructExitLast st s children) := by
  unfold setConstructExitLast
  cases children.length with
  | zero => exact visOk_refl _ _
  | succ n => exact visOk_setConstructExitAt _ _ _ _

theorem prefix_of_prefix (q r t : EPath) (h1 : r ≠ [] ∧ r.length ≤ q.length ∧ q.take r.length = r)
    (h2 : properPrefixNE t r) : t ≠ [] ∧ t.length ≤ q.length ∧ q.take t.length = t := by
  obtain ⟨hr1, hr2, hr3⟩ := h1
  obtain ⟨ht1, ht2, ht3⟩ := h2
  refine ⟨ht1, by omega, ?_⟩
  have : q.take t.length = (q.take r.length).take t.length := by
    rw [List.take_take]
    congr 1
    omega
  rw [this, hr3, ht3]

theorem visOk_markChainUnstructured (p : EPath) (q : EPath) (st : BState) :
    VisOk p st (markChainUnstructured q st) := by
  refine ⟨fun r h => by simp [h], fun r h => by simpa using h, fun r h => ?_⟩
  simp only [unstrAt_markChainUnstructured, Bool.or_eq_true] at h
  rcases h with h | h
  · refine Or.inr (Or.inr fun t ht => ?_)
    have hmem := (mem_chainPrefixes q r).mp (by
      simpa [List.contains, List.elem_eq_mem] using h)
    have := prefix_of_prefix q r t hmem ht
    simp only [unstrAt_markChainUnstructured, Bool.or_eq_true]
    exact Or.inl (by
      simp [List.contains, List.elem_eq_mem]
      exact (mem_chainPrefixes q t).mpr this)
  · exact Or.inl h

theorem visOk_markBranchTargetEval (ctx : BCtx) (p q : EPath) (st : BState) :
    VisOk p st (markBranchTargetEval ctx p q st) := by
  unfold markBranchTargetEval
  dsimp only
  have base : VisOk p st (setNewBlock q
      (if ((setUnstructured p st).ctrlSucc p).isNone = true
       then setControlSuccessor p (some q) (setUnstructured p st)
       else setUnstructured p st)) := by
    refine @visOk_trans p st
      (if ((setUnstructured p st).ctrlSucc p).isNone = true
        then setControlSuccessor p (some q) (setUnstructured p st)
        else setUnstructured p st) _ ?_ (visOk_setNewBlock p q _)
    refine visOk_trans (visOk_setUnstructured p st) ?_
    split
    · exact visOk_setControlSuccessor _ _ _ _
    · exact visOk_refl _ _
  split
  · exact base
  · split
    · exact base
    · exact visOk_trans base (visOk_markChainUnstructured p q _)

theorem visOk_markBranchTargetLabel (ctx : BCtx) (p : EPath) (l : PLabel) (st : BState) :
    VisOk p st (markBranchTargetLabel ctx p l st) := by
  unfold markBranchTargetLabel
  cases ctx.labelEvaluationMap l with
  | none => exact visOk_refl _ _
  | some q => exact visOk_markBranchTargetEval _ _ _ _

theorem visOk_foldl_markLabel (ctx : BCtx) (p : EPath) :
    ∀ (labels : List PLabel) (st : BState),
    VisOk p st (labels.foldl (fun st l => markBranchTargetLabel ctx p l st) st)
  | [], st => visOk_refl _ _
  | l :: ls, st => by
    rw [List.foldl_cons]
    exact visOk_trans (visOk_markBranchTargetLabel ctx p l st)
      (visOk_foldl_markLabel ctx p ls _)

@[simp] theorem unstrAt_setDoStack (d : List (Option EPath)) (st : BState) (r : EPath) :
    (setDoStack d st).unstrAt r = st.unstrAt r := rfl

@[simp] theorem newBlockAt_setDoStack (d : List (Option EPath)) (st : BState) (r : EPath) :
    (setDoStack d st).newBlockAt r = st.newBlockAt r := rfl

@[simp] theorem unstrAt_setAssignMap (m : List (Nat × List PLabel)) (st : BState) (r : EPath) :
    (setAssignMap m st).unstrAt r = st.unstrAt r := rfl

@[simp] theorem newBlockAt_setAssignMap (m : List (Nat × List PLabel)) (st : BState) (r : EPath) :
    (setAssignMap m st).newBlockAt r = st.newBlockAt r := rfl

theorem visOk_setDoStack (p : EPath) (d : List (Option EPath)) (st : BState) :
    VisOk p st (setDoStack d st) :=
  visOk_of_same_unstr (fun r => rfl) (fun r h => h)

theorem visOk_setAssignMap (p : EPath) (m : List (Nat × List PLabel)) (st : BState) :
    VisOk p st (setAssignMap m st) :=
  visOk_of_same_unstr (fun r => rfl) (fun r h => h)

theorem visOk_after_setUnstructured {p : EPath} {st st' : BState}
    (h : VisOk p st st') : VisOk p st (setUnstructured p st') :=
  visOk_trans h (visOk_setUnstructured p st')

theorem visOk_after_setNewBlock {p : EPath} {st st' : BState} (q : EPath)
    (h : VisOk p st st') : VisOk p st (setNewBlock q st') :=
  visOk_trans h (visOk_setNewBlock p q st')

theorem visOk_after_setControlSuccessor {p : EPath} {st st' : BState} (q : EPath)
    (v : Option EPath) (h : VisOk p st st') : VisOk p st (setControlSuccessor q v st') :=
  visOk_trans h (visOk_setControlSuccessor p q v st')

theorem visOk_after_setConstructExitAt {p : EPath} {st st' : BState} (q : EPath)
    (v : Option EPath) (h : VisOk p st st') : VisOk p st (setConstructExitAt q v st') :=
  visOk_trans h (visOk_setConstructExitAt p q v st')

theorem visOk_after_addLocalBlock {p : EPath} {st st' : BState} (q : EPath)
    (h : VisOk p st st') : VisOk p st (addLocalBlock q st') :=
  visOk_trans h (visOk_addLocalBlock p q st')

theorem visOk_after_setLocalBlocks {p : EPath} {st st' : BState} (q : EPath) (n : Nat)
    (h : VisOk p st st') : VisOk p st (setLocalBlocks q n st') :=
  visOk_trans h (visOk_setLocalBlocks p q n st')

theorem visOk_after_insertConstructName {p : EPath} {st st' : BState}
    (name : Option CName) (parent : Option EPath)
    (h : VisOk p st st') : VisOk p st (insertConstructName name parent st') :=
  visOk_trans h (visOk_insertConstructName p name parent st')

theorem visOk_after_markSuccessorAsNewBlock {p : EPath} {st st' : BState} (ctx : BCtx)
    (s : EPath) (h : VisOk p st st') : VisOk p st (markSuccessorAsNewBlock ctx st' s) :=
  visOk_trans h (visOk_markSuccessorAsNewBlock p ctx st' s)

theorem visOk_after_markBranchTargetEval {p : EPath} {st st' : BState} (ctx : BCtx)
    (q : EPath) (h : VisOk p st st') : VisOk p st (markBranchTargetEval ctx p q st') :=
  visOk_trans h (visOk_markBranchTargetEval ctx p q st')

theorem visOk_after_markBranchTargetLabel {p : EPath} {st st' : BState} (ctx : BCtx)
    (l : PLabel) (h : VisOk p st st') : VisOk p st (markBranchTargetLabel ctx p l st') :=
  visOk_trans h (visOk_markBranchTargetLabel ctx p l st')

theorem visOk_after_setDoStack {p : EPath} {st st' : BState} (d : List (Option EPath))
    (h : VisOk p st st') : VisOk p st (setDoStack d st') :=
  visOk_trans h (visOk_setDoStack p d st')

theorem visOk_after_setAssignMap {p : EPath} {st st' : BState} (m : List (Nat × List PLabel))
    (h : VisOk p st st') : VisOk p st (setAssignMap m st') :=
  visOk_trans h (visOk_setAssignMap p m st')

theorem visOk_after_foldl_markLabel {p : EPath} {st st' : BState} (ctx : BCtx)
    (labels : List PLabel) (h : VisOk p st st') :
    VisOk p st (labels.foldl (fun st l => markBranchTargetLabel ctx p l st) st') :=
  visOk_trans h (visOk_foldl_markLabel ctx p labels st')

theorem visOk_after_setConstructExitNonNop {p : EPath} {st st' : BState} (ctx : BCtx)
    (s : EPath) (children : EvList) (h : VisOk p st st') :
    VisOk p st (setConstructExitNonNop ctx st' s children) :=
  visOk_trans h (visOk_setConstructExitNonNop p ctx st' s children)

theorem visOk_after_setConstructExitLast {p : EPath} {st st' : BState}
    (s : EPath) (children : EvList) (h : VisOk p st st') :
    VisOk p st (setConstructExitLast st' s children) :=
  visOk_trans h (visOk_setConstructExitLast p st' s children)

/-- Every statement visitor of `analyzeBranches` has the `VisOk` shape at the
visited evaluation. -/
theorem visOk_visitStmt (ctx : BCtx) (parent : Option EPath) (bp : EPath) (full : EvList)
    (p : EPath) (s : Stmt) (lastCS lastIf : Option EPath) (st : BState) :
    VisOk p st (visitStmt ctx parent bp full p s lastCS lastIf st).1 := by
  cases s with
  | callStmt altReturns => exact visOk_foldl_markLabel ctx p altReturns st
  | cycleStmt name =>
    simp only [visitStmt]
    try dsimp only
    repeat' split
    all_goals first
      | exact visOk_refl p st
      | exact visOk_markBranchTargetEval ctx p _ st
  | exitStmt name =>
    simp only [visitStmt]
    try dsimp only
    repeat' split
    all_goals first
      | exact visOk_refl p st
      | exact visOk_markBranchTargetEval ctx p _ st
  | gotoStmt label => exact visOk_markBranchTargetLabel ctx p label st
  | ifStmt => exact visOk_refl p st
  | returnStmt =>
    simp only [visitStmt]
    try dsimp only
    repeat' split
    all_goals first
      | exact visOk_setUnstructured p st
      | exact visOk_after_markSuccessorAsNewBlock ctx p (visOk_setUnstructured p st)
  | stopStmt =>
    simp only [visitStmt]
    try dsimp only
    repeat' split
    all_goals first
      | exact visOk_setUnstructured p st
      | exact visOk_after_markSuccessorAsNewBlock ctx p (visOk_setUnstructured p st)
  | computedGotoStmt labels => exact visOk_foldl_markLabel ctx p labels st
  | arithmeticIfStmt l1 l2 l3 isRealExpr =>
    simp only [visitStmt]
    try dsimp only
    split
    · exact visOk_after_addLocalBlock p (visOk_after_markBranchTargetLabel ctx l3
        (visOk_after_markBranchTargetLabel ctx l2
          (visOk_after_markBranchTargetLabel ctx l1 (visOk_refl p st))))
    · exact visOk_after_markBranchTargetLabel ctx l3
        (visOk_after_markBranchTargetLabel ctx l2
          (visOk_after_markBranchTargetLabel ctx l1 (visOk_refl p st)))
  | assignStmt label sym =>
    simp only [visitStmt]
    try dsimp only
    split
    · refine visOk_after_setAssignMap _ ?_
      split
      · exact visOk_setNewBlock p _ st
      · exact visOk_refl p st
    · exact visOk_refl p st
  | assignedGotoStmt =>
    exact visOk_after_markSuccessorAsNewBlock ctx p (visOk_setUnstructured p st)
  | continueStmt => exact visOk_refl p st
  | ioStmt intExprFormat errLabels =>
    simp only [visitStmt]
    try dsimp only
    refine visOk_after_foldl_markLabel ctx errLabels ?_
    split
    · exact visOk_setUnstructured p st
    · exact visOk_refl p st
  | otherActionStmt => exact visOk_refl p st
  | formatStmt => exact visOk_refl p st
  | entryStmt => exact visOk_refl p st
  | associateStmt name => exact visOk_insertConstructName p name parent st
  | blockStmt name => exact visOk_insertConstructName p name parent st
  | selectCaseStmt name => exact visOk_insertConstructName p name parent st
  | caseStmt =>
    simp only [visitStmt]
    try dsimp only
    split
    · exact visOk_after_setControlSuccessor _ _ (visOk_setNewBlock p p st)
    · exact visOk_setNewBlock p p st
  | endSelectStmt => exact visOk_markSuccessorAsNewBlock p ctx st p
  | changeTeamStmt name => exact visOk_insertConstructName p name parent st
  | criticalStmt name => exact visOk_insertConstructName p name parent st
  | nonLabelDoStmt name loopControl =>
    simp only [visitStmt]
    try dsimp only
    repeat' split
    all_goals first
      | exact visOk_after_setUnstructured
          (visOk_after_setDoStack _ (visOk_insertConstructName p name parent st))
      | exact visOk_after_setUnstructured (visOk_after_setControlSuccessor _ _
          (visOk_after_markSuccessorAsNewBlock ctx p
            (visOk_after_setDoStack _ (visOk_insertConstructName p name parent st))))
      | exact visOk_after_setControlSuccessor _ _
          (visOk_after_markSuccessorAsNewBlock ctx p
            (visOk_after_setDoStack _ (visOk_insertConstructName p name parent st)))
  | endDoStmt =>
    simp only [visitStmt]
    try dsimp only
    repeat' split
    all_goals refine visOk_of_same_unstr (fun r => by simp) (fun r h => by simp [h])
  | ifThenStmt name =>
    simp only [visitStmt]
    try dsimp only
    split
    · exact visOk_after_setNewBlock _ (visOk_insertConstructName p name parent st)
    · exact visOk_insertConstructName p name parent st
  | elseIfStmt =>
    simp only [visitStmt]
    try dsimp only
    repeat' split
    all_goals refine visOk_of_same_unstr (fun r => by simp) (fun r h => by simp [h])
  | elseStmt =>
    simp only [visitStmt]
    try dsimp only
    repeat' split
    all_goals refine visOk_of_same_unstr (fun r => by simp) (fun r h => by simp [h])
  | endIfStmt =>
    simp only [visitStmt]
    try dsimp only
    repeat' split
    all_goals refine visOk_of_same_unstr (fun r => by simp) (fun r h => by simp [h])
  | selectRankStmt name => exact visOk_insertConstructName p name parent st
  | selectRankCaseStmt => exact visOk_setNewBlock p p st
  | selectTypeStmt name => exact visOk_insertConstructName p name parent st
  | typeGuardStmt => exact visOk_setNewBlock p p st
  | otherConstructStmt => exact visOk_refl p st

/-- The statement visitors leave `lastIfStmtEvaluation` unchanged except the
one-line IF visitor, which records the current evaluation. -/
theorem visitStmt_lastIf (ctx : BCtx) (parent : Option EPath) (bp : EPath) (full : EvList)
    (p : EPath) (s : Stmt) (lastCS lastIf : Option EPath) (st : BState) :
    (visitStmt ctx parent bp full p s lastCS lastIf st).2.2 = lastIf ∨
    ((visitStmt ctx parent bp full p s lastCS lastIf st).2.2 = some p ∧ s = .ifStmt) := by
  cases s
  case ifStmt => exact Or.inr ⟨rfl, rfl⟩
  all_goals exact Or.inl rfl

/-- Every construct visitor of `analyzeBranches` has the `VisOk` shape at the
construct evaluation. -/
theorem visOk_visitConstruct (ctx : BCtx) (p : EPath) (k : ConstructKind)
    (children : EvList) (st : BState) : VisOk p st (visitConstruct ctx p k children st) := by
  cases k with
  | associate => exact visOk_setConstructExitNonNop p ctx st p children
  | block => exact visOk_setConstructExitLast p st p children
  | caseC => exact visOk_after_setUnstructured (visOk_setConstructExitNonNop p ctx st p children)
  | changeTeam => exact visOk_setConstructExitLast p st p children
  | critical => exact visOk_setConstructExitLast p st p children
  | doC => exact visOk_setConstructExitNonNop p ctx st p children
  | ifC => exact visOk_setConstructExitNonNop p ctx st p children
  | selectRank =>
    exact visOk_after_setUnstructured (visOk_setConstructExitNonNop p ctx st p children)
  | selectType =>
    exact visOk_after_setUnstructured (visOk_setConstructExitNonNop p ctx st p children)
  | otherC => exact visOk_refl p st

/-- The post-visit stages of one loop iteration of `analyzeBranches` (one-line
IF links, IF/SELECT intermediate routing, unstructured propagation,
branch-successor block marking), returning the updated state and the updated
`lastIfStmtEvaluation`. -/
def postStages (ctx : BCtx) (bp : EPath) (i : Nat) (isAction : Bool)
    (lastIfR : Option EPath) (st2 : BState) : BState × Option EPath :=
  let parent : Option EPath := if bp.isEmpty then none else some bp
  let p : EPath := bp ++ [i]
  let r2 := stageIfLinks ctx p lastIfR st2
  let st4 := stageIntermediate ctx parent p r2.1
  let st5 := stagePropagate parent p st4
  (stageBranchSucc ctx isAction p st5, r2.2)

/-- Unfolding `analyzeList` at a statement evaluation. -/
theorem analyzeList_cons_stmt (ctx : BCtx) (bp : EPath) (full : EvList) (i : Nat)
    (s : Stmt) (lbl : Option PLabel) (rest : EvList) (lastCS lastIf : Option EPath)
    (st : BState) :
    analyzeList ctx bp full i (.cons (.stmt s lbl) rest) lastCS lastIf st =
      (let r1 := visitStmt ctx (if bp.isEmpty then none else some bp) bp full (bp ++ [i])
         s lastCS lastIf st
       let r2 := postStages ctx bp i s.isActionStmt r1.2.2 r1.1
       analyzeList ctx bp full (i + 1) rest r1.2.1 r2.2 r2.1) := rfl

/-- Unfolding `analyzeList` at a construct evaluation. -/
theorem analyzeList_cons_construct (ctx : BCtx) (bp : EPath) (full : EvList) (i : Nat)
    (k : ConstructKind) (children rest : EvList) (lastCS lastIf : Option EPath)
    (st : BState) :
    analyzeList ctx bp full i (.cons (.construct k children) rest) lastCS lastIf st =
      (let st1 := visitConstruct ctx (bp ++ [i]) k children st
       let st2 := analyzeList ctx (bp ++ [i]) children 0 children none none st1
       let r2 := postStages ctx bp i false lastIf st2
       analyzeList ctx bp full (i + 1) rest lastCS r2.2 r2.1) := rfl

theorem prefMarked_mono {stA stB : BState}
    (h : ∀ q, stA.unstrAt q = true → stB.unstrAt q = true)
    (r : EPath) (hp : PrefMarked stA r) : PrefMarked stB r :=
  fun q hq => h q (hp q hq)

theorem newBlockAt_markSuccessorAsNewBlock_mono (ctx : BCtx) (st : BState) (p r : EPath)
    (h : st.newBlockAt r = true) : (markSuccessorAsNewBlock ctx st p).newBlockAt r = true := by
  unfold markSuccessorAsNewBlock
  split <;> simp [h]

theorem stageIfLinks_monoU (ctx : BCtx) (p : EPath) (li : Option EPath) (st : BState)
    (r : EPath) (h : st.unstrAt r = true) :
    (stageIfLinks ctx p li st).1.unstrAt r = true := by
  unfold stageIfLinks
  repeat' split
  all_goals simp [h]

theorem stageIfLinks_monoB (ctx : BCtx) (p : EPath) (li : Option EPath) (st : BState)
    (r : EPath) (h : st.newBlockAt r = true) :
    (stageIfLinks ctx p li st).1.newBlockAt r = true := by
  unfold stageIfLinks
  repeat' split
  all_goals simp [h, newBlockAt_markSuccessorAsNewBlock_mono]

theorem stageIfLinks_marks (ctx : BCtx) (p : EPath) (li : Option EPath) (st : BState)
    (r : EPath) (h : (stageIfLinks ctx p li st).1.unstrAt r = true) :
    st.unstrAt r = true ∨ li = some r := by
  unfold stageIfLinks at h
  repeat' split at h
  all_goals try exact Or.inl h
  all_goals simp only [unstrAt_setControlSuccessor, unstrAt_setUnstructured,
    unstrAt_markSuccessorAsNewBlock, unstrAt_setNewBlock, Bool.or_eq_true,
    decide_eq_true_eq] at h
  all_goals rcases h with rfl | h
  all_goals first
    | exact Or.inr rfl
    | exact Or.inl h

theorem stageIfLinks_snd (ctx : BCtx) (p : EPath) (li : Option EPath) (st : BState) :
    (stageIfLinks ctx p li st).2 = none ∨ (stageIfLinks ctx p li st).2 = li := by
  unfold stageIfLinks
  repeat' split
  all_goals simp

theorem unstrAt_stageIntermediate (ctx : BCtx) (parent : Option EPath) (p : EPath)
    (st : BState) (r : EPath) : (stageIntermediate ctx parent p st).unstrAt r = st.unstrAt r := by
  unfold stageIntermediate
  repeat' split
  all_goals simp

theorem newBlockAt_stageIntermediate_mono (ctx : BCtx) (parent : Option EPath) (p : EPath)
    (st : BState) (r : EPath) (h : st.newBlockAt r = true) :
    (stageIntermediate ctx parent p st).newBlockAt r = true := by
  unfold stageIntermediate
  repeat' split
  all_goals simp [h]

theorem unstrAt_stagePropagate_mono (parent : Option EPath) (p : EPath) (st : BState)
    (r : EPath) (h : st.unstrAt r = true) : (stagePropagate parent p st).unstrAt r = true := by
  unfold stagePropagate
  repeat' split
  all_goals simp [h]

theorem unstrAt_stagePropagate_marks (parent : Option EPath) (p : EPath) (st : BState)
    (r : EPath) (h : (stagePropagate parent p st).unstrAt r = true) :
    st.unstrAt r = true ∨ parent = some r := by
  unfold stagePropagate at h
  repeat' split at h
  all_goals try exact Or.inl h
  simp only [unstrAt_setUnstructured, Bool.or_eq_true, decide_eq_true_eq] at h
  rcases h with rfl | h
  · exact Or.inr rfl
  · exact Or.inl h

theorem newBlockAt_stagePropagate (parent : Option EPath) (p : EPath) (st : BState)
    (r : EPath) : (stagePropagate parent p st).newBlockAt r = st.newBlockAt r := by
  unfold stagePropagate
  repeat' split
  all_goals simp

theorem stagePropagate_fires (pp : EPath) (p : EPath) (st : BState)
    (h : st.unstrAt p = true) : (stagePropagate (some pp) p st).unstrAt pp = true := by
  unfold stagePropagate
  simp [h]

theorem unstrAt_stageBranchSucc (ctx : BCtx) (a : Bool) (p : EPath) (st : BState)
    (r : EPath) : (stageBranchSucc ctx a p st).unstrAt r = st.unstrAt r := by
  unfold stageBranchSucc
  split <;> simp

theorem newBlockAt_stageBranchSucc_mono (ctx : BCtx) (a : Bool) (p : EPath) (st : BState)
    (r : EPath) (h : st.newBlockAt r = true) :
    (stageBranchSucc ctx a p st).newBlockAt r = true := by
  unfold stageBranchSucc
  split
  · exact newBlockAt_markSuccessorAsNewBlock_mono ctx st p r h
  · exact h

theorem postStages_monoU (ctx : BCtx) (bp : EPath) (i : Nat) (a : Bool)
    (li : Option EPath) (st2 : BState) (r : EPath) (h : st2.unstrAt r = true) :
    (postStages ctx bp i a li st2).1.unstrAt r = true := by
  unfold postStages
  rw [unstrAt_stageBranchSucc]
  exact unstrAt_stagePropagate_mono _ _ _ _
    (by rw [unstrAt_stageIntermediate]; exact stageIfLinks_monoU ctx _ li st2 r h)

theorem postStages_monoB (ctx : BCtx) (bp : EPath) (i : Nat) (a : Bool)
    (li : Option EPath) (st2 : BState) (r : EPath) (h : st2.newBlockAt r = true) :
    (postStages ctx bp i a li st2).1.newBlockAt r = true := by
  unfold postStages
  refine newBlockAt_stageBranchSucc_mono _ _ _ _ _ ?_
  rw [newBlockAt_stagePropagate]
  exact newBlockAt_stageIntermediate_mono _ _ _ _ _ (stageIfLinks_monoB ctx _ li st2 r h)

theorem postStages_marks (ctx : BCtx) (bp : EPath) (i : Nat) (a : Bool)
    (li : Option EPath) (st2 : BState) (r : EPath)
    (h : (postStages ctx bp i a li st2).1.unstrAt r = true) :
    st2.unstrAt r = true ∨ li = some r ∨ r = bp := by
  unfold postStages at h
  rw [unstrAt_stageBranchSucc] at h
  rcases unstrAt_stagePropagate_marks _ _ _ _ h with h' | h'
  · rw [unstrAt_stageIntermediate] at h'
    rcases stageIfLinks_marks ctx _ li st2 r h' with h'' | h''
    · exact Or.inl h''
    · exact Or.inr (Or.inl h'')
  · by_cases hbp : bp.isEmpty
    · rw [if_pos hbp] at h'
      exact absurd h' (by simp)
    · rw [if_neg hbp] at h'
      injection h' with h'
      exact Or.inr (Or.inr h'.symm)

theorem postStages_snd (ctx : BCtx) (bp : EPath) (i : Nat) (a : Bool)
    (li : Option EPath) (st2 : BState) :
    (postStages ctx bp i a li st2).2 = none ∨ (postStages ctx bp i a li st2).2 = li :=
  stageIfLinks_snd ctx (bp ++ [i]) li st2

theorem postStages_prop (ctx : BCtx) (bp : EPath) (i : Nat) (a : Bool)
    (li : Option EPath) (st2 : BState) (hbp : bp ≠ [])
    (h : st2.unstrAt (bp ++ [i]) = true) :
    (postStages ctx bp i a li st2).1.unstrAt bp = true := by
  unfold postStages
  rw [unstrAt_stageBranchSucc]
  have hemp : bp.isEmpty = false := by
    cases bp
    · exact absurd rfl hbp
    · rfl
  rw [if_neg (by simp [hemp])]
  refine stagePropagate_fires bp _ _ ?_
  rw [unstrAt_stageIntermediate]
  exact stageIfLinks_monoU ctx _ li st2 _ h

theorem postStages_curr (ctx : BCtx) (bp : EPath) (i : Nat) (a : Bool)
    (li : Option EPath) (st2 : BState)
    (h : (postStages ctx bp i a li st2).1.unstrAt (bp ++ [i]) = true) :
    st2.unstrAt (bp ++ [i]) = true ∨ li = some (bp ++ [i]) := by
  rcases postStages_marks ctx bp i a li st2 _ h with h' | h' | h'
  · exact Or.inl h'
  · exact Or.inr h'
  · exfalso
    have := congrArg List.length h'
    simp at this

/-- The `lastIfStmtEvaluation` local, when set, points at a statement
evaluation of the unit tree. -/
def LI (ctx : BCtx) (lastIf : Option EPath) : Prop :=
  ∀ r, lastIf = some r → ∃ s lbl, getEvL ctx.root r = some (.stmt s lbl)

theorem li_none (ctx : BCtx) : LI ctx none := fun r hr => absurd hr (by simp)

theorem EvList.lt_length_of_get? : ∀ (l : EvList) (j : Nat) (e : Ev),
    l.get? j = some e → j < l.length
  | .nil, j, e, h => by simp [EvList.get?] at h
  | .cons a r, 0, e, _ => by simp [EvList.length]
  | .cons a r, j + 1, e, h => by
    have := EvList.lt_length_of_get? r j e (by simpa [EvList.get?] using h)
    simp [EvList.length]
    omega

theorem withinFrom_weaken (bp : EPath) (i : Nat) (r : EPath)
    (h : WithinFrom bp (i + 1) r) : WithinFrom bp i r := by
  obtain ⟨j, t, hj, ht⟩ := h
  exact ⟨j, t, by omega, ht⟩

theorem withinFrom_self (bp : EPath) (i : Nat) : WithinFrom bp i (bp ++ [i]) :=
  ⟨i, [], le_refl i, rfl⟩

theorem withinFrom_lift (bp : EPath) (i i0 : Nat) (r : EPath)
    (h : WithinFrom (bp ++ [i]) i0 r) : WithinFrom bp i r := by
  obtain ⟨j, t, _, ht⟩ := h
  exact ⟨i, j :: t, le_refl i, by simp [ht]⟩

theorem not_withinFrom_succ_self (bp : EPath) (i : Nat) :
    ¬ WithinFrom bp (i + 1) (bp ++ [i]) := by
  rintro ⟨j, t, hj, ht⟩
  have := List.append_cancel_left ht
  injection this with h1 h2
  omega

/-- A `VisOk` step at the current evaluation preserves the pending-propagation
invariant: the chain of the current evaluation is exactly the exception set. -/
theorem unstrInv_of_visOk (ctx : BCtx) (bp : EPath) (i : Nat) {st st' : BState}
    (h : VisOk (bp ++ [i]) st st') (hinv : UnstrInv ctx bp st) : UnstrInv ctx bp st' := by
  intro c hc hm q hq
  rcases h.marks c hm with hst | heq | hpm
  · rcases hinv c hc hst q hq with hq' | hq'
    · exact Or.inl (h.monoU q hq')
    · exact Or.inr hq'
  · subst heq
    exact Or.inr ((ppne_append_one bp i q).mp hq)
  · exact Or.inl (hpm q hq)

/-- The post-visit stages preserve the pending-propagation invariant: the
one-line IF mark hits a statement, and the propagation mark hits the list
owner, whose chain is inside the exception set. -/
theorem unstrInv_postStages (ctx : BCtx) (bp : EPath) (i : Nat) (a : Bool)
    (li : Option EPath) (st2 : BState) (hLI : LI ctx li)
    (hinv : UnstrInv ctx bp st2) : UnstrInv ctx bp (postStages ctx bp i a li st2).1 := by
  intro c hc hm q hq
  rcases postStages_marks ctx bp i a li st2 c hm with hst | hif | heq
  · rcases hinv c hc hst q hq with hq' | hq'
    · exact Or.inl (postStages_monoU ctx bp i a li st2 q hq')
    · exact Or.inr hq'
  · obtain ⟨s, lbl, hg⟩ := hLI c hif
    obtain ⟨k, ch, hg2⟩ := hc
    rw [hg] at hg2
    exact absurd hg2 (by simp)
  · subst heq
    exact Or.inr ⟨hq.1, Nat.le_of_lt hq.2.1, hq.2.2⟩

/-- Enlarging the exception set weakens the invariant. -/
theorem unstrInv_weaken (ctx : BCtx) (bp : EPath) (i : Nat) (st : BState)
    (h : UnstrInv ctx bp st) : UnstrInv ctx (bp ++ [i]) st := by
  intro c hc hm q hq
  rcases h c hc hm q hq with hq' | hq'
  · exact Or.inl hq'
  · exact Or.inr (xpref_extend bp i q hq')

/-- After the children of the construct at `bp ++ [i]` have been analyzed and
every marked direct child construct has propagated into `bp ++ [i]`, the
exception set shrinks back from `bp ++ [i]` to `bp`. -/
theorem unstrInv_restore (ctx : BCtx) (bp : EPath) (i : Nat) (k : ConstructKind)
    (children : EvList)
    (hget : getEvL ctx.root (bp ++ [i]) = some (.construct k children))
    (st2 : BState) (hinv : UnstrInv ctx (bp ++ [i]) st2)
    (hch : ∀ j, j < children.length → constructAt ctx ((bp ++ [i]) ++ [j]) →
      st2.unstrAt ((bp ++ [i]) ++ [j]) = true → st2.unstrAt (bp ++ [i]) = true) :
    UnstrInv ctx bp st2 := by
  intro c hc hm q hq
  rcases hinv c hc hm q hq with h | h
  · exact Or.inl h
  · by_cases hlen : q.length = (bp ++ [i]).length
    · -- the pending exception itself: `q` is the construct whose children ran
      have hqp : q = bp ++ [i] := by
        rw [← h.2.2, hlen]
        simp
      refine Or.inl ?_
      rw [hqp]
      -- `c` lies strictly below `q`; find the direct child of `q` on its chain
      have hsplit0 : c = q ++ c.drop q.length := by
        conv_lhs => rw [← List.take_append_drop q.length c]
        rw [hq.2.2]
      have hdrop : c.drop q.length ≠ [] := by
        intro hnil
        have hlc := List.length_drop q.length c
        rw [hnil] at hlc
        simp at hlc
        have := hq.2.1
        omega
      obtain ⟨j, t, hjt⟩ : ∃ j t, c.drop q.length = j :: t := by
        cases hdc : c.drop q.length with
        | nil => exact absurd hdc hdrop
        | cons j t => exact ⟨j, t, rfl⟩
      have hsplit : c = q ++ j :: t := by rw [hsplit0, hjt]
      obtain ⟨kc, chc, hgc⟩ := hc
      have hext : getEvL ctx.root ((bp ++ [i]) ++ [j]) = children.get? j :=
        getEvL_extend (bp ++ [i]) ctx.root k children j hget
      cases t with
      | nil =>
        -- `c` itself is the direct child
        have hcq : c = (bp ++ [i]) ++ [j] := by rw [hsplit, hqp]
        have hjget : children.get? j = some (.construct kc chc) := by
          rw [← hext, ← hcq]
          exact hgc
        exact hch j (EvList.lt_length_of_get? children j _ hjget)
          ⟨kc, chc, by rw [← hcq]; exact hgc⟩ (by rw [← hcq]; exact hm)
      | cons t0 t' =>
        -- the direct child is a proper ancestor of `c`
        have hq' : properPrefixNE (q ++ [j]) c := by
          refine ⟨by simp, ?_, ?_⟩
          · have hcl : c.length = q.length + (t'.length + 2) := by
              rw [hsplit]
              simp
              try omega
            simp
            omega
          · rw [hsplit, List.take_append_eq_append_take]
            have h1 : q.take (q.length + 1) = q := List.take_of_length_le (by omega)
            have h2 : q.length + 1 - q.length = 1 := by omega
            simp [h1, h2]
        have hcons : constructAt ctx (q ++ [j]) :=
          treeAnc ctx c (q ++ [j]) (.construct kc chc) hgc hq'
        have hM : st2.unstrAt (q ++ [j]) = true := by
          rcases hinv c ⟨kc, chc, hgc⟩ hm (q ++ [j]) hq' with hM | hX
          · exact hM
          · exfalso
            have h1 := hX.2.1
            simp [hqp] at h1
        obtain ⟨kq, chq, hgq⟩ := hcons
        have hjget : children.get? j = some (.construct kq chq) := by
          rw [← hext, ← hqp]
          exact hgq
        exact hch j (EvList.lt_length_of_get? children j _ hjget)
          ⟨kq, chq, by rw [← hqp]; exact hgq⟩ (by rw [← hqp]; exact hM)
    · -- `q` is a shorter prefix: it stays in the smaller exception set
      refine Or.inr ((ppne_append_one bp i q).mp ?_)
      exact ⟨h.1, lt_of_le_of_ne h.2.1 hlen, h.2.2⟩

theorem analyzeList_nil (ctx : BCtx) (bp : EPath) (full : EvList) (i : Nat)
    (lastCS lastIf : Option EPath) (st : BState) :
    analyzeList ctx bp full i .nil lastCS lastIf st = st := rfl

/-- The per-list postconditions of `analyzeBranches`: marks only accumulate
(`monoU`, `monoB`); a new unstructured mark lies at the list owner, inside the
forest of the processed tail, at the pending one-line IF, or carries its whole
`parentConstruct` chain (`marks`); a marked construct element has propagated
into the owner (`catchup`); and the pending-propagation invariant is preserved
(`inv`). -/
structure ALSpec (ctx : BCtx) (bp : EPath) (i : Nat) (lastIf : Option EPath)
    (evs : EvList) (st st' : BState) : Prop where
  monoU : ∀ r, st.unstrAt r = true → st'.unstrAt r = true
  monoB : ∀ r, st.newBlockAt r = true → st'.newBlockAt r = true
  marks : ∀ r, st'.unstrAt r = true → st.unstrAt r = true ∨ r = bp ∨ WithinFrom bp i r ∨
      lastIf = some r ∨ PrefMarked st' r
  catchup : bp ≠ [] → ∀ j, i ≤ j → j < i + evs.length → constructAt ctx (bp ++ [j]) →
      st'.unstrAt (bp ++ [j]) = true → st'.unstrAt bp = true
  inv : UnstrInv ctx bp st → UnstrInv ctx bp st'

/-- Master postcondition theorem for the `analyzeBranches` loop. -/
theorem analyzeList_ok (ctx : BCtx) : ∀ (evs : EvList) (bp : EPath) (full : EvList)
    (i : Nat) (lastCS lastIf : Option EPath) (st : BState),
    ListAt ctx bp i evs → LI ctx lastIf →
    ALSpec ctx bp i lastIf evs st (analyzeList ctx bp full i evs lastCS lastIf st)
  | .nil, bp, full, i, lastCS, lastIf, st, _, _ => by
    rw [analyzeList_nil]
    refine ⟨fun r h => h, fun r h => h, fun r h => Or.inl h, ?_, fun h => h⟩
    intro hbp j hij hjlen
    exfalso
    simp [EvList.length] at hjlen
    omega
  | .cons (.stmt s lbl) rest, bp, full, i, lastCS, lastIf, st, hLA, hLI => by
    have hhead : getEvL ctx.root (bp ++ [i]) = some (.stmt s lbl) :=
      listAt_head ctx bp i _ rest hLA
    rw [analyzeList_cons_stmt]
    dsimp only
    have hv := visOk_visitStmt ctx (if bp.isEmpty then none else some bp) bp full
      (bp ++ [i]) s lastCS lastIf st
    have hvIf := visitStmt_lastIf ctx (if bp.isEmpty then none else some bp) bp full
      (bp ++ [i]) s lastCS lastIf st
    generalize hR1 : visitStmt ctx (if bp.isEmpty then none else some bp) bp full
      (bp ++ [i]) s lastCS lastIf st = R1 at hv hvIf ⊢
    obtain ⟨st2, lastCS2, lastIfR⟩ := R1
    dsimp only at hv hvIf ⊢
    have hLIR : LI ctx lastIfR := by
      intro r hr
      rcases hvIf with hEq | ⟨hEq, hS⟩
      · exact hLI r (by rw [← hEq]; exact hr)
      · rw [hEq] at hr
        injection hr with hr
        subst hr
        exact ⟨s, lbl, hhead⟩
    generalize hR2 : postStages ctx bp i s.isActionStmt lastIfR st2 = R2
    obtain ⟨st6, lastIf2⟩ := R2
    try dsimp only
    have hpsU : ∀ r, st2.unstrAt r = true → st6.unstrAt r = true := by
      intro r h
      have := postStages_monoU ctx bp i s.isActionStmt lastIfR st2 r h
      rw [hR2] at this
      exact this
    have hpsB : ∀ r, st2.newBlockAt r = true → st6.newBlockAt r = true := by
      intro r h
      have := postStages_monoB ctx bp i s.isActionStmt lastIfR st2 r h
      rw [hR2] at this
      exact this
    have hpsM : ∀ r, st6.unstrAt r = true →
        st2.unstrAt r = true ∨ lastIfR = some r ∨ r = bp := by
      intro r h
      exact postStages_marks ctx bp i s.isActionStmt lastIfR st2 r (by rw [hR2]; exact h)
    have hpsS : lastIf2 = none ∨ lastIf2 = lastIfR := by
      have := postStages_snd ctx bp i s.isActionStmt lastIfR st2
      rw [hR2] at this
      exact this
    have hLI2 : LI ctx lastIf2 := by
      intro r hr
      rcases hpsS with hEq | hEq
      · rw [hEq] at hr
        exact absurd hr (by simp)
      · exact hLIR r (by rw [← hEq]; exact hr)
    have hrec := analyzeList_ok ctx rest bp full (i + 1) lastCS2 lastIf2 st6
      (listAt_tail ctx bp i _ rest hLA) hLI2
    have hmono26 : ∀ r, st2.unstrAt r = true →
        (analyzeList ctx bp full (i + 1) rest lastCS2 lastIf2 st6).unstrAt r = true :=
      fun r h => hrec.monoU r (hpsU r h)
    refine ⟨?_, ?_, ?_, ?_, ?_⟩
    · exact fun r h => hrec.monoU r (hpsU r (hv.monoU r h))
    · exact fun r h => hrec.monoB r (hpsB r (hv.monoB r h))
    · intro r h
      rcases hrec.marks r h with h1 | h1 | h1 | h1 | h1
      · rcases hpsM r h1 with h2 | h2 | h2
        · rcases hv.marks r h2 with h3 | h3 | h3
          · exact Or.inl h3
          · exact Or.inr (Or.inr (Or.inl (by rw [h3]; exact withinFrom_self bp i)))
          · exact Or.inr (Or.inr (Or.inr (Or.inr (prefMarked_mono hmono26 r h3))))
        · rcases hvIf with hEq | ⟨hEq, hS⟩
          · rw [hEq] at h2
            exact Or.inr (Or.inr (Or.inr (Or.inl h2)))
          · rw [hEq] at h2
            injection h2 with h2
            exact Or.inr (Or.inr (Or.inl (by rw [← h2]; exact withinFrom_self bp i)))
        · exact Or.inr (Or.inl h2)
      · exact Or.inr (Or.inl h1)
      · exact Or.inr (Or.inr (Or.inl (withinFrom_weaken bp i r h1)))
      · rcases hpsS with hEq | hEq
        · rw [hEq] at h1
          exact absurd h1 (by simp)
        · rw [hEq] at h1
          rcases hvIf with hEq2 | ⟨hEq2, hS⟩
          · rw [hEq2] at h1
            exact Or.inr (Or.inr (Or.inr (Or.inl h1)))
          · rw [hEq2] at h1
            injection h1 with h1
            exact Or.inr (Or.inr (Or.inl (by rw [← h1]; exact withinFrom_self bp i)))
      · exact Or.inr (Or.inr (Or.inr (Or.inr h1)))
    · intro hbp j hij hjlen hcA hm
      rcases Nat.eq_or_lt_of_le hij with hji | hji
      · exfalso
        obtain ⟨kc, chc, hgc⟩ := hcA
        rw [← hji] at hgc
        rw [hhead] at hgc
        simp at hgc
      · exact hrec.catchup hbp j hji (by simp [EvList.length] at hjlen; omega) hcA hm
    · intro hinv
      refine hrec.inv ?_
      have h1 : UnstrInv ctx bp st2 := unstrInv_of_visOk ctx bp i hv hinv
      have h2 := unstrInv_postStages ctx bp i s.isActionStmt lastIfR st2 hLIR h1
      rw [hR2] at h2
      exact h2
  | .cons (.construct k children) rest, bp, full, i, lastCS, lastIf, st, hLA, hLI => by
    have hhead : getEvL ctx.root (bp ++ [i]) = some (.construct k children) :=
      listAt_head ctx bp i _ rest hLA
    rw [analyzeList_cons_construct]
    dsimp only
    have hv := visOk_visitConstruct ctx (bp ++ [i]) k children st
    generalize hSt1 : visitConstruct ctx (bp ++ [i]) k children st = st1 at hv ⊢
    have hrecC := analyzeList_ok ctx children (bp ++ [i]) children 0 none none st1
      (listAt_children ctx (bp ++ [i]) k children hhead) (li_none ctx)
    generalize hSt2 : analyzeList ctx (bp ++ [i]) children 0 children none none st1 = st2
      at hrecC ⊢
    generalize hR2 : postStages ctx bp i false lastIf st2 = R2
    obtain ⟨st6, lastIf2⟩ := R2
    try dsimp only
    have hpsU : ∀ r, st2.unstrAt r = true → st6.unstrAt r = true := by
      intro r h
      have := postStages_monoU ctx bp i false lastIf st2 r h
      rw [hR2] at this
      exact this
    have hpsB : ∀ r, st2.newBlockAt r = true → st6.newBlockAt r = true := by
      intro r h
      have := postStages_monoB ctx bp i false lastIf st2 r h
      rw [hR2] at this
      exact this
    have hpsM : ∀ r, st6.unstrAt r = true →
        st2.unstrAt r = true ∨ lastIf = some r ∨ r = bp := by
      intro r h
      exact postStages_marks ctx bp i false lastIf st2 r (by rw [hR2]; exact h)
    have hpsS : lastIf2 = none ∨ lastIf2 = lastIf := by
      have := postStages_snd ctx bp i false lastIf st2
      rw [hR2] at this
      exact this
    have hLI2 : LI ctx lastIf2 := by
      intro r hr
      rcases hpsS with hEq | hEq
      · rw [hEq] at hr
        exact absurd hr (by simp)
      · exact hLI r (by rw [← hEq]; exact hr)
    have hrec := analyzeList_ok ctx rest bp full (i + 1) lastCS lastIf2 st6
      (listAt_tail ctx bp i _ rest hLA) hLI2
    have hmono26 : ∀ r, st2.unstrAt r = true →
        (analyzeList ctx bp full (i + 1) rest lastCS lastIf2 st6).unstrAt r = true :=
      fun r h => hrec.monoU r (hpsU r h)
    refine ⟨?_, ?_, ?_, ?_, ?_⟩
    · exact fun r h => hrec.monoU r (hpsU r (hrecC.monoU r (hv.monoU r h)))
    · exact fun r h => hrec.monoB r (hpsB r (hrecC.monoB r (hv.monoB r h)))
    · intro r h
      rcases hrec.marks r h with h1 | h1 | h1 | h1 | h1
      · rcases hpsM r h1 with h2 | h2 | h2
        · rcases hrecC.marks r h2 with h3 | h3 | h3 | h3 | h3
          · rcases hv.marks r h3 with h4 | h4 | h4
            · exact Or.inl h4
            · exact Or.inr (Or.inr (Or.inl (by rw [h4]; exact withinFrom_self bp i)))
            · refine Or.inr (Or.inr (Or.inr (Or.inr (prefMarked_mono ?_ r h4))))
              exact fun q hq => hrec.monoU q (hpsU q (hrecC.monoU q hq))
          · exact Or.inr (Or.inr (Or.inl (by rw [h3]; exact withinFrom_self bp i)))
          · exact Or.inr (Or.inr (Or.inl (withinFrom_lift bp i 0 r h3)))
          · exact absurd h3 (by simp)
          · exact Or.inr (Or.inr (Or.inr (Or.inr (prefMarked_mono hmono26 r h3))))
        · exact Or.inr (Or.inr (Or.inr (Or.inl h2)))
        · exact Or.inr (Or.inl h2)
      · exact Or.inr (Or.inl h1)
      · exact Or.inr (Or.inr (Or.inl (withinFrom_weaken bp i r h1)))
      · rcases hpsS with hEq | hEq
        · rw [hEq] at h1
          exact absurd h1 (by simp)
        · rw [hEq] at h1
          exact Or.inr (Or.inr (Or.inr (Or.inl h1)))
      · exact Or.inr (Or.inr (Or.inr (Or.inr h1)))
    · intro hbp j hij hjlen hcA hm
      rcases Nat.eq_or_lt_of_le hij with hji | hji
      · rw [← hji] at hcA hm
        rcases hrec.marks (bp ++ [i]) hm with h1 | h1 | h1 | h1 | h1
        · have h2 : st2.unstrAt (bp ++ [i]) = true ∨ lastIf = some (bp ++ [i]) :=
            postStages_curr ctx bp i false lastIf st2 (by rw [hR2]; exact h1)
          rcases h2 with h2 | h2
          · refine hrec.monoU bp ?_
            have := postStages_prop ctx bp i false lastIf st2 hbp h2
            rw [hR2] at this
            exact this
          · obtain ⟨s', lbl', hg⟩ := hLI _ h2
            obtain ⟨kc, chc, hgc⟩ := hcA
            rw [hg] at hgc
            simp at hgc
        · exfalso
          have := congrArg List.length h1
          simp at this
        · exact absurd h1 (not_withinFrom_succ_self bp i)
        · obtain ⟨s', lbl', hg⟩ := hLI2 _ h1
          obtain ⟨kc, chc, hgc⟩ := hcA
          rw [hg] at hgc
          simp at hgc
        · exact h1 bp ⟨hbp, by simp, by simp⟩
      · exact hrec.catchup hbp j hji (by simp [EvList.length] at hjlen; omega) hcA hm
    · intro hinv
      refine hrec.inv ?_
      have h1 : UnstrInv ctx bp st1 := unstrInv_of_visOk ctx bp i hv hinv
      have h1' : UnstrInv ctx (bp ++ [i]) st1 := unstrInv_weaken ctx bp i st1 h1
      have h2 : UnstrInv ctx (bp ++ [i]) st2 := hrecC.inv h1'
      have h3 : UnstrInv ctx bp st2 := by
        refine unstrInv_restore ctx bp i k children hhead st2 h2 ?_
        intro j hjlt hcA hm
        exact hrecC.catchup (by simp) j (Nat.zero_le j) (by simpa using hjlt) hcA hm
      have h4 := unstrInv_postStages ctx bp i false lastIf st2 hLI h3
      rw [hR2] at h4
      exact h4

/-- `analyzeList` never clears an unstructured mark. -/
theorem analyzeList_monoU (ctx : BCtx) : ∀ (evs : EvList) (bp : EPath) (full : EvList)
    (i : Nat) (lastCS lastIf : Option EPath) (st : BState) (r : EPath),
    st.unstrAt r = true →
    (analyzeList ctx bp full i evs lastCS lastIf st).unstrAt r = true
  | .nil, bp, full, i, lastCS, lastIf, st, r, h => h
  | .cons (.stmt s lbl) rest, bp, full, i, lastCS, lastIf, st, r, h => by
    rw [analyzeList_cons_stmt]
    dsimp only
    refine analyzeList_monoU ctx rest bp full (i + 1) _ _ _ r ?_
    refine postStages_monoU ctx bp i s.isActionStmt _ _ r ?_
    exact (visOk_visitStmt ctx (if bp.isEmpty then none else some bp) bp full
      (bp ++ [i]) s lastCS lastIf st).monoU r h
  | .cons (.construct k children) rest, bp, full, i, lastCS, lastIf, st, r, h => by
    rw [analyzeList_cons_construct]
    dsimp only
    refine analyzeList_monoU ctx rest bp full (i + 1) _ _ _ r ?_
    refine postStages_monoU ctx bp i false _ _ r ?_
    refine analyzeList_monoU ctx children (bp ++ [i]) children 0 none none _ r ?_
    exact (visOk_visitConstruct ctx (bp ++ [i]) k children st).monoU r h

/-- The RETURN and STOP visitors always set `isUnstructured` on the visited
evaluation, with no "last statement" exception. -/
theorem visitStmt_terminal_marks (ctx : BCtx) (parent : Option EPath) (bp : EPath)
    (full : EvList) (p : EPath) (s : Stmt) (lastCS lastIf : Option EPath) (st : BState)
    (hs : s = .returnStmt ∨ s = .stopStmt) :
    ((visitStmt ctx parent bp full p s lastCS lastIf st).1).unstrAt p = true := by
  rcases hs with rfl | rfl <;>
    · simp only [visitStmt]
      repeat' split
      all_goals simp

/-- An evaluation of a RETURN or STOP statement anywhere in a list is marked
unstructured by the time the analysis of the list finishes. -/
theorem analyzeList_marks_terminal (ctx : BCtx) : ∀ (evs : EvList) (bp : EPath)
    (full : EvList) (i : Nat) (lastCS lastIf : Option EPath) (st : BState)
    (j : Nat) (s : Stmt) (lbl : Option PLabel),
    evs.get? j = some (.stmt s lbl) → (s = .returnStmt ∨ s = .stopStmt) →
    (analyzeList ctx bp full i evs lastCS lastIf st).unstrAt (bp ++ [i + j]) = true
  | .nil, bp, full, i, lastCS, lastIf, st, j, s, lbl, hget, _ => by
    simp [EvList.get?] at hget
  | .cons ev rest, bp, full, i, lastCS, lastIf, st, 0, s, lbl, hget, hs => by
    have hev : ev = .stmt s lbl := by simpa [EvList.get?] using hget
    subst hev
    rw [analyzeList_cons_stmt]
    dsimp only
    rw [Nat.add_zero]
    refine analyzeList_monoU ctx rest bp full (i + 1) _ _ _ _ ?_
    refine postStages_monoU ctx bp i s.isActionStmt _ _ _ ?_
    exact visitStmt_terminal_marks ctx (if bp.isEmpty then none else some bp) bp full
      (bp ++ [i]) s lastCS lastIf st hs
  | .cons ev rest, bp, full, i, lastCS, lastIf, st, j + 1, s, lbl, hget, hs => by
    have hget' : rest.get? j = some (.stmt s lbl) := by simpa [EvList.get?] using hget
    have hidx : i + (j + 1) = (i + 1) + j := by omega
    rw [hidx]
    cases ev with
    | stmt s' lbl' =>
      rw [analyzeList_cons_stmt]
      dsimp only
      exact analyzeList_marks_terminal ctx rest bp full (i + 1) _ _ _ j s lbl hget' hs
    | construct k children =>
      rw [analyzeList_cons_construct]
      dsimp only
      exact analyzeList_marks_terminal ctx rest bp full (i + 1) _ _ _ j s lbl hget' hs

/-- C2: after `analyzeBranches` completes on a unit, if a construct
evaluation's `isUnstructured` flag is true, then the `isUnstructured` flag of
every evaluation on its `parentConstruct` chain (every nonempty proper prefix
of its path, all of which are construct evaluations) is also true. -/
theorem c2_unstructured_propagation (ctx : BCtx) (c q : EPath)
    (hc : constructAt ctx c) (hm : (analyzeUnit ctx).unstrAt c = true)
    (hq : properPrefixNE q c) : (analyzeUnit ctx).unstrAt q = true := by
  have hok := analyzeList_ok ctx ctx.root [] ctx.root 0 none none initialBState
    (listAt_root ctx) (li_none ctx)
  have hinv0 : UnstrInv ctx [] initialBState := by
    intro c' hc' hm' q' hq'
    exact absurd hm' (by simp [initialBState, BState.unstrAt])
  have hinv := hok.inv hinv0
  rcases hinv c hc hm q hq with h | h
  · exact h
  · exfalso
    obtain ⟨h1, h2, _⟩ := h
    cases q with
    | nil => exact h1 rfl
    | cons a l => simp at h2

/-- A nested CASE construct inside a DO construct: the CASE construct is
forced unstructured and the flag propagates to the enclosing DO construct. -/
def c2Root : EvList :=
  .cons (.construct .doC
    (.cons (.construct .caseC (.cons (.stmt .continueStmt none) .nil)) .nil)) .nil

def c2Ctx : BCtx := ⟨c2Root, fun _ => none, false⟩

theorem c2_unstructured_propagation_witness :
    constructAt c2Ctx [0, 0] ∧ (analyzeUnit c2Ctx).unstrAt [0, 0] = true ∧
      properPrefixNE [0] [0, 0] ∧ (analyzeUnit c2Ctx).unstrAt [0] = true :=
  ⟨⟨.caseC, .cons (.stmt .continueStmt none) .nil, rfl⟩, by decide,
   ⟨by decide, by decide, by decide⟩,
   c2_unstructured_propagation c2Ctx [0, 0] [0]
     ⟨.caseC, .cons (.stmt .continueStmt none) .nil, rfl⟩ (by decide)
     ⟨by decide, by decide, by decide⟩⟩

/-- The unit consisting of a single RETURN statement, closed out by
`endFunctionBody` (which appends the synthetic terminal CONTINUE). -/
def c6Root : EvList := endFunctionBody (.cons (.stmt .returnStmt none) .nil)

def c6Ctx : BCtx := ⟨c6Root, fun _ => none, false⟩

/-- Counterexample to the claim as stated: for the unit whose only statement
is RETURN (the unit's last statement), the RETURN evaluation IS marked
unstructured (the visitor has no last-statement exception), and its successor
(the synthetic terminal) is NOT forced to start a new block (the new-block
marking requires the lexical successor to have a successor of its own). -/
theorem c6_counterexample :
    (analyzeUnit c6Ctx).unstrAt [0] = true ∧
      (analyzeUnit c6Ctx).newBlockAt [1] = false :=
  ⟨by decide, by decide⟩

/-- C6 (amended): the RETURN/STOP visitors of `analyzeBranches` mark the
evaluation unstructured unconditionally (whether or not it is the unit's last
statement), and mark the non-nop successor as a new block exactly when the
lexical successor exists and itself has a lexical successor. -/
theorem c6_return_stop_marking (ctx : BCtx) (s : Stmt)
    (hs : s = .returnStmt ∨ s = .stopStmt) :
    (∀ (evs : EvList) (bp : EPath) (full : EvList) (i : Nat)
       (lastCS lastIf : Option EPath) (st : BState) (j : Nat) (lbl : Option PLabel),
       evs.get? j = some (.stmt s lbl) →
       (analyzeList ctx bp full i evs lastCS lastIf st).unstrAt (bp ++ [i + j]) = true) ∧
    (∀ (parent : Option EPath) (bp : EPath) (full : EvList) (p : EPath)
       (lastCS lastIf : Option EPath) (st : BState) (q nns : EPath),
       lexSucc ctx.root p = some q → (lexSucc ctx.root q).isSome = true →
       nonNopSuccessor ctx (setUnstructured p st) p = some nns →
       ((visitStmt ctx parent bp full p s lastCS lastIf st).1).newBlockAt nns = true) ∧
    (∀ (parent : Option EPath) (bp : EPath) (full : EvList) (p : EPath)
       (lastCS lastIf : Option EPath) (st : BState) (r : EPath),
       lexSucc ctx.root p = none →
       ((visitStmt ctx parent bp full p s lastCS lastIf st).1).newBlockAt r =
         st.newBlockAt r) ∧
    (∀ (parent : Option EPath) (bp : EPath) (full : EvList) (p : EPath)
       (lastCS lastIf : Option EPath) (st : BState) (q : EPath) (r : EPath),
       lexSucc ctx.root p = some q → (lexSucc ctx.root q).isSome = false →
       ((visitStmt ctx parent bp full p s lastCS lastIf st).1).newBlockAt r =
         st.newBlockAt r) := by
  refine ⟨fun evs bp full i lastCS lastIf st j lbl hget =>
      analyzeList_marks_terminal ctx evs bp full i lastCS lastIf st j s lbl hget hs,
    ?_, ?_, ?_⟩
  · intro parent bp full p lastCS lastIf st q nns hq hqs hnns
    rcases hs with rfl | rfl <;>
      · simp only [visitStmt]
        rw [hq]
        dsimp only
        rw [if_pos hqs]
        unfold markSuccessorAsNewBlock
        rw [hnns]
        simp
  · intro parent bp full p lastCS lastIf st r hq
    rcases hs with rfl | rfl <;>
      · simp only [visitStmt]
        rw [hq]
        rfl
  · intro parent bp full p lastCS lastIf st q r hq hqs
    rcases hs with rfl | rfl <;>
      · simp only [visitStmt]
        rw [hq]
        dsimp only
        rw [if_neg (by rw [hqs]; exact Bool.false_ne_true)]
        rfl

theorem c6_return_stop_marking_witness :
    c6Root.get? 0 = some (.stmt .returnStmt none) ∧
      (analyzeList c6Ctx [] c6Root 0 c6Root none none initialBState).unstrAt
        ([] ++ [0 + 0]) = true :=
  ⟨rfl, (c6_return_stop_marking c6Ctx .returnStmt (Or.inl rfl)).1 c6Root [] c6Root 0
    none none initialBState 0 none rfl⟩

/-! ## Symbol dependence analysis (`SymbolDependenceDepth`) -/

/-- Modelled from the spec: the semantic properties of one symbol-table entry
that `SymbolDependenceDepth` consults (the `semantics` classes are outside the
lowering sources).  Dependency expressions are abstracted to the symbol-id
lists that `evaluate::CollectSymbols` would return. -/
structure SymInfo where
  isProcedure : Bool
  isOtherDetails : Bool
  hasObjectEntityDetails : Bool
  isSaved : Bool
  charLen : Option (List Nat)
  boundSyms : List (List Nat)
  coboundSyms : List (List Nat)
  init : Option (List Nat)
  isAllocatable : Bool
  isPointer : Bool
  isTarget : Bool
  offset : Nat
  size : Nat
  inCommonBlock : Bool
  deriving Repr, DecidableEq

/-- A scope's symbol table: symbol ids with their semantic info, in name-sorted
order (`semantics::Scope` iterates a map sorted by name). -/
abbrev FScope := List (Nat × SymInfo)

/-- `SymbolDependenceDepth::skipSymbol` -/
def skipSymbol (sym : SymInfo) : Bool :=
  !sym.hasObjectEntityDetails || sym.inCommonBlock

/-- `symbolIsGlobal` -/
def symbolIsGlobal (sym : SymInfo) : Bool :=
  (sym.hasObjectEntityDetails && sym.init.isSome) || sym.isSaved || sym.inCommonBlock

/-- Modelled from the spec: `Fortran::lower::IntervalSet` — disjoint closed
byte intervals kept sorted; `merge` inserts an interval, fusing every
overlapping one. -/
def IntervalSet.merge (lo hi : Nat) : List (Nat × Nat) → List (Nat × Nat)
  | [] => [(lo, hi)]
  | (a, b) :: rest =>
    if hi < a then (lo, hi) :: (a, b) :: rest
    else if b < lo then (a, b) :: IntervalSet.merge lo hi rest
    else IntervalSet.merge (min lo a) (max hi b) rest

/-- `IntervalSet::find(offset)`: the interval containing the offset. -/
def IntervalSet.find (ivs : List (Nat × Nat)) (off : Nat) : Option (Nat × Nat) :=
  ivs.find? fun iv => decide (iv.1 ≤ off) && decide (off ≤ iv.2)

/-- Modelled from the spec: `lower::pft::Variable` — a `Nominal` entry
(symbol, global flag, depth, heap/pointer/target flags, optional alias-group
offset) or an `IntervalStore` aggregate (byte interval and global flag). -/
inductive Variable where
  | nominal (sym : Nat) (global : Bool) (depth : Nat)
      (heapAlloc pointer target : Bool) (aliasOffset : Option Nat)
  | intervalStore (istart ilen : Nat) (global : Bool)
  deriving Repr, DecidableEq

/-- The mutable members of `SymbolDependenceDepth`. -/
structure SDD where
  seen : List Nat
  aliasSyms : List Nat
  stores : List (Nat × Nat × Bool)
  vars : List (List Variable)
  deriving Repr, DecidableEq

/-- `scope.find(sym)` -/
def lookupSym (scope : FScope) (s : Nat) : Option SymInfo :=
  (scope.find? fun x => x.1 == s).map Prod.snd

/-- Phase 1 of `SymbolDependenceDepth::analyzeAliases`: the merged intervals
of the scope's eligible symbols. -/
def scopeIntervals (scope : FScope) : List (Nat × Nat) :=
  scope.foldl
    (fun ivs x => if skipSymbol x.2 then ivs
      else IntervalSet.merge x.2.offset (x.2.offset + x.2.size - 1) ivs) []

/-- The members of the alias set of one merged interval: the eligible symbols
whose offset is mapped into it, in symbol-table order. -/
def aliasMembers (scope : FScope) (iv : Nat × Nat) : List Nat :=
  (scope.filter fun x =>
    !skipSymbol x.2 && (IntervalSet.find (scopeIntervals scope) x.2.offset == some iv)).map
    Prod.fst

/-- The alias sets with more than one member. -/
def bigAliasSets (scope : FScope) : List ((Nat × Nat) × List Nat) :=
  ((scopeIntervals scope).map fun iv => (iv, aliasMembers scope iv)).filter
    fun s => decide (1 < s.2.length)

/-- The store recorded for one alias set: start, length, and the global flag
(present in `setIsGlobal` iff some member symbol is global). -/
def storeOfSet (scope : FScope) (s : (Nat × Nat) × List Nat) : Nat × Nat × Bool :=
  (s.1.1, s.1.2 - s.1.1 + 1,
   s.2.any fun n =>
     match lookupSym scope n with
     | some sy => symbolIsGlobal sy
     | none => false)

/-- `SymbolDependenceDepth::analyzeAliases`.  The `DenseMap` grouping is
modelled by grouping eligible symbols per merged interval and iterating the
merged intervals in their sorted order (the C++ hash-map iteration order is
unspecified); a set is marked global when any member symbol is global, which
is what the `setIsGlobal` presence map records. -/
def analyzeAliases (scope : FScope) (st : SDD) : SDD :=
  { st with
    aliasSyms := st.aliasSyms ++ ((bigAliasSets scope).map Prod.snd).flatten
    stores := st.stores ++ (bigAliasSets scope).map (storeOfSet scope) }

/-- The `findStore` lambda of `analyze`: the first store whose interval
contains the offset (the C++ aborts when absent; modelled as `none`). -/
def findStore (stores : List (Nat × Nat × Bool)) (off : Nat) : Option Nat :=
  (stores.find? fun v => decide (v.1 ≤ off) && decide (off < v.1 + v.2.1)).map Prod.fst

/-- `SymbolDependenceDepth::adjustSize` -/
def adjustSize (size : Nat) (vars : List (List Variable)) : List (List Variable) :=
  if vars.length < size then vars ++ List.replicate (size - vars.length) [] else vars

/-- The `depth = std::max(analyze(s) + 1, depth)` fold over one dependency
expression's collected symbols. -/
def analyzeSyms (analyzeF : Nat → SDD → Nat × SDD) (syms : List Nat)
    (depth : Nat) (st : SDD) : Nat × SDD :=
  syms.foldl (fun acc s =>
    let r := analyzeF s acc.2
    (max (r.1 + 1) acc.1, r.2)) (depth, st)

/-- The `doExplicit` fold over a list of explicit bound expressions. -/
def analyzeBoundsList (analyzeF : Nat → SDD → Nat × SDD) (bnds : List (List Nat))
    (depth : Nat) (st : SDD) : Nat × SDD :=
  bnds.foldl (fun acc syms => analyzeSyms analyzeF syms acc.1 acc.2) (depth, st)

/-- The character-length and array/co-array bound recursions of `analyze`:
the `doExplicit`/`CollectSymbols` folds over the dependency expressions. -/
def analyzeDeps (analyzeF : Nat → SDD → Nat × SDD) (sym : SymInfo) (depth : Nat)
    (st : SDD) : Nat × SDD :=
  let r1 :=
    match sym.charLen with
    | some syms => analyzeSyms analyzeF syms depth st
    | none => (depth, st)
  if sym.hasObjectEntityDetails then
    let rb := analyzeBoundsList analyzeF sym.boundSyms r1.1 r1.2
    analyzeBoundsList analyzeF sym.coboundSyms rb.1 rb.2
  else r1

/-- The initializer recursion of `analyze`; an initializer also forces the
global flag (a PARAMETER may not be marked implicitly SAVE). -/
def analyzeInit (analyzeF : Nat → SDD → Nat × SDD) (sym : SymInfo)
    (r2 : Nat × SDD) : Bool × Nat × SDD :=
  match sym.init with
  | some syms =>
    if sym.hasObjectEntityDetails then
      (true, analyzeSyms analyzeF syms r2.1 r2.2)
    else (sym.isSaved, r2)
  | none => (sym.isSaved, r2)

/-- `vars[depth].emplace_back(sym, global, depth)` with the attribute setters
and the `setAlias(findStore(sym.offset()))` link for alias-set members. -/
def placeVar (s : Nat) (sym : SymInfo) (global : Bool) (depth : Nat) (st : SDD) : SDD :=
  let vars := adjustSize (depth + 1) st.vars
  let v := Variable.nominal s global depth sym.isAllocatable sym.isPointer sym.isTarget
    (if !st.aliasSyms.isEmpty && st.aliasSyms.contains s then
      findStore st.stores sym.offset else none)
  { st with vars := vars.set depth (vars.getD depth [] ++ [v]) }

/-- `SymbolDependenceDepth::analyze`, fuel-indexed (the C++ recursion
terminates because every level inserts into `seen` before recursing; the fuel
bounds that depth and is chosen large enough never to run out for a scope's
symbols).  A repeated visit returns depth 0 via the `seen` set. -/
def analyze : Nat → FScope → Nat → SDD → Nat × SDD
  | 0, _, _, st => (0, st)
  | fuel + 1, scope, s, st =>
    if st.seen.contains s then (0, st)
    else
      let st := { st with seen := s :: st.seen }
      match lookupSym scope s with
      | none => (0, st)
      | some sym =>
        if sym.isProcedure then (0, st)
        else if sym.isOtherDetails then (0, st)
        else
          let depth := if !st.aliasSyms.isEmpty && st.aliasSyms.contains s then
            max 1 0 else 0
          let r2 := analyzeDeps (analyze fuel scope) sym depth st
          let r3 := analyzeInit (analyze fuel scope) sym r2
          (r3.2.1, placeVar s sym r3.1 r3.2.1 r3.2.2)

/-- `SymbolDependenceDepth::prepareStores`: all aggregate stores go to the
front of the depth-0 work list. -/
def prepareStores (st : SDD) : SDD :=
  let vars := adjustSize 1 st.vars
  { st with vars := vars.set 0 (vars.getD 0 [] ++
      st.stores.map fun v => Variable.intervalStore v.1 v.2.1 v.2.2) }

/-- `SymbolDependenceDepth::finalize`: flatten the depth buckets in depth
order. -/
def SDD.finalize (st : SDD) : List Variable := st.vars.flatten

/-- Fuel bound: one level per symbol plus one. -/
def symbolFuel (scope : FScope) : Nat := scope.length + 1

/-- `processSymbolTable` (the `scope.equivalenceSets().empty()` test is the
`hasEquivalences` flag). -/
def processSymbolTable (scope : FScope) (hasEquivalences : Bool) : List Variable :=
  let st0 : SDD := ⟨[], [], [], []⟩
  let st1 := if hasEquivalences then analyzeAliases scope st0 else st0
  let st2 := prepareStores st1
  let st3 := scope.foldl (fun st x => (analyze (symbolFuel scope) scope x.1 st).2) st2
  st3.finalize

/-- All symbols referenced by one symbol's dependency expressions
(character-length, array bounds, co-array bounds, initializer). -/
def symDeps (sym : SymInfo) : List Nat :=
  sym.charLen.getD [] ++ sym.boundSyms.flatten ++ sym.coboundSyms.flatten ++ sym.init.getD []

/-- The position of a symbol's materialized `Nominal` Variable. -/
def idxOfSym (out : List Variable) (s : Nat) : Option Nat :=
  out.findIdx? fun v =>
    match v with
    | .nominal s' _ _ _ _ _ _ => s' == s
    | _ => false

/-- The C1 claim as a decidable predicate on the produced allocation list:
every symbol referenced by a materialized Variable's dependency expressions
whose own Variable is materialized appears strictly earlier in the list. -/
def depthOrderingClaim (scope : FScope) (hasEquivalences : Bool) : Bool :=
  let out := processSymbolTable scope hasEquivalences
  scope.all fun x =>
    match idxOfSym out x.1 with
    | none => true
    | some iv =>
      (symDeps x.2).all fun s =>
        match idxOfSym out s with
        | none => true
        | some i => decide (i < iv)

/-- The legal scope refuting C1: name-ordered PARAMETER symbols `a = c + 1`,
`c = d + 1`, `d = 1` and an array `e(a)`.  `a` is analyzed first and reaches
depth 2 through `c` and `d`; when `e`'s bound is analyzed, the memoized
re-visit of `a` returns 0, so `e` lands at depth 1 — before `a`. -/
def c1Scope : FScope :=
  [(1, { isProcedure := false, isOtherDetails := false,
         hasObjectEntityDetails := true, isSaved := false, charLen := none,
         boundSyms := [], coboundSyms := [], init := some [2],
         isAllocatable := false, isPointer := false, isTarget := false,
         offset := 0, size := 4, inCommonBlock := false }),
   (2, { isProcedure := false, isOtherDetails := false,
         hasObjectEntityDetails := true, isSaved := false, charLen := none,
         boundSyms := [], coboundSyms := [], init := some [3],
         isAllocatable := false, isPointer := false, isTarget := false,
         offset := 4, size := 4, inCommonBlock := false }),
   (3, { isProcedure := false, isOtherDetails := false,
         hasObjectEntityDetails := true, isSaved := false, charLen := none,
         boundSyms := [], coboundSyms := [], init := some [],
         isAllocatable := false, isPointer := false, isTarget := false,
         offset := 8, size := 4, inCommonBlock := false }),
   (4, { isProcedure := false, isOtherDetails := false,
         hasObjectEntityDetails := true, isSaved := false, charLen := none,
         boundSyms := [[1]], coboundSyms := [], init := none,
         isAllocatable := false, isPointer := false, isTarget := false,
         offset := 12, size := 4, inCommonBlock := false })]

/-- C1: the claimed allocation-order invariant is violated by the code.  On
the legal scope `c1Scope` (no equivalences), symbol 4 (`e`) references
symbol 1 (`a`) in its array bound, both are materialized, yet `e`'s Variable
precedes `a`'s: the seen-set memoization of `analyze` returns depth 0 for the
already-visited `a`, so `e` gets depth 1 while `a` sits at depth 2, and the
flattened allocation order is `[d, c, e, a]`. -/
theorem c1_depth_ordering_code_bug :
    depthOrderingClaim c1Scope false = false ∧
      processSymbolTable c1Scope false =
        [.nominal 3 true 0 false false false none,
         .nominal 2 true 1 false false false none,
         .nominal 4 false 1 false false false none,
         .nominal 1 true 2 false false false none] :=
  ⟨by decide, by decide⟩

/-- Well-formed merged-interval list: each closed interval nonempty, pairwise
sorted with gaps (disjoint). -/
def IvsWF (ivs : List (Nat × Nat)) : Prop :=
  (∀ iv ∈ ivs, iv.1 ≤ iv.2) ∧ ivs.Pairwise (fun x y => x.2 < y.1)

theorem merge_lower_bound (c lo hi : Nat) :
    ∀ (ivs : List (Nat × Nat)), c < lo → (∀ w ∈ ivs, c < w.1) →
    ∀ z ∈ IntervalSet.merge lo hi ivs, c < z.1
  | [], hc, _, z, hz => by
    simp only [IntervalSet.merge, List.mem_singleton] at hz
    rw [hz]
    exact hc
  | (a, b) :: rest, hc, h, z, hz => by
    simp only [IntervalSet.merge] at hz
    split at hz
    · rcases List.mem_cons.mp hz with rfl | hz'
      · exact hc
      · exact h z hz'
    · split at hz
      · rcases List.mem_cons.mp hz with rfl | hz'
        · exact h (a, b) (List.mem_cons_self _ _)
        · exact merge_lower_bound c lo hi rest hc
            (fun w hw => h w (List.mem_cons_of_mem _ hw)) z hz'
      · refine merge_lower_bound c (min lo a) (max hi b) rest ?_
          (fun w hw => h w (List.mem_cons_of_mem _ hw)) z hz
        exact lt_min hc (h (a, b) (List.mem_cons_self _ _))

theorem merge_wf (lo hi : Nat) :
    ∀ (ivs : List (Nat × Nat)), lo ≤ hi → IvsWF ivs →
    IvsWF (IntervalSet.merge lo hi ivs)
  | [], hlh, _ => by
    constructor
    · intro iv hiv
      simp only [IntervalSet.merge, List.mem_singleton] at hiv
      rw [hiv]
      exact hlh
    · simp [IntervalSet.merge]
  | (a, b) :: rest, hlh, hwf => by
    obtain ⟨hne, hpw⟩ := hwf
    rw [List.pairwise_cons] at hpw
    obtain ⟨hhead, hrest⟩ := hpw
    simp only [IntervalSet.merge]
    split
    · -- hi < a: prepend disjointly
      rename_i hha
      constructor
      · intro iv hiv
        rcases List.mem_cons.mp hiv with rfl | hiv'
        · exact hlh
        · exact hne iv hiv'
      · rw [List.pairwise_cons]
        refine ⟨?_, List.pairwise_cons.mpr ⟨hhead, hrest⟩⟩
        intro y hy
        rcases List.mem_cons.mp hy with rfl | hy'
        · exact hha
        · exact lt_of_lt_of_le hha (le_trans (hne (a, b) (List.mem_cons_self _ _))
            (le_of_lt (hhead y hy')))
    · split
      · -- b < lo: keep head, merge into the tail
        rename_i hha hbl
        have hwfrest : IvsWF (IntervalSet.merge lo hi rest) :=
          merge_wf lo hi rest hlh ⟨fun iv hiv => hne iv (List.mem_cons_of_mem _ hiv), hrest⟩
        constructor
        · intro iv hiv
          rcases List.mem_cons.mp hiv with rfl | hiv'
          · exact hne (a, b) (List.mem_cons_self _ _)
          · exact hwfrest.1 iv hiv'
        · rw [List.pairwise_cons]
          refine ⟨?_, hwfrest.2⟩
          intro y hy
          exact merge_lower_bound b lo hi rest hbl hhead y hy
      · -- overlap: fuse and continue
        rename_i hha hbl
        refine merge_wf (min lo a) (max hi b) rest ?_
          ⟨fun iv hiv => hne iv (List.mem_cons_of_mem _ hiv), hrest⟩
        exact le_trans (min_le_left lo a) (le_trans hlh (le_max_left hi b))

/-- An interval covering `[lo, hi]` is reachable in the merged set. -/
theorem merge_covers_self (lo hi : Nat) :
    ∀ (ivs : List (Nat × Nat)),
    ∃ iv ∈ IntervalSet.merge lo hi ivs, iv.1 ≤ lo ∧ hi ≤ iv.2
  | [] => ⟨(lo, hi), by simp [IntervalSet.merge]⟩
  | (a, b) :: rest => by
    simp only [IntervalSet.merge]
    split
    · exact ⟨(lo, hi), List.mem_cons_self _ _, le_refl _, le_refl _⟩
    · split
      · obtain ⟨iv, hmem, h1, h2⟩ := merge_covers_self lo hi rest
        exact ⟨iv, List.mem_cons_of_mem _ hmem, h1, h2⟩
      · obtain ⟨iv, hmem, h1, h2⟩ := merge_covers_self (min lo a) (max hi b) rest
        exact ⟨iv, hmem, le_trans h1 (min_le_left _ _), le_trans (le_max_left _ _) h2⟩

/-- Merging preserves coverage of any already covered interval. -/
theorem merge_preserves_cover (lo hi c d : Nat) :
    ∀ (ivs : List (Nat × Nat)), (∃ iv ∈ ivs, iv.1 ≤ c ∧ d ≤ iv.2) →
    ∃ iv ∈ IntervalSet.merge lo hi ivs, iv.1 ≤ c ∧ d ≤ iv.2
  | [], h => by
    obtain ⟨iv, hmem, _, _⟩ := h
    exact absurd hmem (by simp)
  | (a, b) :: rest, h => by
    obtain ⟨iv, hmem, h1, h2⟩ := h
    simp only [IntervalSet.merge]
    split
    · exact ⟨iv, List.mem_cons_of_mem _ hmem, h1, h2⟩
    · split
      · rcases List.mem_cons.mp hmem with heq | hmem'
        · exact ⟨(a, b), List.mem_cons_self _ _, by rw [← heq]; exact h1,
            by rw [← heq]; exact h2⟩
        · obtain ⟨iv', hmem'', h1', h2'⟩ :=
            merge_preserves_cover lo hi c d rest ⟨iv, hmem', h1, h2⟩
          exact ⟨iv', List.mem_cons_of_mem _ hmem'', h1', h2'⟩
      · rcases List.mem_cons.mp hmem with heq | hmem'
        · obtain ⟨iv', hmem'', h1', h2'⟩ := merge_covers_self (min lo a) (max hi b) rest
          refine ⟨iv', hmem'', ?_, ?_⟩
          · calc iv'.1 ≤ min lo a := h1'
              _ ≤ a := min_le_right _ _
              _ = iv.1 := by rw [heq]
              _ ≤ c := h1
          · calc d ≤ iv.2 := h2
              _ = b := by rw [heq]
              _ ≤ max hi b := le_max_right _ _
              _ ≤ iv'.2 := h2'
        · exact merge_preserves_cover (min lo a) (max hi b) c d rest ⟨iv, hmem', h1, h2⟩

theorem scopeIntervals_wf_aux :
    ∀ (l : FScope) (ivs : List (Nat × Nat)), (∀ x ∈ l, 1 ≤ x.2.size) → IvsWF ivs →
    IvsWF (l.foldl (fun ivs x => if skipSymbol x.2 then ivs
      else IntervalSet.merge x.2.offset (x.2.offset + x.2.size - 1) ivs) ivs)
  | [], ivs, _, h => h
  | x :: l, ivs, hs, h => by
    rw [List.foldl_cons]
    refine scopeIntervals_wf_aux l _ (fun y hy => hs y (List.mem_cons_of_mem _ hy)) ?_
    split
    · exact h
    · refine merge_wf _ _ ivs ?_ h
      have := hs x (List.mem_cons_self _ _)
      omega

theorem scopeIntervals_wf (scope : FScope) (hs : ∀ x ∈ scope, 1 ≤ x.2.size) :
    IvsWF (scopeIntervals scope) :=
  scopeIntervals_wf_aux scope [] hs ⟨by simp, by simp⟩

theorem foldl_merge_covers :
    ∀ (l : FScope) (ivs : List (Nat × Nat)) (c d : Nat),
    (∃ iv ∈ ivs, iv.1 ≤ c ∧ d ≤ iv.2) →
    ∃ iv ∈ (l.foldl (fun ivs x => if skipSymbol x.2 then ivs
      else IntervalSet.merge x.2.offset (x.2.offset + x.2.size - 1) ivs) ivs),
      iv.1 ≤ c ∧ d ≤ iv.2
  | [], _, _, _, h => h
  | x :: l, ivs, c, d, h => by
    rw [List.foldl_cons]
    refine foldl_merge_covers l _ c d ?_
    split
    · exact h
    · exact merge_preserves_cover _ _ c d ivs h

theorem scopeIntervals_covers (scope : FScope) (x : Nat × SymInfo) (hx : x ∈ scope)
    (hskip : skipSymbol x.2 = false) :
    ∃ iv ∈ scopeIntervals scope, iv.1 ≤ x.2.offset ∧ x.2.offset + x.2.size - 1 ≤ iv.2 := by
  obtain ⟨l1, l2, hl⟩ := List.append_of_mem hx
  unfold scopeIntervals
  rw [hl, List.foldl_append, List.foldl_cons, hskip]
  simp only [Bool.false_eq_true, if_false]
  exact foldl_merge_covers l2 _ _ _ (merge_covers_self _ _ _)

theorem find_of_mem_wf :
    ∀ (ivs : List (Nat × Nat)), ivs.Pairwise (fun x y => x.2 < y.1) →
    ∀ iv ∈ ivs, ∀ off, iv.1 ≤ off → off ≤ iv.2 →
    IntervalSet.find ivs off = some iv
  | [], _, iv, hm, _, _, _ => absurd hm (by simp)
  | (a, b) :: rest, hpw, iv, hm, off, h1, h2 => by
    rw [List.pairwise_cons] at hpw
    obtain ⟨hhead, hrest⟩ := hpw
    unfold IntervalSet.find
    rcases List.mem_cons.mp hm with heq | hm'
    · rw [List.find?_cons_of_pos]
      · rw [heq]
      · have ha : a ≤ off := by rw [heq] at h1; exact h1
        have hb : off ≤ b := by rw [heq] at h2; exact h2
        simp [ha, hb]
    · have hb : b < iv.1 := hhead iv hm'
      rw [List.find?_cons_of_neg]
      · exact find_of_mem_wf rest hrest iv hm' off h1 h2
      · simp only [Bool.and_eq_true, decide_eq_true_eq, not_and]
        intro _ hob
        omega

theorem find?_unique {α : Type} (p : α → Bool) :
    ∀ (l : List α) (x : α), x ∈ l → p x = true → (∀ y ∈ l, p y = true → y = x) →
    l.find? p = some x
  | [], x, hm, _, _ => absurd hm (by simp)
  | a :: l, x, hm, hp, huniq => by
    by_cases ha : p a = true
    · rw [List.find?_cons_of_pos _ ha]
      rw [huniq a (List.mem_cons_self _ _) ha]
    · rw [List.find?_cons_of_neg _ ha]
      rcases List.mem_cons.mp hm with heq | hm'
      · rw [heq] at hp
        exact absurd hp ha
      · exact find?_unique p l x hm' hp (fun y hy => huniq y (List.mem_cons_of_mem _ hy))

theorem pairwise_mem_rel {α : Type} (R : α → α → Prop) :
    ∀ (l : List α), l.Pairwise R → ∀ a ∈ l, ∀ b ∈ l, a = b ∨ R a b ∨ R b a
  | [], _, a, ha, _, _ => absurd ha (by simp)
  | c :: l, hpw, a, ha, b, hb => by
    rw [List.pairwise_cons] at hpw
    obtain ⟨hhead, hrest⟩ := hpw
    rcases List.mem_cons.mp ha with rfl | ha' <;> rcases List.mem_cons.mp hb with heq | hb'
    · exact Or.inl heq.symm
    · exact Or.inr (Or.inl (hhead b hb'))
    · rw [heq]
      exact Or.inr (Or.inr (hhead a ha'))
    · exact pairwise_mem_rel R l hrest a ha' b hb'

theorem bigAliasSets_mem (scope : FScope) (s : (Nat × Nat) × List Nat) :
    s ∈ bigAliasSets scope ↔
      s.1 ∈ scopeIntervals scope ∧ s.2 = aliasMembers scope s.1 ∧ 1 < s.2.length := by
  unfold bigAliasSets
  rw [List.mem_filter, List.mem_map]
  constructor
  · rintro ⟨⟨iv, hiv, rfl⟩, hlen⟩
    exact ⟨hiv, rfl, by simpa using hlen⟩
  · rintro ⟨hiv, hmem, hlen⟩
    refine ⟨⟨s.1, hiv, ?_⟩, by simpa using hlen⟩
    rw [← hmem]

theorem findStore_of_member (scope : FScope) (hs : ∀ x ∈ scope, 1 ≤ x.2.size)
    (iv : Nat × Nat) (hiv : iv ∈ scopeIntervals scope)
    (hbig : 1 < (aliasMembers scope iv).length)
    (off : Nat) (h1 : iv.1 ≤ off) (h2 : off ≤ iv.2) :
    findStore ((bigAliasSets scope).map (storeOfSet scope)) off = some iv.1 := by
  have hwf := scopeIntervals_wf scope hs
  have hwfiv := hwf.1 iv hiv
  unfold findStore
  have hmem : storeOfSet scope (iv, aliasMembers scope iv) ∈
      (bigAliasSets scope).map (storeOfSet scope) :=
    List.mem_map_of_mem _ ((bigAliasSets_mem scope _).mpr ⟨hiv, rfl, hbig⟩)
  have hpx : (fun v => decide (v.1 ≤ off) && decide (off < v.1 + v.2.1))
      (storeOfSet scope (iv, aliasMembers scope iv)) = true := by
    simp only [storeOfSet, Bool.and_eq_true, decide_eq_true_eq]
    omega
  have huniq : ∀ y ∈ (bigAliasSets scope).map (storeOfSet scope),
      (fun v => decide (v.1 ≤ off) && decide (off < v.1 + v.2.1)) y = true →
      y = storeOfSet scope (iv, aliasMembers scope iv) := by
    intro y hy hpy
    obtain ⟨s', hs', hys⟩ := List.mem_map.mp hy
    obtain ⟨hiv', hmem', hlen'⟩ := (bigAliasSets_mem scope s').mp hs'
    have hwf1 := hwf.1 s'.1 hiv'
    rw [← hys] at hpy
    have hpy' : s'.1.1 ≤ off ∧ off ≤ s'.1.2 := by
      simp only [storeOfSet, Bool.and_eq_true, decide_eq_true_eq] at hpy
      omega
    rcases pairwise_mem_rel _ _ hwf.2 s'.1 hiv' iv hiv with heq | hlt | hlt
    · rw [← hys]
      have h2' : s'.2 = aliasMembers scope iv := by rw [hmem', heq]
      have hseq : s' = (iv, aliasMembers scope iv) := by
        calc s' = (s'.1, s'.2) := rfl
          _ = (iv, aliasMembers scope iv) := by rw [heq, h2']
      rw [hseq]
    · exact absurd hpy'.2 (by omega)
    · exact absurd hpy'.1 (by omega)
  rw [find?_unique _ _ _ hmem hpx huniq]
  simp [storeOfSet]

/-- Well-formed scopes for the alias-store theorems: distinct symbol ids,
positive sizes, and object entities are not procedures or use/host/module
associations (a semantic-analysis guarantee). -/
structure WFScope (scope : FScope) : Prop where
  nodup : (scope.map Prod.fst).Nodup
  sizes : ∀ x ∈ scope, 1 ≤ x.2.size
  details : ∀ x ∈ scope, x.2.hasObjectEntityDetails = true →
    x.2.isProcedure = false ∧ x.2.isOtherDetails = false

theorem lookupSym_of_mem :
    ∀ (scope : FScope), (scope.map Prod.fst).Nodup →
    ∀ x ∈ scope, lookupSym scope x.1 = some x.2
  | [], _, x, hx => absurd hx (by simp)
  | y :: l, hnd, x, hx => by
    rw [List.map_cons, List.nodup_cons] at hnd
    unfold lookupSym
    rcases List.mem_cons.mp hx with heq | hx'
    · rw [List.find?_cons_of_pos _ (by rw [heq]; simp)]
      rw [heq]
      rfl
    · by_cases hfst : (y.1 == x.1) = true
      · exfalso
        have heq : y.1 = x.1 := by simpa using hfst
        exact hnd.1 (List.mem_map.mpr ⟨x, hx', heq.symm⟩)
      · rw [List.find?_cons_of_neg]
        · exact lookupSym_of_mem l hnd.2 x hx'
        · simpa using hfst

/-- The symbol's recorded offset (the placement uses the looked-up entry's
offset). -/
def symOffset (scope : FScope) (s : Nat) : Nat :=
  match lookupSym scope s with
  | some sym => sym.offset
  | none => 0

/-- `v` is the materialized Nominal of symbol `s`. -/
def NomOf (v : Variable) (s : Nat) : Prop :=
  ∃ g d h p t ao, v = .nominal s g d h p t ao

/-- A symbol `analyze` materializes: present, not a procedure, no
use/host/namelist/module/misc details. -/
def MatSym (scope : FScope) (s : Nat) : Prop :=
  ∃ sym, lookupSym scope s = some sym ∧ sym.isProcedure = false ∧
    sym.isOtherDetails = false

/-- Every element is a Nominal, and alias-set members carry the
`findStore`-resolved aggregate offset. -/
def AllNomOK (scope : FScope) (asyms : List Nat) (stores : List (Nat × Nat × Bool))
    (l : List Variable) : Prop :=
  ∀ v ∈ l, (∃ s, NomOf v s) ∧
    (∀ s g d h p t ao, v = .nominal s g d h p t ao → asyms ≠ [] →
      asyms.contains s = true → ao = findStore stores (symOffset scope s))

/-- The good-state predicate during the `analyze` loop: alias data fixed, the
depth-0 bucket is the aggregate-store prefix followed by well-linked
nominals, deeper buckets are well-linked nominals. -/
def GS (scope : FScope) (asyms : List Nat) (stores : List (Nat × Nat × Bool))
    (storesPre : List Variable) (st : SDD) : Prop :=
  st.aliasSyms = asyms ∧ st.stores = stores ∧
  (∃ ns0, st.vars.get? 0 = some (storesPre ++ ns0) ∧ AllNomOK scope asyms stores ns0) ∧
  (∀ i, 1 ≤ i → AllNomOK scope asyms stores (st.vars.getD i []))

/-- The step shape of every `analyze` call: `seen` and the variables only
grow, the alias data is untouched, the good state is preserved, and every
newly seen materializable symbol has a Nominal in the result. -/
def SP (scope : FScope) (asyms : List Nat) (stores : List (Nat × Nat × Bool))
    (storesPre : List Variable) (st st' : SDD) : Prop :=
  (∀ t, st.seen.contains t = true → st'.seen.contains t = true) ∧
  (∀ v, v ∈ st.vars.flatten → v ∈ st'.vars.flatten) ∧
  st'.aliasSyms = st.aliasSyms ∧ st'.stores = st.stores ∧
  (GS scope asyms stores storesPre st → GS scope asyms stores storesPre st') ∧
  (∀ t, st'.seen.contains t = true → st.seen.contains t = true ∨
    (MatSym scope t → ∃ v ∈ st'.vars.flatten, NomOf v t))

theorem sp_refl (scope asyms stores storesPre) (st : SDD) :
    SP scope asyms stores storesPre st st :=
  ⟨fun _ h => h, fun _ h => h, rfl, rfl, fun h => h, fun _ h => Or.inl h⟩

theorem sp_trans {scope asyms stores storesPre} {st1 st2 st3 : SDD}
    (h1 : SP scope asyms stores storesPre st1 st2)
    (h2 : SP scope asyms stores storesPre st2 st3) :
    SP scope asyms stores storesPre st1 st3 := by
  obtain ⟨s1, v1, a1, o1, g1, n1⟩ := h1
  obtain ⟨s2, v2, a2, o2, g2, n2⟩ := h2
  refine ⟨fun t h => s2 t (s1 t h), fun v h => v2 v (v1 v h), a2.trans a1, o2.trans o1,
    fun h => g2 (g1 h), fun t h => ?_⟩
  rcases n2 t h with h' | h'
  · rcases n1 t h' with h'' | h''
    · exact Or.inl h''
    · exact Or.inr fun hm => by
        obtain ⟨v, hv, hn⟩ := h'' hm
        exact ⟨v, v2 v hv, hn⟩
  · exact Or.inr h'

theorem flatten_adjustSize (n : Nat) (vars : List (List Variable)) :
    (adjustSize n vars).flatten = vars.flatten := by
  unfold adjustSize
  split
  · rw [List.flatten_append]
    have : (List.replicate (n - vars.length) ([] : List Variable)).flatten = [] := by
      induction (n - vars.length) with
      | zero => rfl
      | succ k ih => simpa [List.replicate_succ] using ih
    rw [this, List.append_nil]
  · rfl

theorem length_adjustSize (n : Nat) (vars : List (List Variable)) :
    n ≤ (adjustSize n vars).length := by
  unfold adjustSize
  split
  · simp
    omega
  · omega

theorem get?_zero_adjustSize (n : Nat) (vars : List (List Variable))
    (h : vars ≠ []) : (adjustSize n vars).get? 0 = vars.get? 0 := by
  unfold adjustSize
  split
  · cases vars with
    | nil => exact absurd rfl h
    | cons a l => rfl
  · rfl

theorem getD_adjustSize (n i : Nat) (vars : List (List Variable)) :
    (adjustSize n vars).getD i [] = vars.getD i [] := by
  unfold adjustSize
  split
  · rcases Nat.lt_or_ge i vars.length with hi | hi
    · rw [List.getD_eq_getElem?_getD, List.getD_eq_getElem?_getD,
        List.getElem?_append_left hi]
    · rw [List.getD_eq_getElem?_getD, List.getD_eq_getElem?_getD,
        List.getElem?_append_right hi, List.getElem?_replicate]
      have h1 : vars[i]? = none := by
        rw [List.getElem?_eq_none]
        omega
      rw [h1]
      split <;> rfl
  · rfl

theorem list_set_getD_self : ∀ (l : List (List Variable)) (n : Nat) (a : List Variable),
    n < l.length → (l.set n a).getD n [] = a
  | [], n, a, h => absurd h (by simp)
  | x :: l, 0, a, _ => rfl
  | x :: l, n + 1, a, h => by
    simp only [List.set_cons_succ, List.getD_cons_succ]
    exact list_set_getD_self l n a (by simpa using h)

theorem list_set_getD_ne : ∀ (l : List (List Variable)) (n m : Nat) (a : List Variable),
    n ≠ m → (l.set n a).getD m [] = l.getD m []
  | [], _, _, _, _ => rfl
  | x :: l, 0, 0, a, h => absurd rfl h
  | x :: l, 0, m + 1, a, _ => rfl
  | x :: l, n + 1, 0, a, _ => rfl
  | x :: l, n + 1, m + 1, a, h => by
    simp only [List.set_cons_succ, List.getD_cons_succ]
    exact list_set_getD_ne l n m a (by omega)

theorem list_set_get?_self : ∀ (l : List (List Variable)) (n : Nat) (a : List Variable),
    n < l.length → (l.set n a).get? n = some a
  | [], n, a, h => absurd h (by simp)
  | x :: l, 0, a, _ => rfl
  | x :: l, n + 1, a, h => by
    simp only [List.set_cons_succ]
    exact list_set_get?_self l n a (by simpa using h)

theorem list_set_get?_ne : ∀ (l : List (List Variable)) (n m : Nat) (a : List Variable),
    n ≠ m → (l.set n a).get? m = l.get? m
  | [], _, _, _, _ => rfl
  | x :: l, 0, 0, a, h => absurd rfl h
  | x :: l, 0, m + 1, a, _ => rfl
  | x :: l, n + 1, 0, a, _ => rfl
  | x :: l, n + 1, m + 1, a, h => by
    simp only [List.set_cons_succ]
    exact list_set_get?_ne l n m a (by omega)

theorem getD_of_get? : ∀ (l : List (List Variable)) (n : Nat) (y : List Variable),
    l.get? n = some y → l.getD n [] = y
  | [], n, y, h => by simp at h
  | x :: l, 0, y, h => Option.some.inj h
  | x :: l, n + 1, y, h => by
    rw [List.getD_cons_succ]
    exact getD_of_get? l n y h

theorem ne_nil_of_get?_zero (l : List (List Variable)) (y : List Variable)
    (h : l.get? 0 = some y) : l ≠ [] := by
  intro hn
  rw [hn] at h
  simp at h

theorem mem_flatten_set_append : ∀ (vars : List (List Variable)) (d : Nat) (w : Variable),
    d < vars.length →
    ∀ v, v ∈ (vars.set d (vars.getD d [] ++ [w])).flatten ↔ (v ∈ vars.flatten ∨ v = w)
  | [], d, w, hd, v => absurd hd (by simp)
  | l :: vars, 0, w, _, v => by
    simp only [List.set_cons_zero, List.getD_cons_zero, List.flatten_cons,
      List.mem_append, List.mem_singleton]
    tauto
  | l :: vars, d + 1, w, hd, v => by
    simp only [List.set_cons_succ, List.getD_cons_succ, List.flatten_cons, List.mem_append]
    rw [mem_flatten_set_append vars d w (by simpa using hd) v]
    tauto

theorem contains_cons_mono (l : List Nat) (a t : Nat) (h : l.contains t = true) :
    (a :: l).contains t = true := by
  simp only [List.contains, List.elem_eq_mem, decide_eq_true_eq] at h ⊢
  exact List.mem_cons_of_mem _ h

theorem contains_cons_elim (l : List Nat) (a t : Nat) (h : (a :: l).contains t = true) :
    t = a ∨ l.contains t = true := by
  simp only [List.contains, List.elem_eq_mem, decide_eq_true_eq] at h ⊢
  exact List.mem_cons.mp h

theorem placeVar_SP (scope : FScope) (asyms : List Nat)
    (stores : List (Nat × Nat × Bool)) (storesPre : List Variable)
    (s : Nat) (sym : SymInfo) (hsym : lookupSym scope s = some sym)
    (g : Bool) (d : Nat) (st : SDD) :
    SP scope asyms stores storesPre st (placeVar s sym g d st) := by
  have hdlt : d < (adjustSize (d + 1) st.vars).length :=
    lt_of_lt_of_le (Nat.lt_succ_self d) (length_adjustSize (d + 1) st.vars)
  refine ⟨fun t h => h, ?_, rfl, rfl, ?_, fun t h => Or.inl h⟩
  · intro v hv
    unfold placeVar
    rw [mem_flatten_set_append _ _ _ hdlt v, flatten_adjustSize]
    exact Or.inl hv
  · rintro ⟨ha, ho, ⟨ns0, h0, hok0⟩, hrest⟩
    have hnn : st.vars ≠ [] := ne_nil_of_get?_zero _ _ h0
    have hvOK : ∀ v, v = Variable.nominal s g d sym.isAllocatable sym.isPointer sym.isTarget
        (if !st.aliasSyms.isEmpty && st.aliasSyms.contains s then
          findStore st.stores sym.offset else none) →
        (∃ s', NomOf v s') ∧
        (∀ s' g' d' h' p' t' ao', v = .nominal s' g' d' h' p' t' ao' → asyms ≠ [] →
          asyms.contains s' = true → ao' = findStore stores (symOffset scope s')) := by
      rintro v rfl
      refine ⟨⟨s, g, d, _, _, _, _, rfl⟩, ?_⟩
      rintro s' g' d' h' p' t' ao' heq hne hc
      injection heq with e1 e2 e3 e4 e5 e6 e7
      subst e1
      rw [← e7, ha, ho]
      have hie : asyms.isEmpty = false := by
        cases asyms
        · exact absurd rfl hne
        · rfl
      unfold symOffset
      rw [hie, hc, hsym]
      rfl
    constructor
    · exact ha
    constructor
    · exact ho
    constructor
    · by_cases hd0 : d = 0
      · subst hd0
        refine ⟨ns0 ++ [Variable.nominal s g 0 sym.isAllocatable sym.isPointer sym.isTarget
          (if !st.aliasSyms.isEmpty && st.aliasSyms.contains s then
            findStore st.stores sym.offset else none)], ?_, ?_⟩
        · unfold placeVar
          rw [list_set_get?_self _ _ _ hdlt]
          have hg0 : (adjustSize 1 st.vars).getD 0 [] = storesPre ++ ns0 := by
            rw [getD_adjustSize]
            exact getD_of_get? _ _ _ h0
          rw [hg0, List.append_assoc]
        · intro v hv
          rcases List.mem_append.mp hv with hv' | hv'
          · exact hok0 v hv'
          · rw [List.mem_singleton] at hv'
            exact hvOK v hv'
      · refine ⟨ns0, ?_, hok0⟩
        unfold placeVar
        rw [list_set_get?_ne _ _ _ _ hd0, get?_zero_adjustSize _ _ hnn]
        exact h0
    · intro i hi
      unfold placeVar
      by_cases hid : d = i
      · subst hid
        rw [list_set_getD_self _ _ _ hdlt, getD_adjustSize]
        intro v hv
        rcases List.mem_append.mp hv with hv' | hv'
        · exact hrest d hi v hv'
        · rw [List.mem_singleton] at hv'
          exact hvOK v hv'
      · rw [list_set_getD_ne _ _ _ _ hid, getD_adjustSize]
        exact hrest i hi

theorem placeVar_mem (s : Nat) (sym : SymInfo) (g : Bool) (d : Nat) (st : SDD) :
    ∃ v ∈ (placeVar s sym g d st).vars.flatten, NomOf v s := by
  have hdlt : d < (adjustSize (d + 1) st.vars).length :=
    lt_of_lt_of_le (Nat.lt_succ_self d) (length_adjustSize (d + 1) st.vars)
  refine ⟨Variable.nominal s g d sym.isAllocatable sym.isPointer sym.isTarget
    (if !st.aliasSyms.isEmpty && st.aliasSyms.contains s then
      findStore st.stores sym.offset else none), ?_, ⟨g, d, _, _, _, _, rfl⟩⟩
  unfold placeVar
  rw [mem_flatten_set_append _ _ _ hdlt]
  exact Or.inr rfl

theorem analyzeSyms_SP {scope : FScope} {asyms : List Nat}
    {stores : List (Nat × Nat × Bool)} {storesPre : List Variable}
    (analyzeF : Nat → SDD → Nat × SDD)
    (hf : ∀ s st, SP scope asyms stores storesPre st (analyzeF s st).2) :
    ∀ (syms : List Nat) (depth : Nat) (st : SDD),
    SP scope asyms stores storesPre st (analyzeSyms analyzeF syms depth st).2
  | [], _, st => sp_refl scope asyms stores storesPre st
  | s :: syms, depth, st => by
    show SP scope asyms stores storesPre st
      (analyzeSyms analyzeF syms (max ((analyzeF s st).1 + 1) depth) (analyzeF s st).2).2
    exact sp_trans (hf s st) (analyzeSyms_SP analyzeF hf syms _ _)

theorem analyzeBoundsList_SP {scope : FScope} {asyms : List Nat}
    {stores : List (Nat × Nat × Bool)} {storesPre : List Variable}
    (analyzeF : Nat → SDD → Nat × SDD)
    (hf : ∀ s st, SP scope asyms stores storesPre st (analyzeF s st).2) :
    ∀ (bnds : List (List Nat)) (depth : Nat) (st : SDD),
    SP scope asyms stores storesPre st (analyzeBoundsList analyzeF bnds depth st).2
  | [], _, st => sp_refl scope asyms stores storesPre st
  | syms :: bnds, depth, st => by
    show SP scope asyms stores storesPre st
      (analyzeBoundsList analyzeF bnds (analyzeSyms analyzeF syms depth st).1
        (analyzeSyms analyzeF syms depth st).2).2
    exact sp_trans (analyzeSyms_SP analyzeF hf syms depth st)
      (analyzeBoundsList_SP analyzeF hf bnds _ _)

theorem analyzeDeps_SP {scope : FScope} {asyms : List Nat}
    {stores : List (Nat × Nat × Bool)} {storesPre : List Variable}
    (analyzeF : Nat → SDD → Nat × SDD)
    (hf : ∀ s st, SP scope asyms stores storesPre st (analyzeF s st).2)
    (sym : SymInfo) (depth : Nat) (st : SDD) :
    SP scope asyms stores storesPre st (analyzeDeps analyzeF sym depth st).2 := by
  unfold analyzeDeps
  dsimp only
  have h1 : SP scope asyms stores storesPre st
      (match sym.charLen with
       | some syms => analyzeSyms analyzeF syms depth st
       | none => (depth, st)).2 := by
    cases sym.charLen with
    | none => exact sp_refl scope asyms stores storesPre st
    | some syms => exact analyzeSyms_SP analyzeF hf syms depth st
  split
  · exact sp_trans h1 (sp_trans
      (analyzeBoundsList_SP analyzeF hf sym.boundSyms _ _)
      (analyzeBoundsList_SP analyzeF hf sym.coboundSyms _ _))
  · exact h1

theorem analyzeInit_SP {scope : FScope} {asyms : List Nat}
    {stores : List (Nat × Nat × Bool)} {storesPre : List Variable}
    (analyzeF : Nat → SDD → Nat × SDD)
    (hf : ∀ s st, SP scope asyms stores storesPre st (analyzeF s st).2)
    (sym : SymInfo) (r2 : Nat × SDD) :
    SP scope asyms stores storesPre r2.2 (analyzeInit analyzeF sym r2).2.2 := by
  unfold analyzeInit
  split
  · split
    · exact analyzeSyms_SP analyzeF hf _ _ _
    · exact sp_refl scope asyms stores storesPre r2.2
  · exact sp_refl scope asyms stores storesPre r2.2

theorem seen_insert_SP (scope : FScope) (asyms : List Nat)
    (stores : List (Nat × Nat × Bool)) (storesPre : List Variable)
    (s : Nat) (st : SDD) (hmat : ¬ MatSym scope s) :
    SP scope asyms stores storesPre st { st with seen := s :: st.seen } := by
  refine ⟨fun t h => contains_cons_mono _ _ _ h, fun v h => h, rfl, rfl, ?_, ?_⟩
  · rintro ⟨ha, ho, h0, hrest⟩
    exact ⟨ha, ho, h0, hrest⟩
  · intro t h
    rcases contains_cons_elim _ _ _ h with heq | h'
    · subst heq
      exact Or.inr fun hm => absurd hm hmat
    · exact Or.inl h'

/-- Every `analyze` call has the `SP` step shape. -/
theorem analyze_SP (scope : FScope) (asyms : List Nat)
    (stores : List (Nat × Nat × Bool)) (storesPre : List Variable) :
    ∀ (fuel s : Nat) (st : SDD),
    SP scope asyms stores storesPre st (analyze fuel scope s st).2
  | 0, s, st => sp_refl scope asyms stores storesPre st
  | fuel + 1, s, st => by
    simp only [analyze]
    split
    · exact sp_refl scope asyms stores storesPre st
    · split
      · -- symbol not in the scope
        rename_i hnone
        refine seen_insert_SP scope asyms stores storesPre s st ?_
        rintro ⟨sym, hsym, _⟩
        rw [hnone] at hsym
        exact absurd hsym (by simp)
      · rename_i sym hsome
        split
        · -- procedure
          rename_i hproc
          refine seen_insert_SP scope asyms stores storesPre s st ?_
          rintro ⟨sym2, hsym2, hp2, _⟩
          rw [hsome] at hsym2
          injection hsym2 with hsym2
          rw [← hsym2] at hp2
          rw [hproc] at hp2
          exact absurd hp2 (by simp)
        · split
          · -- use/host/namelist/module/misc details
            rename_i hoth
            refine seen_insert_SP scope asyms stores storesPre s st ?_
            rintro ⟨sym2, hsym2, _, ho2⟩
            rw [hsome] at hsym2
            injection hsym2 with hsym2
            rw [← hsym2] at ho2
            rw [hoth] at ho2
            exact absurd ho2 (by simp)
          · -- materialized symbol
            dsimp only
            have hP14 : SP scope asyms stores storesPre { st with seen := s :: st.seen }
                (analyzeInit (analyze fuel scope) sym
                  (analyzeDeps (analyze fuel scope) sym
                    (if (!st.aliasSyms.isEmpty && st.aliasSyms.contains s) = true
                     then max 1 0 else 0)
                    { st with seen := s :: st.seen })).2.2 :=
              sp_trans
                (analyzeDeps_SP (analyze fuel scope)
                  (fun t st0 => analyze_SP scope asyms stores storesPre fuel t st0) sym _ _)
                (analyzeInit_SP (analyze fuel scope)
                  (fun t st0 => analyze_SP scope asyms stores storesPre fuel t st0) sym _)
            have hPfinal := placeVar_SP scope asyms stores storesPre s sym hsome
              (analyzeInit (analyze fuel scope) sym
                (analyzeDeps (analyze fuel scope) sym
                  (if (!st.aliasSyms.isEmpty && st.aliasSyms.contains s) = true
                   then max 1 0 else 0)
                  { st with seen := s :: st.seen })).1
              (analyzeInit (analyze fuel scope) sym
                (analyzeDeps (analyze fuel scope) sym
                  (if (!st.aliasSyms.isEmpty && st.aliasSyms.contains s) = true
                   then max 1 0 else 0)
                  { st with seen := s :: st.seen })).2.1
              (analyzeInit (analyze fuel scope) sym
                (analyzeDeps (analyze fuel scope) sym
                  (if (!st.aliasSyms.isEmpty && st.aliasSyms.contains s) = true
                   then max 1 0 else 0)
                  { st with seen := s :: st.seen })).2.2
            obtain ⟨m1, v1, a1, o1, g1, n1⟩ := hP14
            obtain ⟨m2, v2, a2, o2, g2, n2⟩ := hPfinal
            refine ⟨fun t h => m2 t (m1 t (contains_cons_mono _ _ _ h)),
              fun v h => v2 v (v1 v h), a2.trans a1, o2.trans o1,
              fun h => g2 (g1 (by exact h)), fun t h => ?_⟩
            rcases n2 t h with h' | h'
            · rcases n1 t h' with h'' | h''
              · rcases contains_cons_elim _ _ _ h'' with heq | h3
                · refine Or.inr fun _ => ?_
                  subst heq
                  exact placeVar_mem t sym _ _ _
                · exact Or.inl h3
              · refine Or.inr fun hm => ?_
                obtain ⟨v, hv, hn⟩ := h'' hm
                exact ⟨v, v2 v hv, hn⟩
            · exact Or.inr h'

theorem analyze_seen_self (scope : FScope) (fuel s : Nat) (st : SDD) :
    (analyze (fuel + 1) scope s st).2.seen.contains s = true := by
  simp only [analyze]
  split
  · assumption
  · split
    · simp [List.contains, List.elem_eq_mem]
    · rename_i sym hsome
      split
      · simp [List.contains, List.elem_eq_mem]
      · split
        · simp [List.contains, List.elem_eq_mem]
        · dsimp only
          have hm : (({ st with seen := s :: st.seen } : SDD)).seen.contains s = true := by
            simp [List.contains, List.elem_eq_mem]
          have hP := sp_trans
            (analyzeDeps_SP (analyze fuel scope)
              (fun t st0 => analyze_SP scope [] [] [] fuel t st0) sym
              (if (!st.aliasSyms.isEmpty && st.aliasSyms.contains s) = true
               then max 1 0 else 0) { st with seen := s :: st.seen })
            (analyzeInit_SP (analyze fuel scope)
              (fun t st0 => analyze_SP scope [] [] [] fuel t st0) sym
              (analyzeDeps (analyze fuel scope) sym
                (if (!st.aliasSyms.isEmpty && st.aliasSyms.contains s) = true
                 then max 1 0 else 0) { st with seen := s :: st.seen }))
          exact hP.1 s hm

theorem loop_SP (scope : FScope) (asyms : List Nat)
    (stores : List (Nat × Nat × Bool)) (storesPre : List Variable) :
    ∀ (l : List (Nat × SymInfo)) (st : SDD),
    SP scope asyms stores storesPre st
      (l.foldl (fun st x => (analyze (symbolFuel scope) scope x.1 st).2) st)
  | [], st => sp_refl scope asyms stores storesPre st
  | x :: l, st => by
    rw [List.foldl_cons]
    exact sp_trans (analyze_SP scope asyms stores storesPre (symbolFuel scope) x.1 st)
      (loop_SP scope asyms stores storesPre l _)

theorem loop_seen (scope : FScope) :
    ∀ (l : List (Nat × SymInfo)) (st : SDD) (x : Nat × SymInfo), x ∈ l →
    (l.foldl (fun st x => (analyze (symbolFuel scope) scope x.1 st).2) st).seen.contains
      x.1 = true
  | [], _, x, hx => absurd hx (by simp)
  | y :: l, st, x, hx => by
    rw [List.foldl_cons]
    rcases List.mem_cons.mp hx with heq | hx'
    · refine (loop_SP scope [] [] [] l _).1 x.1 ?_
      rw [heq]
      exact analyze_seen_self scope scope.length y.1 st
    · exact loop_seen scope l _ x hx'

/-- The alias symbols recorded by `analyzeAliases` on the initial state. -/
def asymsOf (scope : FScope) : List Nat := ((bigAliasSets scope).map Prod.snd).flatten

/-- The stores recorded by `analyzeAliases` on the initial state. -/
def storesTOf (scope : FScope) : List (Nat × Nat × Bool) :=
  (bigAliasSets scope).map (storeOfSet scope)

/-- The aggregate-store Variables `prepareStores` places at the front of the
depth-0 bucket. -/
def storesPreOf (scope : FScope) : List Variable :=
  (storesTOf scope).map fun v => Variable.intervalStore v.1 v.2.1 v.2.2

/-- The state after `analyzeAliases`, `prepareStores` and the `analyze` loop. -/
def sddRun (scope : FScope) : SDD :=
  scope.foldl (fun st x => (analyze (symbolFuel scope) scope x.1 st).2)
    (prepareStores (analyzeAliases scope ⟨[], [], [], []⟩))

theorem processSymbolTable_true_eq (scope : FScope) :
    processSymbolTable scope true = (sddRun scope).vars.flatten := rfl

theorem st2_eq (scope : FScope) :
    prepareStores (analyzeAliases scope ⟨[], [], [], []⟩) =
      ⟨[], asymsOf scope, storesTOf scope, [storesPreOf scope]⟩ := rfl

theorem GS_st2 (scope : FScope) :
    GS scope (asymsOf scope) (storesTOf scope) (storesPreOf scope)
      (prepareStores (analyzeAliases scope ⟨[], [], [], []⟩)) := by
  rw [st2_eq]
  refine ⟨rfl, rfl, ⟨[], by simp, fun v hv => absurd hv (by simp)⟩, ?_⟩
  intro i hi v hv
  exfalso
  have hnil : (([storesPreOf scope] : List (List Variable))).getD i [] = [] := by
    match i, hi with
    | i + 1, _ => rfl
  rw [hnil] at hv
  simp at hv

theorem sddRun_GS (scope : FScope) :
    GS scope (asymsOf scope) (storesTOf scope) (storesPreOf scope) (sddRun scope) :=
  (loop_SP scope (asymsOf scope) (storesTOf scope) (storesPreOf scope) scope
    (prepareStores (analyzeAliases scope ⟨[], [], [], []⟩))).2.2.2.2.1 (GS_st2 scope)

theorem sddRun_exists (scope : FScope) (x : Nat × SymInfo) (hx : x ∈ scope)
    (hm : MatSym scope x.1) :
    ∃ v ∈ (sddRun scope).vars.flatten, NomOf v x.1 := by
  have hseen := loop_seen scope scope
    (prepareStores (analyzeAliases scope ⟨[], [], [], []⟩)) x hx
  have h6 := (loop_SP scope (asymsOf scope) (storesTOf scope) (storesPreOf scope) scope
    (prepareStores (analyzeAliases scope ⟨[], [], [], []⟩))).2.2.2.2.2 x.1 hseen
  rcases h6 with h | h
  · rw [st2_eq] at h
    exact absurd h (by simp [List.contains])
  · exact h hm

theorem out_decomp (scope : FScope) :
    ∃ tail, processSymbolTable scope true = storesPreOf scope ++ tail ∧
      ∀ v ∈ tail, (∃ s, NomOf v s) ∧
        (∀ s g d h p t ao, v = .nominal s g d h p t ao → asymsOf scope ≠ [] →
          (asymsOf scope).contains s = true →
          ao = findStore (storesTOf scope) (symOffset scope s)) := by
  obtain ⟨ha, ho, ⟨ns0, h0, hok0⟩, hrest⟩ := sddRun_GS scope
  rw [processSymbolTable_true_eq]
  match hV : (sddRun scope).vars, h0 with
  | b0 :: rest, h0 => ?_
  rw [hV] at hrest
  injection h0 with h0
  refine ⟨ns0 ++ rest.flatten, ?_, ?_⟩
  · rw [List.flatten_cons, h0, List.append_assoc]
  · intro v hv
    rcases List.mem_append.mp hv with hv' | hv'
    · exact hok0 v hv'
    · rw [List.mem_flatten] at hv'
      obtain ⟨l, hl, hvl⟩ := hv'
      obtain ⟨j, hj⟩ := List.get?_of_mem hl
      have hbucket : ((b0 :: rest : List (List Variable))).getD (j + 1) [] = l := by
        rw [List.getD_cons_succ]
        exact getD_of_get? rest j l hj
      have := hrest (j + 1) (by omega) v (by rw [hbucket]; exact hvl)
      exact this

theorem aliasMembers_mem (scope : FScope) (hnd : (scope.map Prod.fst).Nodup)
    (iv : Nat × Nat) (s : Nat) (hs : s ∈ aliasMembers scope iv) :
    ∃ info, lookupSym scope s = some info ∧ skipSymbol info = false ∧
      IntervalSet.find (scopeIntervals scope) info.offset = some iv := by
  unfold aliasMembers at hs
  rw [List.mem_map] at hs
  obtain ⟨x, hx, hxs⟩ := hs
  rw [List.mem_filter] at hx
  obtain ⟨hxmem, hcond⟩ := hx
  rw [Bool.and_eq_true] at hcond
  obtain ⟨hskip, hfind⟩ := hcond
  refine ⟨x.2, by rw [← hxs]; exact lookupSym_of_mem scope hnd x hxmem, ?_, ?_⟩
  · cases h : skipSymbol x.2
    · rfl
    · rw [h] at hskip
      exact absurd hskip (by simp)
  · exact eq_of_beq hfind

theorem member_mem_asyms (scope : FScope) (iv : Nat × Nat)
    (hiv : iv ∈ scopeIntervals scope) (hbig : 1 < (aliasMembers scope iv).length)
    (s : Nat) (hs : s ∈ aliasMembers scope iv) : (asymsOf scope).contains s = true := by
  unfold asymsOf
  simp only [List.contains, List.elem_eq_mem, decide_eq_true_eq]
  rw [List.mem_flatten]
  refine ⟨aliasMembers scope iv, ?_, hs⟩
  rw [List.mem_map]
  exact ⟨(iv, aliasMembers scope iv), (bigAliasSets_mem scope _).mpr ⟨hiv, rfl, hbig⟩, rfl⟩

theorem asymsOf_ne_nil (scope : FScope) (iv : Nat × Nat)
    (hiv : iv ∈ scopeIntervals scope) (hbig : 1 < (aliasMembers scope iv).length)
    (s : Nat) (hs : s ∈ aliasMembers scope iv) : asymsOf scope ≠ [] := by
  intro h
  have := member_mem_asyms scope iv hiv hbig s hs
  rw [h] at this
  simp [List.contains] at this

theorem ivs_start_inj (scope : FScope) (hs : ∀ x ∈ scope, 1 ≤ x.2.size)
    (iv iv' : Nat × Nat) (h1 : iv ∈ scopeIntervals scope)
    (h2 : iv' ∈ scopeIntervals scope) (heq : iv'.1 = iv.1) : iv' = iv := by
  have hwf := scopeIntervals_wf scope hs
  rcases pairwise_mem_rel _ _ hwf.2 iv' h2 iv h1 with h | h | h
  · exact h
  · have := hwf.1 iv' h2
    omega
  · have := hwf.1 iv h1
    omega

theorem ivs_nodup (scope : FScope) (hs : ∀ x ∈ scope, 1 ≤ x.2.size) :
    (scopeIntervals scope).Nodup := by
  have hwf := scopeIntervals_wf scope hs
  refine hwf.2.imp_of_mem ?_
  intro a b ha hb hr he
  rw [he] at hr
  have := hwf.1 b hb
  omega

theorem countP_eq_one_of_unique {α : Type} (p : α → Bool) :
    ∀ (l : List α) (x : α), x ∈ l → p x = true →
    (∀ y ∈ l, p y = true → y = x) → l.Nodup → l.countP p = 1
  | [], x, hm, _, _, _ => absurd hm (by simp)
  | a :: l, x, hm, hp, huniq, hnd => by
    rw [List.nodup_cons] at hnd
    rw [List.countP_cons]
    rcases List.mem_cons.mp hm with heq | hm'
    · have hpa : p a = true := by rw [heq] at hp; exact hp
      rw [hpa]
      have hz : l.countP p = 0 := by
        rw [List.countP_eq_zero]
        intro y hy hpy
        have := huniq y (List.mem_cons_of_mem _ hy) hpy
        rw [this, heq] at hy
        exact hnd.1 hy
      simp [hz]
    · have hpa : p a = false := by
        cases hpa : p a
        · rfl
        · have := huniq a (List.mem_cons_self _ _) hpa
          rw [this] at hnd
          exact absurd hm' hnd.1
      rw [hpa]
      have hrec := countP_eq_one_of_unique p l x hm' hp
        (fun y hy => huniq y (List.mem_cons_of_mem _ hy)) hnd.2
      simpa using hrec

/-- An `IntervalStore` Variable beginning at `b`. -/
def isStoreAt (b : Nat) : Variable → Bool
  | .intervalStore b' _ _ => b' == b
  | _ => false

theorem storesPre_shape (scope : FScope) (v : Variable) (hv : v ∈ storesPreOf scope) :
    ∃ b l g, v = .intervalStore b l g := by
  unfold storesPreOf at hv
  rw [List.mem_map] at hv
  obtain ⟨w, _, hw⟩ := hv
  exact ⟨w.1, w.2.1, w.2.2, hw.symm⟩

theorem aliasMembers_mem_pair (scope : FScope) (iv : Nat × Nat) (s : Nat)
    (hs : s ∈ aliasMembers scope iv) :
    ∃ info, (s, info) ∈ scope ∧ skipSymbol info = false ∧
      IntervalSet.find (scopeIntervals scope) info.offset = some iv := by
  unfold aliasMembers at hs
  rw [List.mem_map] at hs
  obtain ⟨x, hx, hxs⟩ := hs
  rw [List.mem_filter] at hx
  obtain ⟨hxmem, hcond⟩ := hx
  rw [Bool.and_eq_true] at hcond
  obtain ⟨hskip, hfind⟩ := hcond
  refine ⟨x.2, ?_, ?_, eq_of_beq hfind⟩
  · have hxeq : x = (s, x.2) := by
      rw [← hxs]
    rw [← hxeq]
    exact hxmem
  · cases h : skipSymbol x.2
    · rfl
    · rw [h] at hskip
      exact absurd hskip (by simp)

/-- The start of an `IntervalStore` Variable. -/
def storeStart : Variable → Nat
  | .intervalStore b _ _ => b
  | .nominal _ _ _ _ _ _ _ => 0

theorem storesPre_nodup (scope : FScope) (hs : ∀ x ∈ scope, 1 ≤ x.2.size) :
    (storesPreOf scope).Nodup := by
  have h1 : ((scopeIntervals scope).map fun iv => (iv, aliasMembers scope iv)).Nodup :=
    (ivs_nodup scope hs).map (fun a b h => congrArg Prod.fst h)
  have h2 : (bigAliasSets scope).Nodup := h1.filter _
  unfold storesPreOf storesTOf
  rw [List.map_map]
  refine List.Nodup.map_on ?_ h2
  intro a ha b hb hab
  obtain ⟨hai, ham, _⟩ := (bigAliasSets_mem scope a).mp ha
  obtain ⟨hbi, hbm, _⟩ := (bigAliasSets_mem scope b).mp hb
  have hstart : a.1.1 = b.1.1 := by
    have := congrArg storeStart hab
    simpa [storeStart, storeOfSet] using this
  have hiv : a.1 = b.1 := ivs_start_inj scope hs b.1 a.1 hbi hai hstart
  calc a = (a.1, a.2) := rfl
    _ = (b.1, b.2) := by rw [hiv, ham, hbm, hiv]
    _ = b := rfl

/-- C5: for every scope with overlapping-storage (equivalence) groups, each
alias set with more than one member produces exactly one IntervalStore
Variable (for the merged interval, marked global iff some member symbol is
global), every IntervalStore precedes every Nominal in the final allocation
order (stores sit at depth 0, in front), and every member symbol's Nominal is
tagged with the merged interval's starting offset. -/
theorem c5_alias_interval_stores (scope : FScope) (hwf : WFScope scope)
    (iv : Nat × Nat) (hiv : iv ∈ scopeIntervals scope)
    (hbig : 1 < (aliasMembers scope iv).length) :
    ((processSymbolTable scope true).countP (isStoreAt iv.1) = 1 ∧
      Variable.intervalStore iv.1 (iv.2 - iv.1 + 1)
        ((aliasMembers scope iv).any fun n =>
          match lookupSym scope n with
          | some sy => symbolIsGlobal sy
          | none => false) ∈ processSymbolTable scope true) ∧
    (∀ i j vi vj, (processSymbolTable scope true).get? i = some vi →
      (processSymbolTable scope true).get? j = some vj →
      (∃ b l g, vi = .intervalStore b l g) → (∃ s, NomOf vj s) → i < j) ∧
    (∀ s ∈ aliasMembers scope iv,
      (∃ v ∈ processSymbolTable scope true, NomOf v s) ∧
      ∀ v ∈ processSymbolTable scope true, ∀ g d h p t ao,
        v = .nominal s g d h p t ao → ao = some iv.1) := by
  obtain ⟨tail, hout, htail⟩ := out_decomp scope
  have hsl : (iv, aliasMembers scope iv) ∈ bigAliasSets scope :=
    (bigAliasSets_mem scope _).mpr ⟨hiv, rfl, hbig⟩
  have hx_pre : Variable.intervalStore iv.1 (iv.2 - iv.1 + 1)
      ((aliasMembers scope iv).any fun n =>
        match lookupSym scope n with
        | some sy => symbolIsGlobal sy
        | none => false) ∈ storesPreOf scope :=
    List.mem_map_of_mem (fun v => Variable.intervalStore v.1 v.2.1 v.2.2)
      (List.mem_map_of_mem (storeOfSet scope) hsl)
  have htail_nom : ∀ v ∈ tail, ∃ s, NomOf v s := fun v hv => (htail v hv).1
  refine ⟨⟨?_, ?_⟩, ?_, ?_⟩
  · -- exactly one store with this start
    rw [hout, List.countP_append]
    have hzero : tail.countP (isStoreAt iv.1) = 0 := by
      rw [List.countP_eq_zero]
      intro v hv
      obtain ⟨s, g, d, h, p, t, ao, rfl⟩ := htail_nom v hv
      simp [isStoreAt]
    have hone : (storesPreOf scope).countP (isStoreAt iv.1) = 1 := by
      refine countP_eq_one_of_unique _ _ _ hx_pre (by simp [isStoreAt]) ?_
        (storesPre_nodup scope hwf.sizes)
      intro y hy hpy
      unfold storesPreOf storesTOf at hy
      rw [List.map_map, List.mem_map] at hy
      obtain ⟨s', hs', hys⟩ := hy
      obtain ⟨hiv', hmem', hlen'⟩ := (bigAliasSets_mem scope s').mp hs'
      rw [← hys] at hpy
      have hstart : s'.1.1 = iv.1 := by
        simpa [isStoreAt, storeOfSet, Function.comp] using hpy
      have hiveq : s'.1 = iv := ivs_start_inj scope hwf.sizes iv s'.1 hiv hiv' hstart
      rw [← hys]
      have hseq : s' = (iv, aliasMembers scope iv) := by
        calc s' = (s'.1, s'.2) := rfl
          _ = (iv, aliasMembers scope iv) := by rw [hiveq, hmem', hiveq]
      rw [hseq]
      rfl
    rw [hzero, hone]
  · rw [hout]
    exact List.mem_append_left _ hx_pre
  · -- stores precede nominals
    intro i j vi vj hi hj hstore hnom
    rw [hout] at hi hj
    have hilt : i < (storesPreOf scope).length := by
      by_contra hge
      rw [Nat.not_lt] at hge
      rw [List.get?_append_right hge] at hi
      have hvi : vi ∈ tail := List.get?_mem hi
      obtain ⟨s, g, d, h, p, t, ao, heq⟩ := htail_nom vi hvi
      obtain ⟨b, l, g', heq'⟩ := hstore
      rw [heq] at heq'
      exact absurd heq' (by simp)
    have hjge : (storesPreOf scope).length ≤ j := by
      by_contra hlt
      rw [Nat.not_le] at hlt
      rw [List.get?_append hlt] at hj
      have hvj : vj ∈ storesPreOf scope := List.get?_mem hj
      obtain ⟨b, l, g, heq⟩ := storesPre_shape scope vj hvj
      obtain ⟨s, g', d, h, p, t, ao, heq'⟩ := hnom
      rw [heq] at heq'
      exact absurd heq' (by simp)
    omega
  · -- member nominals
    intro s hs
    obtain ⟨info, hmempair, hskip, hfind⟩ := aliasMembers_mem_pair scope iv s hs
    have hlook : lookupSym scope s = some info :=
      lookupSym_of_mem scope hwf.nodup (s, info) hmempair
    have hobj : info.hasObjectEntityDetails = true ∧ info.inCommonBlock = false := by
      unfold skipSymbol at hskip
      rw [Bool.or_eq_false_iff] at hskip
      exact ⟨by simpa using hskip.1, hskip.2⟩
    have hdet := hwf.details (s, info) hmempair hobj.1
    have hmat : MatSym scope s := ⟨info, hlook, hdet.1, hdet.2⟩
    have hbounds : iv.1 ≤ info.offset ∧ info.offset ≤ iv.2 := by
      have hp := List.find?_some hfind
      simpa using hp
    constructor
    · have := sddRun_exists scope (s, info) hmempair hmat
      rw [← processSymbolTable_true_eq] at this
      exact this
    · intro v hv g d h p t ao heq
      rw [hout] at hv
      rcases List.mem_append.mp hv with hv' | hv'
      · obtain ⟨b, l, g', heq'⟩ := storesPre_shape scope v hv'
        rw [heq] at heq'
        exact absurd heq' (by simp)
      · have hao := (htail v hv').2 s g d h p t ao heq
          (asymsOf_ne_nil scope iv hiv hbig s hs)
          (member_mem_asyms scope iv hiv hbig s hs)
        rw [hao]
        have hoff : symOffset scope s = info.offset := by
          unfold symOffset
          rw [hlook]
        rw [hoff]
        exact findStore_of_member scope hwf.sizes iv hiv hbig info.offset
          hbounds.1 hbounds.2

/-- Two overlapping symbols (EQUIVALENCE): ids 1 and 2 at offsets 0 and 4 of
size 8 each, merging into the interval [0, 11]. -/
def c5Scope : FScope :=
  [(1, { isProcedure := false, isOtherDetails := false,
         hasObjectEntityDetails := true, isSaved := false, charLen := none,
         boundSyms := [], coboundSyms := [], init := none,
         isAllocatable := false, isPointer := false, isTarget := false,
         offset := 0, size := 8, inCommonBlock := false }),
   (2, { isProcedure := false, isOtherDetails := false,
         hasObjectEntityDetails := true, isSaved := false, charLen := none,
         boundSyms := [], coboundSyms := [], init := none,
         isAllocatable := false, isPointer := false, isTarget := false,
         offset := 4, size := 8, inCommonBlock := false })]

theorem c5_alias_interval_stores_witness :
    (0, 11) ∈ scopeIntervals c5Scope ∧ 1 < (aliasMembers c5Scope (0, 11)).length ∧
      (processSymbolTable c5Scope true).countP (isStoreAt 0) = 1 :=
  ⟨by decide, by decide,
   (c5_alias_interval_stores c5Scope ⟨by decide, by decide, by decide⟩ (0, 11)
     (by decide) (by decide)).1.1⟩
